import Mathlib

/-!
Recursive directory iterator.

A shallow embedding of `src/rec_dir_it.hpp` / `src/rec_dir_it.cpp` (namespace `stdlike`):
the `directory` entry snapshot, the option flags, and the traversal engine
`recursive_directory_iterator` with its `iterator_impl` state.

Modelling conventions.

* A `std::filesystem::path` is the list of its components; `current_path / d_name`
  appends one component and `==` on paths is equality of the component lists.
* The operating system is a static `FileSystem`: the results of `lstat`, `stat` and
  `opendir` for every path.  A successful `opendir` hands out the sequence of results
  that the successive `readdir` calls on the new handle will produce.
* A `DIR*` is a handle identity together with the results it has not delivered yet.
  The table of handles (`HandleTable`) records how many handles were opened and which
  identities were passed to `closedir`.
* A C++ exception is an explicit `threw` outcome that carries the state as the
  throwing code left it.
* Machine integers are `Int`/`Nat`; the narrowing stores into `int` members are explicit.
-/

namespace stdlike

/-! ## Paths and metadata records -/

/-- A path, as the list of its components. -/
abbrev Path := List String

/-- The fields of `struct stat` that the program reads. -/
structure struct_stat where
  st_mode : Nat
  st_size : Int
  st_nlink : Nat
  st_mtime : Int
deriving DecidableEq, Repr

/-- File-type mask of `st_mode` (`<sys/stat.h>`, octal 0170000). -/
def S_IFMT : Nat := 0o170000
/-- Directory (octal 0040000). -/
def S_IFDIR : Nat := 0o040000
/-- Character device (octal 0020000). -/
def S_IFCHR : Nat := 0o020000
/-- Block device (octal 0060000). -/
def S_IFBLK : Nat := 0o060000
/-- Regular file (octal 0100000). -/
def S_IFREG : Nat := 0o100000
/-- FIFO (octal 0010000). -/
def S_IFIFO : Nat := 0o010000
/-- Symbolic link (octal 0120000). -/
def S_IFLNK : Nat := 0o120000
/-- Socket (octal 0140000). -/
def S_IFSOCK : Nat := 0o140000

def S_ISDIR (mode : Nat) : Bool := (mode &&& S_IFMT) == S_IFDIR
def S_ISCHR (mode : Nat) : Bool := (mode &&& S_IFMT) == S_IFCHR
def S_ISBLK (mode : Nat) : Bool := (mode &&& S_IFMT) == S_IFBLK
def S_ISREG (mode : Nat) : Bool := (mode &&& S_IFMT) == S_IFREG
def S_ISFIFO (mode : Nat) : Bool := (mode &&& S_IFMT) == S_IFIFO
def S_ISLNK (mode : Nat) : Bool := (mode &&& S_IFMT) == S_IFLNK
def S_ISSOCK (mode : Nat) : Bool := (mode &&& S_IFMT) == S_IFSOCK

/-- Conversion of an integer value to the 32-bit `int` of the `directory` members. -/
def to_int (x : Int) : Int := (x + 2 ^ 31) % 2 ^ 32 - 2 ^ 31

/-! ## `directory` (the Entry) -/

/-- The data members of `class directory`. -/
structure directory where
  _path : Path
  _is_symlink : Bool
  _is_directory : Bool
  _is_regular_file : Bool
  _is_block_file : Bool
  _is_character_file : Bool
  _is_socket : Bool
  _is_fifo : Bool
  _file_size : Int
  _hard_link_count : Int
  _last_write_time : Int
deriving DecidableEq, Repr

/-- The defaulted constructor `directory() = default` (member initialisers of the header). -/
def directory.empty : directory :=
  { _path := [], _is_symlink := false, _is_directory := false, _is_regular_file := false,
    _is_block_file := false, _is_character_file := false, _is_socket := false,
    _is_fifo := false, _file_size := 0, _hard_link_count := 0, _last_write_time := 0 }

/-- `directory::directory(const path& p, const struct stat& st, bool is_symlink)`. -/
def directory.construct (p : Path) (st : struct_stat) (is_symlink : Bool) : directory :=
  { _path := p
    _is_symlink := is_symlink
    _is_directory := S_ISDIR st.st_mode
    _is_regular_file := S_ISREG st.st_mode
    _is_block_file := S_ISBLK st.st_mode
    _is_character_file := S_ISCHR st.st_mode
    _is_socket := S_ISSOCK st.st_mode
    _is_fifo := S_ISFIFO st.st_mode
    _file_size := to_int (if S_ISREG st.st_mode then st.st_size else 0)
    _hard_link_count := to_int st.st_nlink
    _last_write_time := st.st_mtime }

def directory.path (d : directory) : Path := d._path
def directory.is_directory (d : directory) : Bool := d._is_directory
def directory.is_regular_file (d : directory) : Bool := d._is_regular_file
def directory.is_symlink (d : directory) : Bool := d._is_symlink
def directory.is_block_file (d : directory) : Bool := d._is_block_file
def directory.is_character_file (d : directory) : Bool := d._is_character_file
def directory.is_socket (d : directory) : Bool := d._is_socket
def directory.is_fifo (d : directory) : Bool := d._is_fifo
def directory.file_size (d : directory) : Int := d._file_size
def directory.hard_link_count (d : directory) : Int := d._hard_link_count
def directory.last_write_time (d : directory) : Int := d._last_write_time

/-- How many of the seven node-kind flags of an entry are set. -/
def directory.kind_flag_count (d : directory) : Nat :=
  [d.is_directory, d.is_regular_file, d.is_symlink, d.is_block_file,
   d.is_character_file, d.is_socket, d.is_fifo].count true

/-! ## Option flags -/

/-- The underlying integer of `enum class directory_options`. -/
abbrev directory_options := Nat

namespace directory_options
def none : directory_options := 0
def follow_directory_symlink : directory_options := 1 <<< 0
def skip_permission_denied : directory_options := 1 <<< 1
end directory_options

/-- `bool HasOption(directory_options options, directory_options flag)`. -/
def HasOption (options flag : directory_options) : Bool := (options &&& flag) == flag

/-! ## The operating system interface -/

/-- One result of `readdir`: a directory entry with its `d_name`, or a null result with
`errno` set.  The null result with `errno == 0` is the end of the sequence. -/
inductive ReadItem where
  | entry (d_name : String)
  | failure
deriving DecidableEq, Repr

/-- The answers of the operating system: `none` is the failing result (`-1`, `nullptr`). -/
structure FileSystem where
  lstat : Path → Option struct_stat
  stat : Path → Option struct_stat
  opendir : Path → Option (List ReadItem)

/-- An open directory stream (`DIR*`): its identity and the results still to be read. -/
structure DIR where
  id : Nat
  pending : List ReadItem
deriving DecidableEq, Repr

/-- The directory handles of the process: `opened` handles were created so far (their
identities are `0 .. opened - 1`), `closed` lists every identity given to `closedir`,
most recent first. -/
structure HandleTable where
  opened : Nat
  closed : List Nat
deriving DecidableEq, Repr

/-- `opendir(path)`: a fresh handle on success. -/
def opendir (fs : FileSystem) (path : Path) (os : HandleTable) : Option DIR × HandleTable :=
  match fs.opendir path with
  | Option.none => (Option.none, os)
  | some items => (some { id := os.opened, pending := items }, { os with opened := os.opened + 1 })

/-- `closedir(dir)`. -/
def closedir (dir : DIR) (os : HandleTable) : HandleTable :=
  { os with closed := dir.id :: os.closed }

/-! ## Errors -/

/-- The `std::runtime_error`s of the program, one constructor per message. -/
inductive Error where
  /-- "Нет доступа к директории: " (`lstat` of the root failed). -/
  | no_access (path : Path)
  /-- "Путь не является директорией: ". -/
  | not_a_directory (path : Path)
  /-- "Не удалось открыть директорию: " (`opendir` failed). -/
  | open_failed (path : Path)
  /-- "Ошибка чтения директории: " (`readdir` failed). -/
  | read_failed (path : Path)
  /-- "Ошибка lstat для файла: ". -/
  | lstat_failed (path : Path)
  /-- "Ошибка stat для символической ссылки: ". -/
  | stat_failed (path : Path)
deriving DecidableEq, Repr

/-- Result of a call that may throw: the state after a normal return, or the exception
together with the state as the call left it. -/
inductive Outcome (σ : Type) where
  | ok (s : σ)
  | threw (e : Error) (s : σ)
deriving DecidableEq, Repr

/-! ## `iterator_impl` -/

/-- The data members of `recursive_directory_iterator::iterator_impl`.  The head of
`dir_stack` is the top of the `std::stack`. -/
structure iterator_impl where
  dir_stack : List (DIR × Path)
  current_entry : directory
  options : directory_options
  current_depth : Int
  at_end : Bool
deriving DecidableEq, Repr

/-- The handle table together with the traversal state that owns some of its handles. -/
structure Machine where
  os : HandleTable
  impl : iterator_impl
deriving DecidableEq, Repr

/-- What one pass through the body of the `while` loop of `Advance` ends with. -/
inductive Step where
  | continue_ (m : Machine)
  | return_ (m : Machine)
  | throw_ (e : Error) (m : Machine)
deriving DecidableEq, Repr

/-- The block `DIR* subdir = opendir(full_path); if (subdir != nullptr) { emplace;
current_depth++; } else { if (!skip_permission_denied) throw; }`, which `Advance`
has twice (lines 161-170 and 182-191). -/
def Advance.open_subdir (fs : FileSystem) (m : Machine) (full_path : Path) : Outcome Machine :=
  match opendir fs full_path m.os with
  | (some subdir, os) =>
    Outcome.ok { os := os
                 impl := { m.impl with dir_stack := (subdir, full_path) :: m.impl.dir_stack
                                       current_depth := m.impl.current_depth + 1 } }
  | (Option.none, os) =>
    if !HasOption m.impl.options directory_options.skip_permission_denied then
      Outcome.threw (Error.open_failed full_path) { m with os := os }
    else
      Outcome.ok { m with os := os }

/-- Lines 178-193 of `Advance`: the entry built from the non-following metadata. -/
def Advance.plain (fs : FileSystem) (m : Machine) (full_path : Path) (st : struct_stat)
    (is_symlink : Bool) : Step :=
  let m1 : Machine :=
    { m with impl := { m.impl with current_entry := directory.construct full_path st is_symlink } }
  if S_ISDIR st.st_mode then
    match Advance.open_subdir fs m1 full_path with
    | Outcome.ok m2 => Step.return_ m2
    | Outcome.threw e m2 => Step.throw_ e m2
  else
    Step.return_ m1

/-- One pass through the body of `while (!dir_stack.empty())` in `Advance`, entered with
`dir_stack.top() = (current_dir, current_path)` above the frames `rest`. -/
def Advance.body (fs : FileSystem) (m : Machine) (current_dir : DIR) (current_path : Path)
    (rest : List (DIR × Path)) : Step :=
  let skip := HasOption m.impl.options directory_options.skip_permission_denied
  match current_dir.pending with
  | [] =>
    Step.continue_ { os := closedir current_dir m.os
                     impl := { m.impl with dir_stack := rest
                                           current_depth := m.impl.current_depth - 1 } }
  | ReadItem.failure :: more =>
    if !skip then
      Step.throw_ (Error.read_failed current_path)
        { m with impl := { m.impl with
            dir_stack := ({ current_dir with pending := more }, current_path) :: rest } }
    else
      Step.continue_ { os := closedir current_dir m.os
                       impl := { m.impl with dir_stack := rest
                                             current_depth := m.impl.current_depth - 1 } }
  | ReadItem.entry d_name :: more =>
    let m1 : Machine :=
      { m with impl := { m.impl with
          dir_stack := ({ current_dir with pending := more }, current_path) :: rest } }
    if d_name == "." || d_name == ".." then
      Step.continue_ m1
    else
      let full_path := current_path ++ [d_name]
      match fs.lstat full_path with
      | Option.none =>
        if !skip then Step.throw_ (Error.lstat_failed full_path) m1 else Step.continue_ m1
      | some st =>
        let is_symlink := S_ISLNK st.st_mode
        let should_follow_symlink :=
          is_symlink && HasOption m.impl.options directory_options.follow_directory_symlink
        if should_follow_symlink then
          match fs.stat full_path with
          | Option.none =>
            if !skip then Step.throw_ (Error.stat_failed full_path) m1 else Step.continue_ m1
          | some target_st =>
            if S_ISDIR target_st.st_mode then
              match Advance.open_subdir fs m1 full_path with
              | Outcome.threw e m2 => Step.throw_ e m2
              | Outcome.ok m2 =>
                Step.return_
                  { m2 with impl := { m2.impl with
                      current_entry := directory.construct full_path target_st is_symlink } }
            else
              Advance.plain fs m1 full_path st is_symlink
        else
          Advance.plain fs m1 full_path st is_symlink

/-- The `while` loop of `Advance` run for at most `fuel` passes; `none` when the passes
are used up before the loop ends. -/
def Advance.loop (fs : FileSystem) : Nat → Machine → Option (Outcome Machine)
  | fuel, m =>
    match m.impl.dir_stack with
    | [] => some (Outcome.ok { m with impl := { m.impl with at_end := true } })
    | (current_dir, current_path) :: rest =>
      match fuel with
      | 0 => Option.none
      | fuel + 1 =>
        match Advance.body fs m current_dir current_path rest with
        | Step.continue_ m1 => Advance.loop fs fuel m1
        | Step.return_ m1 => some (Outcome.ok m1)
        | Step.throw_ e m1 => some (Outcome.threw e m1)

/-- An upper bound on the passes the loop can make: every pass that continues either
consumes one pending read result of the top handle or removes the top frame. -/
def stack_measure (stack : List (DIR × Path)) : Nat :=
  (stack.map (fun frame => frame.1.pending.length + 1)).sum

/-- `void Advance()`.  The loop is given `stack_measure` passes, which always suffice
(`Advance.loop_isSome`); the fallback value is never taken. -/
def Advance (fs : FileSystem) (m : Machine) : Outcome Machine :=
  (Advance.loop fs (stack_measure m.impl.dir_stack) m).getD (Outcome.ok m)

/-- `iterator_impl()`: the state behind a default-constructed iterator. -/
def iterator_impl.default : iterator_impl :=
  { dir_stack := [], current_entry := directory.empty, options := directory_options.none,
    current_depth := 0, at_end := true }

/-- Result of a constructor call: the constructed object, or the exception; then no
object exists and only the handle table remains. -/
inductive Constructed where
  | ok (m : Machine)
  | threw (e : Error) (os : HandleTable)
deriving DecidableEq, Repr

/-- `iterator_impl(const path& path, directory_options opts)`.  When `Advance` throws
inside the constructor the object is never completed, so `~iterator_impl` does not run
and the handles on `dir_stack` stay as they are in the table. -/
def iterator_impl.construct (fs : FileSystem) (os : HandleTable) (path : Path)
    (opts : directory_options) : Constructed :=
  let init : iterator_impl :=
    { dir_stack := [], current_entry := directory.empty, options := opts,
      current_depth := 0, at_end := false }
  match fs.lstat path with
  | Option.none =>
    if !HasOption opts directory_options.skip_permission_denied then
      Constructed.threw (Error.no_access path) os
    else
      Constructed.ok { os := os, impl := { init with at_end := true } }
  | some st =>
    if !S_ISDIR st.st_mode then
      Constructed.threw (Error.not_a_directory path) os
    else
      match opendir fs path os with
      | (some dir, os1) =>
        match Advance fs { os := os1, impl := { init with dir_stack := [(dir, path)] } } with
        | Outcome.ok m => Constructed.ok m
        | Outcome.threw e m => Constructed.threw e m.os
      | (Option.none, os1) =>
        if !HasOption opts directory_options.skip_permission_denied then
          Constructed.threw (Error.open_failed path) os1
        else
          Constructed.ok { os := os1, impl := { init with at_end := true } }

/-- `~iterator_impl()`: closes every handle left on the stack, top first. -/
def iterator_impl.destroy (m : Machine) : HandleTable :=
  m.impl.dir_stack.foldl (fun os frame => closedir frame.1 os) m.os

/-! ## `recursive_directory_iterator` -/

/-- The iterator value: `std::shared_ptr<iterator_impl> _impl`, seen by its single owner;
`none` is the null pointer. -/
structure recursive_directory_iterator where
  _impl : Option iterator_impl
deriving DecidableEq, Repr

/-- An iterator together with the handle table of the process it lives in. -/
structure Session where
  os : HandleTable
  it : recursive_directory_iterator
deriving DecidableEq, Repr

namespace recursive_directory_iterator

/-- `recursive_directory_iterator()`: points at a default `iterator_impl`. -/
def default : recursive_directory_iterator := { _impl := some iterator_impl.default }

/-- `recursive_directory_iterator(path, options)`. -/
def construct (fs : FileSystem) (os : HandleTable) (path : Path) (options : directory_options) :
    Except (Error × HandleTable) Session :=
  match iterator_impl.construct fs os path options with
  | Constructed.ok m => Except.ok { os := m.os, it := { _impl := some m.impl } }
  | Constructed.threw e os1 => Except.error (e, os1)

/-- `bool is_end() const`. -/
def is_end (it : recursive_directory_iterator) : Bool :=
  match it._impl with
  | Option.none => true
  | some impl => impl.at_end

/-- `directory operator*() const`; on a null `_impl` the source has no defined result and
the model gives the empty entry. -/
def deref (it : recursive_directory_iterator) : directory :=
  match it._impl with
  | some impl => impl.current_entry
  | Option.none => directory.empty

/-- `recursive_directory_iterator& operator++()`.  The `reset()` of the owner destroys the
state. -/
def operator_inc (fs : FileSystem) (s : Session) : Outcome Session :=
  match s.it._impl with
  | Option.none => Outcome.ok s
  | some impl =>
    if !impl.at_end then
      match Advance fs { os := s.os, impl := impl } with
      | Outcome.threw e m => Outcome.threw e { os := m.os, it := { _impl := some m.impl } }
      | Outcome.ok m =>
        if m.impl.at_end then
          Outcome.ok { os := iterator_impl.destroy m, it := { _impl := Option.none } }
        else
          Outcome.ok { os := m.os, it := { _impl := some m.impl } }
    else
      Outcome.ok s

/-- `bool operator==(const recursive_directory_iterator& other) const`. -/
def operator_eq (a other : recursive_directory_iterator) : Bool :=
  if a.is_end && other.is_end then true
  else if a.is_end || other.is_end then false
  else a.deref.path == other.deref.path

/-- `bool operator!=(const recursive_directory_iterator& other) const`. -/
def operator_ne (a other : recursive_directory_iterator) : Bool :=
  !(operator_eq a other)

/-- `int depth() const`. -/
def depth (it : recursive_directory_iterator) : Int :=
  match it._impl with
  | some impl => if !impl.at_end then impl.current_depth else -1
  | Option.none => -1

/-- `void pop()`. -/
def pop (fs : FileSystem) (s : Session) : Outcome Session :=
  match s.it._impl with
  | Option.none => Outcome.ok s
  | some impl =>
    match impl.dir_stack with
    | [] => Outcome.ok s
    | (top_dir, _) :: rest =>
      match Advance fs { os := closedir top_dir s.os
                         impl := { impl with dir_stack := rest
                                             current_depth := impl.current_depth - 1 } } with
      | Outcome.threw e m => Outcome.threw e { os := m.os, it := { _impl := some m.impl } }
      | Outcome.ok m =>
        if m.impl.at_end then
          Outcome.ok { os := iterator_impl.destroy m, it := { _impl := Option.none } }
        else
          Outcome.ok { os := m.os, it := { _impl := some m.impl } }

/-- `recursive_directory_iterator begin()`: a copy of the iterator. -/
def begin_ (it : recursive_directory_iterator) : recursive_directory_iterator := it

/-- `recursive_directory_iterator end()`: a default-constructed iterator. -/
def end_ (_it : recursive_directory_iterator) : recursive_directory_iterator := default

end recursive_directory_iterator

/-! ## Runs of the iterator -/

/-- The two operations that move an iterator. -/
inductive Op where
  | inc
  | pop
deriving DecidableEq, Repr

/-- One operation applied to a session. -/
def Op.apply (fs : FileSystem) (s : Session) : Op → Outcome Session
  | Op.inc => recursive_directory_iterator.operator_inc fs s
  | Op.pop => recursive_directory_iterator.pop fs s

/-- The state a call leaves behind, whether it returned or threw. -/
def Outcome.state {σ : Type} : Outcome σ → σ
  | Outcome.ok s => s
  | Outcome.threw _ s => s

/-- The entry an operation yields: the current entry after a normal return onto a
non-terminal position. -/
def yielded : Outcome Session → Option directory
  | Outcome.ok s => if s.it.is_end then Option.none else some s.it.deref
  | Outcome.threw _ _ => Option.none

/-- The sessions reached after each operation of a run, in order; the caller goes on
after an exception with the state the throwing call left. -/
def run (fs : FileSystem) : Session → List Op → List (Outcome Session)
  | _, [] => []
  | s, op :: ops => op.apply fs s :: run fs (op.apply fs s).state ops

/-- The entries yielded by the operations of a run, in order. -/
def run_yields (fs : FileSystem) (s : Session) (ops : List Op) : List directory :=
  (run fs s ops).filterMap yielded

/-- The range-for loop `for (it = begin; it != end(); ++it)`: the entries visited, at
most `fuel` of them, stopping at the terminal position or at an exception. -/
def visit (fs : FileSystem) : Nat → Session → List directory
  | 0, _ => []
  | fuel + 1, s =>
    if s.it.is_end then []
    else
      s.it.deref ::
        (match recursive_directory_iterator.operator_inc fs s with
         | Outcome.ok s1 => visit fs fuel s1
         | Outcome.threw _ _ => [])

/-- The session after `n` applications of `operator++`, if none of them throws. -/
def advance_n (fs : FileSystem) : Nat → Session → Option Session
  | 0, s => some s
  | n + 1, s =>
    match recursive_directory_iterator.operator_inc fs s with
    | Outcome.ok s1 => advance_n fs n s1
    | Outcome.threw _ _ => Option.none

/-! ## The example of the specification: `/a` with `/a/f`, `/a/d`, `/a/d/g` -/

namespace Example

def dir_stat : struct_stat := { st_mode := 0o040755, st_size := 4096, st_nlink := 2, st_mtime := 0 }
def file_stat : struct_stat := { st_mode := 0o100644, st_size := 10, st_nlink := 1, st_mtime := 0 }

def fs : FileSystem where
  lstat p :=
    if p = ["a"] then some dir_stat
    else if p = ["a", "f"] then some file_stat
    else if p = ["a", "d"] then some dir_stat
    else if p = ["a", "d", "g"] then some file_stat
    else Option.none
  stat p :=
    if p = ["a"] then some dir_stat
    else if p = ["a", "f"] then some file_stat
    else if p = ["a", "d"] then some dir_stat
    else if p = ["a", "d", "g"] then some file_stat
    else Option.none
  opendir p :=
    if p = ["a"] then
      some [ReadItem.entry ".", ReadItem.entry "..", ReadItem.entry "f", ReadItem.entry "d"]
    else if p = ["a", "d"] then
      some [ReadItem.entry ".", ReadItem.entry "..", ReadItem.entry "g"]
    else Option.none

def os0 : HandleTable := { opened := 0, closed := [] }

end Example

/-! ## Definitions used in the statements and proofs -/

/-- The top frame after `readdir` delivered one result. -/
abbrev Machine.consumed (m : Machine) (d : DIR) (p : Path) (rest : List (DIR × Path))
    (more : List ReadItem) : Machine :=
  { m with impl := { m.impl with dir_stack := ({ d with pending := more }, p) :: rest } }

/-- The state after the top frame was closed and removed. -/
abbrev Machine.dropped (m : Machine) (d : DIR) (rest : List (DIR × Path)) : Machine :=
  { os := closedir d m.os
    impl := { m.impl with dir_stack := rest, current_depth := m.impl.current_depth - 1 } }

/-- The state with a new current entry. -/
abbrev Machine.with_entry (m : Machine) (e : directory) : Machine :=
  { m with impl := { m.impl with current_entry := e } }

/-- The state after a directory was opened and its frame pushed. -/
abbrev Machine.pushed (m : Machine) (items : List ReadItem) (full_path : Path) : Machine :=
  { os := { m.os with opened := m.os.opened + 1 }
    impl := { m.impl with
      dir_stack := ({ id := m.os.opened, pending := items }, full_path) :: m.impl.dir_stack
      current_depth := m.impl.current_depth + 1 } }

/-- The entry that `Advance` builds for a discovered path, when both metadata queries
it makes succeed: from the target of a followed symlink to a directory, else from the
non-following metadata. -/
def Advance.chosen_entry (fs : FileSystem) (options : directory_options) (full_path : Path) :
    Option directory :=
  match fs.lstat full_path with
  | Option.none => Option.none
  | some st =>
    if S_ISLNK st.st_mode && HasOption options directory_options.follow_directory_symlink then
      match fs.stat full_path with
      | Option.none => Option.none
      | some target_st =>
        if S_ISDIR target_st.st_mode then
          some (directory.construct full_path target_st (S_ISLNK st.st_mode))
        else some (directory.construct full_path st (S_ISLNK st.st_mode))
    else some (directory.construct full_path st (S_ISLNK st.st_mode))

/-- The ways one pass of the loop can go, with the result of the pass. -/
inductive Advance.BodyCase (fs : FileSystem) (m : Machine) (d : DIR) (p : Path)
    (rest : List (DIR × Path)) : Step → Prop where
  | exhausted (hp : d.pending = []) :
    BodyCase fs m d p rest (Step.continue_ (m.dropped d rest))
  | read_skipped (more : List ReadItem) (hp : d.pending = ReadItem.failure :: more)
    (hk : HasOption m.impl.options directory_options.skip_permission_denied = true) :
    BodyCase fs m d p rest (Step.continue_ (m.dropped d rest))
  | read_threw (more : List ReadItem) (hp : d.pending = ReadItem.failure :: more)
    (hk : HasOption m.impl.options directory_options.skip_permission_denied = false) :
    BodyCase fs m d p rest (Step.throw_ (Error.read_failed p) (m.consumed d p rest more))
  | dot (n : String) (more : List ReadItem) (hp : d.pending = ReadItem.entry n :: more)
    (hn : n = "." ∨ n = "..") :
    BodyCase fs m d p rest (Step.continue_ (m.consumed d p rest more))
  | query_skipped (n : String) (more : List ReadItem)
    (hp : d.pending = ReadItem.entry n :: more) (h1 : n ≠ ".") (h2 : n ≠ "..")
    (hc : Advance.chosen_entry fs m.impl.options (p ++ [n]) = Option.none)
    (hk : HasOption m.impl.options directory_options.skip_permission_denied = true) :
    BodyCase fs m d p rest (Step.continue_ (m.consumed d p rest more))
  | query_threw (n : String) (more : List ReadItem) (e : Error)
    (hp : d.pending = ReadItem.entry n :: more) (h1 : n ≠ ".") (h2 : n ≠ "..")
    (hc : Advance.chosen_entry fs m.impl.options (p ++ [n]) = Option.none)
    (hk : HasOption m.impl.options directory_options.skip_permission_denied = false) :
    BodyCase fs m d p rest (Step.throw_ e (m.consumed d p rest more))
  | yield_flat (n : String) (more : List ReadItem) (e : directory)
    (hp : d.pending = ReadItem.entry n :: more) (h1 : n ≠ ".") (h2 : n ≠ "..")
    (hc : Advance.chosen_entry fs m.impl.options (p ++ [n]) = some e)
    (hd : e.is_directory = false ∨ (fs.opendir (p ++ [n]) = Option.none ∧
      HasOption m.impl.options directory_options.skip_permission_denied = true)) :
    BodyCase fs m d p rest (Step.return_ ((m.consumed d p rest more).with_entry e))
  | yield_pushed (n : String) (more : List ReadItem) (e : directory) (items : List ReadItem)
    (hp : d.pending = ReadItem.entry n :: more) (h1 : n ≠ ".") (h2 : n ≠ "..")
    (hc : Advance.chosen_entry fs m.impl.options (p ++ [n]) = some e)
    (hd : e.is_directory = true) (ho : fs.opendir (p ++ [n]) = some items) :
    BodyCase fs m d p rest
      (Step.return_ (((m.consumed d p rest more).pushed items (p ++ [n])).with_entry e))
  | open_threw (n : String) (more : List ReadItem) (e : directory) (m2 : Machine)
    (hp : d.pending = ReadItem.entry n :: more) (h1 : n ≠ ".") (h2 : n ≠ "..")
    (hc : Advance.chosen_entry fs m.impl.options (p ++ [n]) = some e)
    (hd : e.is_directory = true) (ho : fs.opendir (p ++ [n]) = Option.none)
    (hk : HasOption m.impl.options directory_options.skip_permission_denied = false)
    (hm : m2 = m.consumed d p rest more ∨ m2 = (m.consumed d p rest more).with_entry e) :
    BodyCase fs m d p rest (Step.throw_ (Error.open_failed (p ++ [n])) m2)

/-- The names among a sequence of read results. -/
def item_names : List ReadItem → List String
  | [] => []
  | ReadItem.entry n :: more => n :: item_names more
  | ReadItem.failure :: more => item_names more

/-- A property of the frontier kept by the three moves of the engine: removing the top
frame, reading one result from the top handle, and pushing the frame of a directory
that was just read from the top handle and opened. -/
structure StackInv (fs : FileSystem) (options : directory_options)
    (P : List (DIR × Path) → Prop) : Prop where
  drop : ∀ d p rest, P ((d, p) :: rest) → P rest
  consume : ∀ d p rest item more, d.pending = item :: more → P ((d, p) :: rest) →
    P (({ d with pending := more }, p) :: rest)
  push : ∀ d p rest n more items e id, d.pending = ReadItem.entry n :: more →
    n ≠ "." → n ≠ ".." → P ((d, p) :: rest) →
    Advance.chosen_entry fs options (p ++ [n]) = some e → e.is_directory = true →
    fs.opendir (p ++ [n]) = some items →
    P (({ id := id, pending := items }, p ++ [n]) :: ({ d with pending := more }, p) :: rest)

/-- The state right after an entry was yielded: the entry was read as name `n` from a
frame `(d, p)` of a frontier satisfying `P`, and the frontier is that one with the
name consumed, below the frame of the entry when the entry is an opened directory. -/
def Advance.Yielded (fs : FileSystem) (P : List (DIR × Path) → Prop) (m1 : Machine) : Prop :=
  ∃ d p rest n more e, P ((d, p) :: rest) ∧ d.pending = ReadItem.entry n :: more ∧
    n ≠ "." ∧ n ≠ ".." ∧
    Advance.chosen_entry fs m1.impl.options (p ++ [n]) = some e ∧
    m1.impl.current_entry = e ∧
    ((m1.impl.dir_stack = ({ d with pending := more }, p) :: rest ∧
        (e.is_directory = false ∨ fs.opendir (p ++ [n]) = Option.none)) ∨
      (∃ id items, fs.opendir (p ++ [n]) = some items ∧ e.is_directory = true ∧
        m1.impl.dir_stack =
          ({ id := id, pending := items }, p ++ [n]) :: ({ d with pending := more }, p) :: rest))

/-- What `Advance` guarantees from a frontier satisfying a kept property `P`. -/
def Advance.Result (fs : FileSystem) (P : List (DIR × Path) → Prop) (m : Machine) :
    Outcome Machine → Prop
  | Outcome.ok m1 =>
    m1.impl.options = m.impl.options ∧ P m1.impl.dir_stack ∧
    m1.impl.current_depth - (m1.impl.dir_stack.length : Int) =
      m.impl.current_depth - (m.impl.dir_stack.length : Int) ∧
    ((m1.impl.dir_stack = [] ∧ m1.impl.at_end = true) ∨
      (m1.impl.at_end = m.impl.at_end ∧ Advance.Yielded fs P m1))
  | Outcome.threw _ m1 =>
    m1.impl.options = m.impl.options ∧ P m1.impl.dir_stack ∧
    m1.impl.current_depth - (m1.impl.dir_stack.length : Int) =
      m.impl.current_depth - (m.impl.dir_stack.length : Int) ∧
    m1.impl.at_end = m.impl.at_end ∧ m1.impl.dir_stack ≠ [] ∧
    HasOption m.impl.options directory_options.skip_permission_denied = false

/-- A session whose traversal state, if it still exists, runs under `options`, and is
either terminal with an empty frontier or has a non-empty frontier that satisfies `P`
and is one frame longer than `current_depth`. -/
def Session.Holds (options : directory_options) (P : List (DIR × Path) → Prop)
    (s : Session) : Prop :=
  ∀ impl, s.it._impl = some impl →
    impl.options = options ∧
    ((impl.at_end = true ∧ impl.dir_stack = []) ∨
      (impl.at_end = false ∧ impl.dir_stack ≠ [] ∧ P impl.dir_stack ∧
        impl.current_depth + 1 = (impl.dir_stack.length : Int)))

/-- A session positioned at an entry that `Advance` has just yielded. -/
def Session.At (fs : FileSystem) (P : List (DIR × Path) → Prop) (s : Session) : Prop :=
  ∃ impl, s.it._impl = some impl ∧ impl.at_end = false ∧
    Advance.Yielded fs P { os := s.os, impl := impl }

/-- The frames of the frontier are the traversal root at the bottom and, above every
frame, a child of its directory. -/
def Chain (root : Path) : List (DIR × Path) → Prop
  | [] => True
  | [(_, p)] => p = root
  | (_, p) :: (d1, p1) :: rest => (∃ n, p = p1 ++ [n]) ∧ Chain root ((d1, p1) :: rest)

/-- Number of directory levels between the traversal root and the parent directory of
the path `p`. -/
def parent_level (root p : Path) : Int := (p.dropLast.length : Int) - (root.length : Int)

/-- The positions of a traversal: the one after construction and the one after each
operation. -/
def positions (fs : FileSystem) (s0 : Session) (ops : List Op) : List (Outcome Session) :=
  Outcome.ok s0 :: run fs s0 ops

/-- The example tree `/r` with the directory `/r/d` (holding the file `g` and the empty
directory `sub`), the symlink `/r/l` to `/r/d`, and the file `/r/f`, read in this order. -/
def Example.fs2 : FileSystem where
  lstat p :=
    if p = ["r"] then some Example.dir_stat
    else if p = ["r", "d"] then some Example.dir_stat
    else if p = ["r", "d", "g"] then some Example.file_stat
    else if p = ["r", "d", "sub"] then some Example.dir_stat
    else if p = ["r", "l"] then
      some { st_mode := 0o120777, st_size := 1, st_nlink := 1, st_mtime := 0 }
    else if p = ["r", "l", "g"] then some Example.file_stat
    else if p = ["r", "l", "sub"] then some Example.dir_stat
    else if p = ["r", "f"] then some Example.file_stat
    else Option.none
  stat p :=
    if p = ["r"] then some Example.dir_stat
    else if p = ["r", "d"] then some Example.dir_stat
    else if p = ["r", "d", "g"] then some Example.file_stat
    else if p = ["r", "d", "sub"] then some Example.dir_stat
    else if p = ["r", "l"] then some Example.dir_stat
    else if p = ["r", "l", "g"] then some Example.file_stat
    else if p = ["r", "l", "sub"] then some Example.dir_stat
    else if p = ["r", "f"] then some Example.file_stat
    else Option.none
  opendir p :=
    if p = ["r"] then
      some [ReadItem.entry ".", ReadItem.entry "..", ReadItem.entry "d", ReadItem.entry "l",
        ReadItem.entry "f"]
    else if p = ["r", "d"] ∨ p = ["r", "l"] then
      some [ReadItem.entry ".", ReadItem.entry "..", ReadItem.entry "g", ReadItem.entry "sub"]
    else if p = ["r", "d", "sub"] ∨ p = ["r", "l", "sub"] then
      some [ReadItem.entry ".", ReadItem.entry ".."]
    else Option.none

/-- No directory listing delivers the same name twice. -/
def FileSystem.NoRepeats (fs : FileSystem) : Prop :=
  ∀ p items, fs.opendir p = some items → (item_names items).Nodup

/-- No handle of the frontier will deliver a name twice, and the directory of every
frame above the bottom one will not be delivered again by the handle below it. -/
def Tidy : List (DIR × Path) → Prop
  | [] => True
  | [(d, _)] => (item_names d.pending).Nodup
  | (d, p) :: (d1, p1) :: rest =>
    (item_names d.pending).Nodup ∧ (∃ n, p = p1 ++ [n] ∧ n ∉ item_names d1.pending) ∧
      Tidy ((d1, p1) :: rest)

/-- No frame of the frontier lies in the directory `D`, and no handle of the frontier
will deliver the next name on the way to `D`. -/
def Sealed (D : Path) (stack : List (DIR × Path)) : Prop :=
  ∀ f ∈ stack, ¬ D <+: f.2 ∧ ∀ n, f.2 ++ [n] <+: D → n ∉ item_names f.1.pending

/-- No frame of the frontier lies at or under the path `L`. -/
def NotUnder (L : Path) (stack : List (DIR × Path)) : Prop :=
  ∀ f ∈ stack, ¬ L <+: f.2

/-- Read results that are the self or the parent entry. -/
def is_dot_item (item : ReadItem) : Prop :=
  item = ReadItem.entry "." ∨ item = ReadItem.entry ".."

/-- A root whose metadata cannot be queried. -/
def Example.fs_none : FileSystem where
  lstat _ := Option.none
  stat _ := Option.none
  opendir _ := Option.none

/-- A directory `/u` holding the directory `/u/x`, which cannot be opened, and the file
`/u/f`. -/
def Example.fs3 : FileSystem where
  lstat p :=
    if p = ["u"] then some Example.dir_stat
    else if p = ["u", "x"] then some Example.dir_stat
    else if p = ["u", "f"] then some Example.file_stat
    else Option.none
  stat p :=
    if p = ["u"] then some Example.dir_stat
    else if p = ["u", "x"] then some Example.dir_stat
    else if p = ["u", "f"] then some Example.file_stat
    else Option.none
  opendir p :=
    if p = ["u"] then
      some [ReadItem.entry ".", ReadItem.entry "..", ReadItem.entry "x", ReadItem.entry "f"]
    else Option.none

/-- The file type bits of a mode are one of the seven file types. -/
def valid_file_type (mode : Nat) : Prop :=
  (mode &&& S_IFMT) ∈ [S_IFDIR, S_IFREG, S_IFLNK, S_IFBLK, S_IFCHR, S_IFSOCK, S_IFIFO]

/-- The contents of a directory as `readdir` delivers them, with the subtrees of the
directories among them: the self and parent entries (`skip`), nodes that are not
directories (`leaf`) and directories with their own contents (`dir`). -/
inductive DirTree where
  | nil
  | skip (d_name : String) (rest : DirTree)
  | leaf (d_name : String) (st : struct_stat) (rest : DirTree)
  | dir (d_name : String) (st : struct_stat) (children : DirTree) (rest : DirTree)
deriving DecidableEq, Repr

namespace DirTree

/-- The sequence of results `readdir` delivers for the directory. -/
def items : DirTree → List ReadItem
  | nil => []
  | skip n rest => ReadItem.entry n :: rest.items
  | leaf n _ rest => ReadItem.entry n :: rest.items
  | dir n _ _ rest => ReadItem.entry n :: rest.items

/-- Number of nodes in the tree below the directory. -/
def count : DirTree → Nat
  | nil => 0
  | skip _ rest => rest.count
  | leaf _ _ rest => 1 + rest.count
  | dir _ _ children rest => 1 + children.count + rest.count

/-- The paths of the nodes relative to the directory, every directory before its
contents and its contents before its next sibling. -/
def rel_paths : DirTree → List (List String)
  | nil => []
  | skip _ rest => rest.rel_paths
  | leaf n _ rest => [n] :: rest.rel_paths
  | dir n _ children rest => [n] :: (children.rel_paths.map (fun q => n :: q) ++ rest.rel_paths)

/-- The entries of the nodes below the directory at path `p`, every directory before its
contents and its contents before its next sibling. -/
def entries (p : Path) : DirTree → List directory
  | nil => []
  | skip _ rest => rest.entries p
  | leaf n st rest => directory.construct (p ++ [n]) st (S_ISLNK st.st_mode) :: rest.entries p
  | dir n st children rest =>
    directory.construct (p ++ [n]) st (S_ISLNK st.st_mode) ::
      (children.entries (p ++ [n]) ++ rest.entries p)

/-- The file system answers for the directory at path `p` and everything below it as
the tree says, without failure: the listing entries named `.` and `..` are the `skip`s,
`lstat` gives the recorded metadata, a `leaf` is not a directory, and under
`follow_directory_symlink` a `leaf` that is a symlink resolves to something that is
not a directory; a `dir` is a directory whose handle opens onto its contents. -/
def realized (fs : FileSystem) (options : directory_options) (p : Path) : DirTree → Prop
  | nil => True
  | skip n rest => (n = "." ∨ n = "..") ∧ rest.realized fs options p
  | leaf n st rest =>
    n ≠ "." ∧ n ≠ ".." ∧ fs.lstat (p ++ [n]) = some st ∧ S_ISDIR st.st_mode = false ∧
    (HasOption options directory_options.follow_directory_symlink = true →
      S_ISLNK st.st_mode = true →
      ∃ tst, fs.stat (p ++ [n]) = some tst ∧ S_ISDIR tst.st_mode = false) ∧
    rest.realized fs options p
  | dir n st children rest =>
    n ≠ "." ∧ n ≠ ".." ∧ fs.lstat (p ++ [n]) = some st ∧ S_ISDIR st.st_mode = true ∧
    fs.opendir (p ++ [n]) = some children.items ∧
    children.realized fs options (p ++ [n]) ∧ rest.realized fs options p

/-- No directory of the tree lists a name twice. -/
def names_distinct : DirTree → Prop
  | nil => True
  | skip n rest => n ∉ item_names rest.items ∧ rest.names_distinct
  | leaf n _ rest => n ∉ item_names rest.items ∧ rest.names_distinct
  | dir n _ children rest =>
    n ∉ item_names rest.items ∧ children.names_distinct ∧ rest.names_distinct

/-- The node of the tree that a sequence of names leads to from the directory, with its
metadata: the names are looked up level by level in the listings. -/
def node_at : DirTree → List String → Option struct_stat
  | nil, _ => Option.none
  | skip _ rest, q => rest.node_at q
  | leaf n st rest, q => if q = [n] then some st else rest.node_at q
  | dir n st children rest, q =>
    match q with
    | [] => Option.none
    | m :: q1 =>
      if m = n then (if q1 = [] then some st else children.node_at q1)
      else rest.node_at (m :: q1)

end DirTree

/-- The frontier is the stack of the listed directories with what each handle still has
to deliver. -/
def Matches (fs : FileSystem) (options : directory_options) :
    List (DIR × Path) → List (Path × DirTree) → Prop
  | [], [] => True
  | (d, p) :: stack, (q, t) :: a =>
    p = q ∧ d.pending = t.items ∧ t.realized fs options q ∧ Matches fs options stack a
  | [], _ :: _ => False
  | _ :: _, [] => False

/-- The entries still to be yielded from a frontier, in order. -/
def pending_entries : List (Path × DirTree) → List directory
  | [] => []
  | (q, t) :: a => t.entries q ++ pending_entries a

/-- A non-terminal session whose frontier matches trees with the entries `es` pending. -/
def Session.OnTree (fs : FileSystem) (options : directory_options) (s : Session)
    (es : List directory) : Prop :=
  ∃ impl a, s.it._impl = some impl ∧ impl.at_end = false ∧ impl.options = options ∧
    Matches fs options impl.dir_stack a ∧ pending_entries a = es

/-- The tree of the specification's example: `/a` with `f`, `d` and `d/g`. -/
def Example.tree : DirTree :=
  DirTree.skip "." (DirTree.skip ".."
    (DirTree.leaf "f" Example.file_stat
      (DirTree.dir "d" Example.dir_stat
        (DirTree.skip "." (DirTree.skip ".." (DirTree.leaf "g" Example.file_stat DirTree.nil)))
        DirTree.nil)))

/-- A regular file of 2 GiB: mode 0100644, size 2^31 bytes. -/
def Example.big_stat : struct_stat :=
  { st_mode := 0o100644, st_size := 2 ^ 31, st_nlink := 1, st_mtime := 0 }

/-- The frames an iterator holds: those of its traversal state, none when the state
has been released. -/
def Session.frontier (s : Session) : List (DIR × Path) :=
  match s.it._impl with
  | Option.none => []
  | some impl => impl.dir_stack

/-- A session that starts a run: the result of a successful construction on `root`, or
a default-constructed iterator. -/
def Session.Initial (fs : FileSystem) (os : HandleTable) (root : Path)
    (options : directory_options) (s0 : Session) : Prop :=
  recursive_directory_iterator.construct fs os root options = Except.ok s0 ∨
    s0 = { os := os, it := recursive_directory_iterator.default }

/-- The implicit `~recursive_directory_iterator()` of the last iterator value that
points at the traversal state: the state, if there still is one, is destroyed. -/
def recursive_directory_iterator.destroy (s : Session) : HandleTable :=
  match s.it._impl with
  | Option.none => s.os
  | some impl => iterator_impl.destroy { os := s.os, impl := impl }

/-- Every handle opened so far is either held by exactly one frame of the frontier or
was closed exactly once, and not both: the identities on the frontier followed by the
closed ones are a rearrangement of `0 .. opened - 1`. -/
def Accounted (os : HandleTable) (stack : List (DIR × Path)) : Prop :=
  (stack.map (fun f => f.1.id) ++ os.closed).Perm (List.range os.opened)

/-- A directory `/b` that can be listed but not searched: the listing delivers the
name `x`, whose metadata query fails. -/
def Example.fs4 : FileSystem where
  lstat p := if p = ["b"] then some Example.dir_stat else Option.none
  stat p := if p = ["b"] then some Example.dir_stat else Option.none
  opendir p :=
    if p = ["b"] then some [ReadItem.entry ".", ReadItem.entry "..", ReadItem.entry "x"]
    else Option.none

/-- A symlink: mode 0120777. -/
def Example.link_stat : struct_stat :=
  { st_mode := 0o120777, st_size := 1, st_nlink := 1, st_mtime := 0 }

/-- A directory `/s` holding the regular file `/s/t` of 10 bytes and the symlink `/s/l`
that points at it. -/
def Example.fs5 : FileSystem where
  lstat p :=
    if p = ["s"] then some Example.dir_stat
    else if p = ["s", "t"] then some Example.file_stat
    else if p = ["s", "l"] then some Example.link_stat
    else Option.none
  stat p :=
    if p = ["s"] then some Example.dir_stat
    else if p = ["s", "t"] then some Example.file_stat
    else if p = ["s", "l"] then some Example.file_stat
    else Option.none
  opendir p :=
    if p = ["s"] then
      some [ReadItem.entry ".", ReadItem.entry "..", ReadItem.entry "t", ReadItem.entry "l"]
    else Option.none

/-- The specification's listing, to compare the traversal with: the part of `walk(d)`
that comes from the children `names` of `d`, in their order.  The self and parent
names are removed, and every other child `c` contributes `d/c`, followed by
`sub (d/c)`, the listing of its subtree, when `c` is a directory. -/
def walk_children (fs : FileSystem) (sub : Path → List Path) (d : Path) :
    List String → List Path
  | [] => []
  | c :: cs =>
    if c = "." ∨ c = ".." then walk_children fs sub d cs
    else
      ((d ++ [c]) ::
        (match fs.lstat (d ++ [c]) with
         | some st => if S_ISDIR st.st_mode then sub (d ++ [c]) else []
         | Option.none => [])) ++ walk_children fs sub d cs

/-- The specification's listing, to compare the traversal with: the recursive pre-order
listing `walk(d)`, the concatenation over the children `c` of `d` in read order of
`d/c` followed by `walk(d/c)` when `c` is a directory, followed to at most `fuel`
levels below `d`. -/
def walk (fs : FileSystem) : Nat → Path → List Path
  | 0, _ => []
  | fuel + 1, d => walk_children fs (walk fs fuel) d (item_names ((fs.opendir d).getD []))

/-- In the sequence `l` every path is a child of `d` or comes after its parent
directory. -/
def ParentsFirst (d : Path) (l : List Path) : Prop :=
  ∀ a q b, l = a ++ q :: b → q.dropLast = d ∨ q.dropLast ∈ a

/-- The paths `/c`, `/c/l`, `/c/l/l`, ...: the names of the directory `/c` through its
symlink `l`. -/
def Example.on_cycle : Path → Bool
  | [] => false
  | c :: ls => c == "c" && ls.all (fun x => x == "l")

/-- A directory `/c` whose only entry is the symlink `/c/l`, which points back at `/c`.
Paths are resolved without any limit on their length or on the number of symlinks
passed, so every path `/c/l/.../l` is the symlink and resolves to the directory. -/
def Example.cycle_fs : FileSystem where
  lstat p :=
    if p = ["c"] then some Example.dir_stat
    else if Example.on_cycle p then some Example.link_stat
    else Option.none
  stat p := if Example.on_cycle p then some Example.dir_stat else Option.none
  opendir p :=
    if Example.on_cycle p then
      some [ReadItem.entry ".", ReadItem.entry "..", ReadItem.entry "l"]
    else Option.none

/-- A non-terminal session on the cycle whose top frame is a freshly opened listing of
the directory, above `k + 1` other frames. -/
def Example.OnCycle (k : Nat) (s : Session) : Prop :=
  ∃ (impl : iterator_impl) (d : DIR) (p : Path) (rest : List (DIR × Path)),
    s.it._impl = some impl ∧ impl.at_end = false ∧
    impl.options = directory_options.follow_directory_symlink ∧
    impl.dir_stack = (d, p) :: rest ∧
    d.pending = [ReadItem.entry ".", ReadItem.entry "..", ReadItem.entry "l"] ∧
    Example.on_cycle p = true ∧ rest.length = k + 1

/-- The session that the construction on the cycle gives: positioned at `/c/l`, whose
frame is pushed above the root's. -/
def Example.cycle_start : Session :=
  { os := { opened := 2, closed := [] }
    it :=
      { _impl := some {
          dir_stack :=
            [({ id := 1
                pending := [ReadItem.entry ".", ReadItem.entry "..", ReadItem.entry "l"] },
                ["c", "l"]),
              ({ id := 0, pending := [] }, ["c"])]
          current_entry := directory.construct ["c", "l"] Example.dir_stat true
          options := directory_options.follow_directory_symlink
          current_depth := 1
          at_end := false } } }

/-- The result of a call with its state seen through `f`. -/
def Outcome.map {σ τ : Type} (f : σ → τ) : Outcome σ → Outcome τ
  | Outcome.ok s => Outcome.ok (f s)
  | Outcome.threw e s => Outcome.threw e (f s)

/-- Two iterator values `a` and `b` that share their `_impl`: each of the two pointers is
null or points at the one `iterator_impl` object `cell`, as after `b(a)`, `b = a` or
`b = a.begin()`, which copy the `shared_ptr` (lines 213-222 and 292-294).  `a_set` and
`b_set` tell which of the two pointers is not null. -/
structure Aliased where
  os : HandleTable
  cell : iterator_impl
  a_set : Bool
  b_set : Bool
deriving DecidableEq, Repr

namespace Aliased

/-- The iterator value `a`. -/
def a (s : Aliased) : recursive_directory_iterator :=
  { _impl := if s.a_set then some s.cell else Option.none }

/-- The iterator value `b`. -/
def b (s : Aliased) : recursive_directory_iterator :=
  { _impl := if s.b_set then some s.cell else Option.none }

/-- The copy `b(a)`, `b = a` or `b = a.begin()` of an iterator `a`: `_impl(other._impl)`. -/
def copy (os : HandleTable) (it : recursive_directory_iterator) : Aliased :=
  match it._impl with
  | some impl => { os := os, cell := impl, a_set := true, b_set := true }
  | Option.none => { os := os, cell := iterator_impl.default, a_set := false, b_set := false }

/-- The same two values with their names exchanged. -/
def swap (s : Aliased) : Aliased :=
  { s with a_set := s.b_set, b_set := s.a_set }

/-- `_impl.reset()` in `a`: the pointer of `a` becomes null, and the object is destroyed
when `b` does not point at it. -/
def reset (s : Aliased) : Aliased :=
  if s.b_set then { s with a_set := false }
  else { s with a_set := false, os := iterator_impl.destroy { os := s.os, impl := s.cell } }

/-- `++a` (lines 242-251), on the shared object. -/
def operator_inc (fs : FileSystem) (s : Aliased) : Outcome Aliased :=
  if s.a_set && !s.cell.at_end then
    match Advance fs { os := s.os, impl := s.cell } with
    | Outcome.threw e m => Outcome.threw e { s with os := m.os, cell := m.impl }
    | Outcome.ok m =>
      if m.impl.at_end then Outcome.ok (reset { s with os := m.os, cell := m.impl })
      else Outcome.ok { s with os := m.os, cell := m.impl }
  else
    Outcome.ok s

/-- `a.pop()` (lines 276-286), on the shared object. -/
def pop (fs : FileSystem) (s : Aliased) : Outcome Aliased :=
  if s.a_set then
    match s.cell.dir_stack with
    | [] => Outcome.ok s
    | (top_dir, _) :: rest =>
      match Advance fs { os := closedir top_dir s.os
                         impl := { s.cell with dir_stack := rest
                                               current_depth := s.cell.current_depth - 1 } } with
      | Outcome.threw e m => Outcome.threw e { s with os := m.os, cell := m.impl }
      | Outcome.ok m =>
        if m.impl.at_end then Outcome.ok (reset { s with os := m.os, cell := m.impl })
        else Outcome.ok { s with os := m.os, cell := m.impl }
  else
    Outcome.ok s

/-- An operation applied to `a`. -/
def apply_a (fs : FileSystem) (s : Aliased) : Op → Outcome Aliased
  | Op.inc => operator_inc fs s
  | Op.pop => pop fs s

/-- An operation applied to `b` when `on_b` is set, else to `a`. -/
def apply (fs : FileSystem) (s : Aliased) (on_b : Bool) (op : Op) : Outcome Aliased :=
  if on_b then (apply_a fs s.swap op).map swap else apply_a fs s op

/-- The states after each operation of a run on the two values, in order; the caller
goes on after an exception with the state the throwing call left. -/
def run (fs : FileSystem) : Aliased → List (Bool × Op) → List (Outcome Aliased)
  | _, [] => []
  | s, (on_b, op) :: ops => apply fs s on_b op :: run fs (apply fs s on_b op).state ops

/-- The positions of the two values: the one right after the copy and the one after
each operation. -/
def positions (fs : FileSystem) (s : Aliased) (ops : List (Bool × Op)) :
    List (Outcome Aliased) :=
  Outcome.ok s :: run fs s ops

/-- The two pointers are equal, or the shared object is terminal. -/
def Coherent (s : Aliased) : Prop :=
  s.a_set = s.b_set ∨ s.cell.at_end = true

end Aliased

theorem Advance.plain_ne_continue (fs : FileSystem) (m : Machine) (full_path : Path)
    (st : struct_stat) (is_symlink : Bool) (m1 : Machine) :
    Advance.plain fs m full_path st is_symlink ≠ Step.continue_ m1 := by
  intro h
  simp only [Advance.plain] at h
  split at h
  · split at h <;> simp at h
  · simp at h

/-- A pass that continues leaves either the same frames with one pending result less on
top, or the frames below the top. -/
theorem Advance.body_continue (fs : FileSystem) (m : Machine) (d : DIR) (p : Path)
    (rest : List (DIR × Path)) (m1 : Machine)
    (h : Advance.body fs m d p rest = Step.continue_ m1) :
    (m1 = { os := closedir d m.os
            impl := { m.impl with dir_stack := rest
                                  current_depth := m.impl.current_depth - 1 } } ∧
      (d.pending = [] ∨ ∃ more, d.pending = ReadItem.failure :: more)) ∨
    (∃ d_name more, d.pending = ReadItem.entry d_name :: more ∧
      m1 = { m with impl := { m.impl with
              dir_stack := ({ d with pending := more }, p) :: rest } }) := by
  simp only [Advance.body] at h
  split at h
  · left
    simp at h
    exact ⟨h.symm, Or.inl (by assumption)⟩
  · left
    split at h
    · simp at h
    · simp at h
      exact ⟨h.symm, Or.inr ⟨_, by assumption⟩⟩
  · right
    rename_i d_name more hp
    refine ⟨d_name, more, hp, ?_⟩
    split at h
    · simp at h; exact h.symm
    · split at h
      · split at h
        · simp at h
        · simp at h; exact h.symm
      · split at h
        · split at h
          · split at h
            · simp at h
            · simp at h; exact h.symm
          · split at h
            · split at h <;> simp at h
            · exact absurd h (Advance.plain_ne_continue _ _ _ _ _ _)
        · exact absurd h (Advance.plain_ne_continue _ _ _ _ _ _)

theorem Advance.body_continue_measure (fs : FileSystem) (m : Machine) (d : DIR) (p : Path)
    (rest : List (DIR × Path)) (m1 : Machine)
    (h : Advance.body fs m d p rest = Step.continue_ m1) :
    stack_measure m1.impl.dir_stack < stack_measure ((d, p) :: rest) := by
  rcases Advance.body_continue fs m d p rest m1 h with ⟨rfl, _⟩ | ⟨d_name, more, hp, rfl⟩
  · simp [stack_measure]
  · simp [stack_measure, hp]

theorem Advance.loop_nil (fs : FileSystem) (fuel : Nat) (m : Machine)
    (hs : m.impl.dir_stack = []) :
    Advance.loop fs fuel m = some (Outcome.ok { m with impl := { m.impl with at_end := true } }) := by
  unfold Advance.loop
  simp [hs]

theorem Advance.loop_zero (fs : FileSystem) (m : Machine) (d : DIR) (p : Path)
    (rest : List (DIR × Path)) (hs : m.impl.dir_stack = (d, p) :: rest) :
    Advance.loop fs 0 m = Option.none := by
  unfold Advance.loop
  simp [hs]

theorem Advance.loop_succ (fs : FileSystem) (fuel : Nat) (m : Machine) (d : DIR) (p : Path)
    (rest : List (DIR × Path)) (hs : m.impl.dir_stack = (d, p) :: rest) :
    Advance.loop fs (fuel + 1) m =
      match Advance.body fs m d p rest with
      | Step.continue_ m1 => Advance.loop fs fuel m1
      | Step.return_ m1 => some (Outcome.ok m1)
      | Step.throw_ e m1 => some (Outcome.threw e m1) := by
  rw [Advance.loop]
  simp [hs]

/-- The loop ends within `stack_measure` passes. -/
theorem Advance.loop_isSome (fs : FileSystem) :
    ∀ (fuel : Nat) (m : Machine), stack_measure m.impl.dir_stack ≤ fuel →
      (Advance.loop fs fuel m).isSome = true := by
  intro fuel
  induction fuel with
  | zero =>
    intro m hm
    unfold Advance.loop
    split
    · rfl
    · rename_i hs
      rw [hs] at hm
      simp [stack_measure] at hm
  | succ fuel ih =>
    intro m hm
    unfold Advance.loop
    split
    · rfl
    · rename_i d p rest hs
      simp only
      split
      · rename_i m1 hb
        apply ih
        have := Advance.body_continue_measure fs m d p rest m1 hb
        rw [hs] at hm
        omega
      · rfl
      · rfl

/-- More passes than needed do not change the result of the loop. -/
theorem Advance.loop_mono (fs : FileSystem) :
    ∀ (fuel : Nat) (m : Machine) (r : Outcome Machine),
      Advance.loop fs fuel m = some r → Advance.loop fs (fuel + 1) m = some r := by
  intro fuel
  induction fuel with
  | zero =>
    intro m r h
    unfold Advance.loop at h ⊢
    split at h
    · rename_i hs
      simp [hs] at h ⊢
      exact h
    · simp at h
  | succ fuel ih =>
    intro m r h
    unfold Advance.loop at h
    split at h
    · rename_i hs
      unfold Advance.loop
      simp [hs] at h ⊢
      exact h
    · rename_i d p rest hs
      simp only at h
      rw [Advance.loop]
      simp only [hs]
      split at h
      · exact ih _ r h
      · exact h
      · exact h

/-- `Advance` is the result of the loop. -/
theorem Advance.loop_eq (fs : FileSystem) (m : Machine) :
    Advance.loop fs (stack_measure m.impl.dir_stack) m = some (Advance fs m) := by
  have h := Advance.loop_isSome fs (stack_measure m.impl.dir_stack) m (le_refl _)
  unfold Advance
  cases hl : Advance.loop fs (stack_measure m.impl.dir_stack) m with
  | none => rw [hl] at h; simp at h
  | some r => simp

/-! ## What one pass of the loop does -/

theorem S_ISLNK_not_S_ISDIR (mode : Nat) (h : S_ISLNK mode = true) : S_ISDIR mode = false := by
  unfold S_ISLNK at h
  unfold S_ISDIR
  have h1 : mode &&& S_IFMT = S_IFLNK := eq_of_beq h
  rw [h1]
  decide

theorem Advance.chosen_entry_path (fs : FileSystem) (options : directory_options)
    (full_path : Path) (e : directory)
    (h : Advance.chosen_entry fs options full_path = some e) : e.path = full_path := by
  unfold Advance.chosen_entry at h
  split at h
  · simp at h
  · split at h
    · split at h
      · simp at h
      · split at h <;> (simp at h; subst h; rfl)
    · simp at h; subst h; rfl

theorem Advance.body_exhausted (fs : FileSystem) (m : Machine) (d : DIR) (p : Path)
    (rest : List (DIR × Path)) (hp : d.pending = []) :
    Advance.body fs m d p rest = Step.continue_ (m.dropped d rest) := by
  simp [Advance.body, hp]

theorem Advance.body_failure (fs : FileSystem) (m : Machine) (d : DIR) (p : Path)
    (rest : List (DIR × Path)) (more : List ReadItem) (hp : d.pending = ReadItem.failure :: more) :
    Advance.body fs m d p rest =
      if HasOption m.impl.options directory_options.skip_permission_denied then
        Step.continue_ (m.dropped d rest)
      else Step.throw_ (Error.read_failed p) (m.consumed d p rest more) := by
  cases hk : HasOption m.impl.options directory_options.skip_permission_denied <;>
    simp [Advance.body, hp, hk]

theorem Advance.body_dot (fs : FileSystem) (m : Machine) (d : DIR) (p : Path)
    (rest : List (DIR × Path)) (d_name : String) (more : List ReadItem)
    (hp : d.pending = ReadItem.entry d_name :: more) (hd : d_name = "." ∨ d_name = "..") :
    Advance.body fs m d p rest = Step.continue_ (m.consumed d p rest more) := by
  rcases hd with rfl | rfl <;> simp [Advance.body, hp]

/-- Summary of a pass that read a proper name. -/
theorem Advance.body_entry (fs : FileSystem) (m : Machine) (d : DIR) (p : Path)
    (rest : List (DIR × Path)) (d_name : String) (more : List ReadItem)
    (hp : d.pending = ReadItem.entry d_name :: more) (h1 : d_name ≠ ".") (h2 : d_name ≠ "..") :
    match Advance.chosen_entry fs m.impl.options (p ++ [d_name]) with
    | Option.none =>
      (HasOption m.impl.options directory_options.skip_permission_denied = true ∧
        Advance.body fs m d p rest = Step.continue_ (m.consumed d p rest more)) ∨
      (HasOption m.impl.options directory_options.skip_permission_denied = false ∧
        ∃ e, Advance.body fs m d p rest = Step.throw_ e (m.consumed d p rest more))
    | some e =>
      ((e.is_directory = false ∨ (fs.opendir (p ++ [d_name]) = Option.none ∧
          HasOption m.impl.options directory_options.skip_permission_denied = true)) ∧
        Advance.body fs m d p rest = Step.return_ ((m.consumed d p rest more).with_entry e)) ∨
      (e.is_directory = true ∧ ∃ items, fs.opendir (p ++ [d_name]) = some items ∧
        Advance.body fs m d p rest =
          Step.return_ (((m.consumed d p rest more).pushed items (p ++ [d_name])).with_entry e)) ∨
      (e.is_directory = true ∧ fs.opendir (p ++ [d_name]) = Option.none ∧
        HasOption m.impl.options directory_options.skip_permission_denied = false ∧
        ∃ m2, Advance.body fs m d p rest = Step.throw_ (Error.open_failed (p ++ [d_name])) m2 ∧
          (m2 = m.consumed d p rest more ∨ m2 = (m.consumed d p rest more).with_entry e)) := by
  have hdot : (d_name == "." || d_name == "..") = false := by simp [h1, h2]
  cases hk : HasOption m.impl.options directory_options.skip_permission_denied <;>
  cases hl : fs.lstat (p ++ [d_name]) with
  | none => simp [Advance.chosen_entry, Advance.body, hp, hdot, hl, hk]
  | some st =>
    cases hf : (S_ISLNK st.st_mode &&
        HasOption m.impl.options directory_options.follow_directory_symlink) with
    | false =>
      cases hd : S_ISDIR st.st_mode <;> cases ho : fs.opendir (p ++ [d_name]) <;>
        simp [Advance.chosen_entry, Advance.body, Advance.plain, Advance.open_subdir, opendir,
          directory.construct, directory.is_directory, hp, hdot, hl, hk, hf, hd, ho]
    | true =>
      cases hs : fs.stat (p ++ [d_name]) with
      | none => simp [Advance.chosen_entry, Advance.body, hp, hdot, hl, hk, hf, hs]
      | some tst =>
        have hnd : S_ISDIR st.st_mode = false := by
          apply S_ISLNK_not_S_ISDIR
          simp at hf
          exact hf.1
        cases hd : S_ISDIR tst.st_mode <;> cases ho : fs.opendir (p ++ [d_name]) <;>
          simp [Advance.chosen_entry, Advance.body, Advance.plain, Advance.open_subdir, opendir,
            directory.construct, directory.is_directory, hp, hdot, hl, hk, hf, hd, ho, hs, hnd]

/-! ## Reasoning about `Advance` by a loop invariant -/

/-- Loop rule for `Advance`: an invariant kept by every continuing pass carries the
entry state to the pass that ends the loop. -/
theorem Advance.rule (fs : FileSystem) (Inv : Machine → Prop) (Post : Outcome Machine → Prop)
    (h_end : ∀ m, Inv m → m.impl.dir_stack = [] →
      Post (Outcome.ok { m with impl := { m.impl with at_end := true } }))
    (h_cont : ∀ m d p rest m1, Inv m → m.impl.dir_stack = (d, p) :: rest →
      Advance.body fs m d p rest = Step.continue_ m1 → Inv m1)
    (h_ret : ∀ m d p rest m1, Inv m → m.impl.dir_stack = (d, p) :: rest →
      Advance.body fs m d p rest = Step.return_ m1 → Post (Outcome.ok m1))
    (h_throw : ∀ m d p rest e m1, Inv m → m.impl.dir_stack = (d, p) :: rest →
      Advance.body fs m d p rest = Step.throw_ e m1 → Post (Outcome.threw e m1))
    (m : Machine) (h : Inv m) : Post (Advance fs m) := by
  have key : ∀ (fuel : Nat) (m : Machine) (r : Outcome Machine), Inv m →
      Advance.loop fs fuel m = some r → Post r := by
    intro fuel
    induction fuel with
    | zero =>
      intro m r hi hl
      cases hs : m.impl.dir_stack with
      | nil =>
        rw [Advance.loop_nil fs 0 m hs] at hl
        cases hl
        exact h_end m hi hs
      | cons top rest =>
        obtain ⟨d, p⟩ := top
        rw [Advance.loop_zero fs m d p rest hs] at hl
        cases hl
    | succ fuel ih =>
      intro m r hi hl
      cases hs : m.impl.dir_stack with
      | nil =>
        rw [Advance.loop_nil fs _ m hs] at hl
        cases hl
        exact h_end m hi hs
      | cons top rest =>
        obtain ⟨d, p⟩ := top
        rw [Advance.loop_succ fs fuel m d p rest hs] at hl
        cases hb : Advance.body fs m d p rest with
        | continue_ m1 =>
          rw [hb] at hl
          exact ih m1 r (h_cont m d p rest m1 hi hs hb) hl
        | return_ m1 =>
          rw [hb] at hl
          cases hl
          exact h_ret m d p rest m1 hi hs hb
        | throw_ e m1 =>
          rw [hb] at hl
          cases hl
          exact h_throw m d p rest e m1 hi hs hb
  exact key _ m _ h (Advance.loop_eq fs m)

/-- Every pass of the loop is one of the cases of `Advance.BodyCase`. -/
theorem Advance.body_case (fs : FileSystem) (m : Machine) (d : DIR) (p : Path)
    (rest : List (DIR × Path)) :
    Advance.BodyCase fs m d p rest (Advance.body fs m d p rest) := by
  cases hp : d.pending with
  | nil =>
    rw [Advance.body_exhausted fs m d p rest hp]
    exact Advance.BodyCase.exhausted hp
  | cons item more =>
    cases item with
    | failure =>
      rw [Advance.body_failure fs m d p rest more hp]
      cases hk : HasOption m.impl.options directory_options.skip_permission_denied with
      | true => simpa using Advance.BodyCase.read_skipped more hp hk
      | false => simpa using Advance.BodyCase.read_threw more hp hk
    | entry n =>
      by_cases hn : n = "." ∨ n = ".."
      · rw [Advance.body_dot fs m d p rest n more hp hn]
        exact Advance.BodyCase.dot n more hp hn
      · have h1 : n ≠ "." := fun h => hn (Or.inl h)
        have h2 : n ≠ ".." := fun h => hn (Or.inr h)
        have h := Advance.body_entry fs m d p rest n more hp h1 h2
        cases hc : Advance.chosen_entry fs m.impl.options (p ++ [n]) with
        | none =>
          rw [hc] at h
          rcases h with ⟨hk, hb⟩ | ⟨hk, e, hb⟩
          · rw [hb]; exact Advance.BodyCase.query_skipped n more hp h1 h2 hc hk
          · rw [hb]; exact Advance.BodyCase.query_threw n more e hp h1 h2 hc hk
        | some e =>
          rw [hc] at h
          rcases h with ⟨hd, hb⟩ | ⟨hd, items, ho, hb⟩ | ⟨hd, ho, hk, m2, hb, hm⟩
          · rw [hb]; exact Advance.BodyCase.yield_flat n more e hp h1 h2 hc hd
          · rw [hb]; exact Advance.BodyCase.yield_pushed n more e items hp h1 h2 hc hd ho
          · rw [hb]; exact Advance.BodyCase.open_threw n more e m2 hp h1 h2 hc hd ho hk hm

/-! ## Invariants of the frontier -/

theorem Advance.master (fs : FileSystem) (P : List (DIR × Path) → Prop) (m : Machine)
    (hP : StackInv fs m.impl.options P) (h : P m.impl.dir_stack) :
    Advance.Result fs P m (Advance fs m) := by
  apply Advance.rule fs
    (fun m1 => m1.impl.options = m.impl.options ∧ m1.impl.at_end = m.impl.at_end ∧
      P m1.impl.dir_stack ∧
      m1.impl.current_depth - (m1.impl.dir_stack.length : Int) =
        m.impl.current_depth - (m.impl.dir_stack.length : Int))
    (Advance.Result fs P m)
  · intro m1 ⟨ho, _, hp, hd⟩ hs
    exact ⟨ho, hp, hd, Or.inl ⟨hs, rfl⟩⟩
  · intro m0 d p rest m1 ⟨ho, ha, hp, hd⟩ hs hb
    have hc := Advance.body_case fs m0 d p rest
    rw [hb] at hc
    rw [hs] at hp hd
    cases hc with
    | exhausted hpend =>
      refine ⟨ho, ha, hP.drop d p rest hp, ?_⟩
      simp only [List.length_cons] at hd ⊢
      push_cast at hd
      omega
    | read_skipped more hpend hk =>
      refine ⟨ho, ha, hP.drop d p rest hp, ?_⟩
      simp only [List.length_cons] at hd ⊢
      push_cast at hd
      omega
    | dot n more hpend hn =>
      refine ⟨ho, ha, hP.consume d p rest _ more hpend hp, ?_⟩
      simpa using hd
    | query_skipped n more hpend h1 h2 hc hk =>
      refine ⟨ho, ha, hP.consume d p rest _ more hpend hp, ?_⟩
      simpa using hd
  · intro m0 d p rest m1 ⟨ho, ha, hp, hd⟩ hs hb
    have hc := Advance.body_case fs m0 d p rest
    rw [hb] at hc
    rw [hs] at hp hd
    cases hc with
    | yield_flat n more e hpend h1 h2 hc hdir =>
      refine ⟨ho, hP.consume d p rest _ more hpend hp, by simpa using hd, Or.inr ⟨ha, ?_⟩⟩
      refine ⟨d, p, rest, n, more, e, hp, hpend, h1, h2, hc, rfl, Or.inl ⟨rfl, ?_⟩⟩
      rcases hdir with h | ⟨h, _⟩
      · exact Or.inl h
      · exact Or.inr h
    | yield_pushed n more e items hpend h1 h2 hc hdir hopen =>
      rw [ho] at hc
      refine ⟨ho, hP.push d p rest n more items e _ hpend h1 h2 hp hc hdir hopen, ?_,
        Or.inr ⟨ha, ?_⟩⟩
      · simp only [List.length_cons] at hd ⊢
        push_cast at hd ⊢
        omega
      · rw [← ho] at hc
        exact ⟨d, p, rest, n, more, e, hp, hpend, h1, h2, hc, rfl,
          Or.inr ⟨_, items, hopen, hdir, rfl⟩⟩
  · intro m0 d p rest e m1 ⟨ho, ha, hp, hd⟩ hs hb
    have hc := Advance.body_case fs m0 d p rest
    rw [hb] at hc
    rw [hs] at hp hd
    cases hc with
    | read_threw more hpend hk =>
      exact ⟨ho, hP.consume d p rest _ more hpend hp, by simpa using hd, ha, by simp,
        by rw [← ho]; exact hk⟩
    | query_threw n more e0 hpend h1 h2 hc hk =>
      exact ⟨ho, hP.consume d p rest _ more hpend hp, by simpa using hd, ha, by simp,
        by rw [← ho]; exact hk⟩
    | open_threw n more e1 m2 hpend h1 h2 hc hdir hopen hk hm =>
      rcases hm with hm | hm
      · rw [hm]
        exact ⟨ho, hP.consume d p rest _ more hpend hp, by simpa using hd, ha, by simp,
          by rw [← ho]; exact hk⟩
      · rw [hm]
        exact ⟨ho, hP.consume d p rest _ more hpend hp, by simpa using hd, ha, by simp,
          by rw [← ho]; exact hk⟩
  · exact ⟨rfl, rfl, h, rfl⟩

theorem Advance.Yielded.stack_ne_nil {fs : FileSystem} {P : List (DIR × Path) → Prop}
    {m : Machine} (h : Advance.Yielded fs P m) : m.impl.dir_stack ≠ [] := by
  obtain ⟨d, p, rest, n, more, e, _, _, _, _, _, _, h | ⟨id, items, _, _, h⟩⟩ := h
  · rw [h.1]; simp
  · rw [h]; simp

/-- The session an `Advance` call inside an iterator operation leaves. -/
theorem Session.after_Advance (fs : FileSystem) (options : directory_options)
    (P : List (DIR × Path) → Prop) (hP : StackInv fs options P) (m : Machine)
    (ho : m.impl.options = options) (ha : m.impl.at_end = false)
    (hp : P m.impl.dir_stack)
    (hd : m.impl.current_depth + 1 = (m.impl.dir_stack.length : Int)) :
    match Advance fs m with
    | Outcome.ok m1 =>
      (m1.impl.at_end = true ∧ m1.impl.dir_stack = [] ∧ m1.impl.options = options) ∨
      (m1.impl.at_end = false ∧
        Session.Holds options P { os := m1.os, it := { _impl := some m1.impl } } ∧
        Session.At fs P { os := m1.os, it := { _impl := some m1.impl } })
    | Outcome.threw _ m1 =>
      Session.Holds options P { os := m1.os, it := { _impl := some m1.impl } } := by
  have h := Advance.master fs P m (ho ▸ hP) hp
  cases hr : Advance fs m with
  | ok m1 =>
    rw [hr] at h
    obtain ⟨ho1, hp1, hd1, h1⟩ := h
    rcases h1 with ⟨hs, he⟩ | ⟨he, hy⟩
    · exact Or.inl ⟨he, hs, ho1.trans ho⟩
    · right
      rw [ha] at he
      refine ⟨he, ?_, ⟨m1.impl, rfl, he, hy⟩⟩
      intro impl himpl
      simp only [Option.some.injEq] at himpl
      subst himpl
      exact ⟨ho1.trans ho, Or.inr ⟨he, hy.stack_ne_nil, hp1, by omega⟩⟩
  | threw e m1 =>
    rw [hr] at h
    obtain ⟨ho1, hp1, hd1, he, hne, _⟩ := h
    intro impl himpl
    simp only [Option.some.injEq] at himpl
    subst himpl
    rw [ha] at he
    exact ⟨ho1.trans ho, Or.inr ⟨he, hne, hp1, by omega⟩⟩

/-- A successful construction gives a session that is terminal or positioned at a
yielded entry. -/
theorem recursive_directory_iterator.construct_spec (fs : FileSystem) (os : HandleTable)
    (root : Path) (options : directory_options) (P : List (DIR × Path) → Prop)
    (hP : StackInv fs options P)
    (h0 : ∀ id items, fs.opendir root = some items → P [({ id := id, pending := items }, root)])
    (s0 : Session)
    (hc : recursive_directory_iterator.construct fs os root options = Except.ok s0) :
    Session.Holds options P s0 ∧ (s0.it.is_end = true ∨ Session.At fs P s0) := by
  unfold recursive_directory_iterator.construct at hc
  cases hi : iterator_impl.construct fs os root options with
  | threw e os1 => rw [hi] at hc; simp at hc
  | ok m =>
    rw [hi] at hc
    simp only [Except.ok.injEq] at hc
    subst hc
    unfold iterator_impl.construct at hi
    cases hl : fs.lstat root with
    | none =>
      rw [hl] at hi
      simp only at hi
      split at hi
      · simp at hi
      · simp only [Constructed.ok.injEq] at hi
        subst hi
        refine ⟨?_, Or.inl rfl⟩
        intro impl himpl
        simp only [Option.some.injEq] at himpl
        subst himpl
        exact ⟨rfl, Or.inl ⟨rfl, rfl⟩⟩
    | some st =>
      rw [hl] at hi
      simp only at hi
      split at hi
      · simp at hi
      · cases hopen : fs.opendir root with
        | none =>
          simp only [opendir, hopen] at hi
          split at hi
          · simp at hi
          · simp only [Constructed.ok.injEq] at hi
            subst hi
            refine ⟨?_, Or.inl rfl⟩
            intro impl himpl
            simp only [Option.some.injEq] at himpl
            subst himpl
            exact ⟨rfl, Or.inl ⟨rfl, rfl⟩⟩
        | some items =>
          simp only [opendir, hopen] at hi
          have h := Session.after_Advance fs options P hP
            { os := { os with opened := os.opened + 1 }
              impl := { dir_stack := [({ id := os.opened, pending := items }, root)]
                        current_entry := directory.empty, options := options
                        current_depth := 0, at_end := false } }
            rfl rfl (h0 _ _ hopen) (by simp)
          split at hi
          · rename_i m1 hr
            rw [hr] at h
            simp only [Constructed.ok.injEq] at hi
            subst hi
            rcases h with ⟨he, hs, hopt⟩ | ⟨he, hh, hat⟩
            · refine ⟨?_, Or.inl ?_⟩
              · intro impl himpl
                simp only [Option.some.injEq] at himpl
                subst himpl
                exact ⟨hopt, Or.inl ⟨he, hs⟩⟩
              · simp [recursive_directory_iterator.is_end, he]
            · exact ⟨hh, Or.inr hat⟩
          · simp at hi

theorem Session.Holds_null (options : directory_options) (P : List (DIR × Path) → Prop)
    (os : HandleTable) : Session.Holds options P { os := os, it := { _impl := Option.none } } := by
  intro impl himpl
  simp at himpl

/-- Both moving operations keep `Session.Holds`, and a normal return leaves the iterator
terminal or positioned at a yielded entry. -/
theorem Op.apply_spec (fs : FileSystem) (options : directory_options)
    (P : List (DIR × Path) → Prop) (hP : StackInv fs options P) (s : Session)
    (h : Session.Holds options P s) (op : Op) :
    Session.Holds options P (op.apply fs s).state ∧
    (∀ s1, op.apply fs s = Outcome.ok s1 → s1.it.is_end = true ∨ Session.At fs P s1) := by
  obtain ⟨os, ⟨_impl⟩⟩ := s
  cases _impl with
  | none =>
    cases op <;>
      simp [Op.apply, recursive_directory_iterator.operator_inc, recursive_directory_iterator.pop,
        Outcome.state, Session.Holds, recursive_directory_iterator.is_end]
  | some impl =>
    obtain ⟨ho, hcase⟩ := h impl rfl
    rcases hcase with ⟨he, hs⟩ | ⟨he, hne, hp, hd⟩
    · -- terminal: both operations leave the session as it is
      have hh : Session.Holds options P { os := os, it := { _impl := some impl } } := by
        intro impl1 h1
        simp only [Option.some.injEq] at h1
        subst h1
        exact ⟨ho, Or.inl ⟨he, hs⟩⟩
      cases op
      · simp only [Op.apply, recursive_directory_iterator.operator_inc, he]
        refine ⟨hh, ?_⟩
        intro s1 h1
        simp only [Bool.not_true, Bool.false_eq_true, ↓reduceIte, Outcome.ok.injEq] at h1
        subst h1
        exact Or.inl (by simp [recursive_directory_iterator.is_end, he])
      · simp only [Op.apply, recursive_directory_iterator.pop, hs]
        refine ⟨hh, ?_⟩
        intro s1 h1
        simp only [Outcome.ok.injEq] at h1
        subst h1
        exact Or.inl (by simp [recursive_directory_iterator.is_end, he])
    · cases op
      · -- operator++
        have ha := Session.after_Advance fs options P hP { os := os, impl := impl } ho he hp hd
        simp only [Op.apply, recursive_directory_iterator.operator_inc, he]
        cases hr : Advance fs { os := os, impl := impl } with
        | ok m1 =>
          rw [hr] at ha
          rcases ha with ⟨he1, hs1, _⟩ | ⟨he1, hh1, hat1⟩
          · simp only [Bool.not_false, ↓reduceIte, he1, Outcome.state]
            refine ⟨Session.Holds_null options P _, ?_⟩
            intro s1 h1
            simp only [Outcome.ok.injEq] at h1
            subst h1
            exact Or.inl rfl
          · simp only [Bool.not_false, ↓reduceIte, he1, Bool.false_eq_true, Outcome.state]
            refine ⟨hh1, ?_⟩
            intro s1 h1
            simp only [Outcome.ok.injEq] at h1
            subst h1
            exact Or.inr hat1
        | threw e m1 =>
          rw [hr] at ha
          simp only [Bool.not_false, ↓reduceIte, Outcome.state]
          exact ⟨ha, by intro s1 h1; simp at h1⟩
      · -- pop()
        cases hs : impl.dir_stack with
        | nil => exact absurd hs hne
        | cons top rest =>
          obtain ⟨top_dir, top_path⟩ := top
          rw [hs] at hp hd
          have ha := Session.after_Advance fs options P hP
            { os := closedir top_dir os
              impl := { impl with dir_stack := rest
                                  current_depth := impl.current_depth - 1 } }
            ho he (hP.drop _ _ _ hp)
            (by simp only [List.length_cons] at hd; push_cast at hd; simp only; omega)
          simp only [Op.apply, recursive_directory_iterator.pop, hs]
          cases hr : Advance fs
              { os := closedir top_dir os
                impl := { impl with dir_stack := rest
                                    current_depth := impl.current_depth - 1 } } with
          | ok m1 =>
            rw [hr] at ha
            rcases ha with ⟨he1, hs1, _⟩ | ⟨he1, hh1, hat1⟩
            · simp only [he1, ↓reduceIte, Outcome.state]
              refine ⟨Session.Holds_null options P _, ?_⟩
              intro s1 h1
              simp only [Outcome.ok.injEq] at h1
              subst h1
              exact Or.inl rfl
            · simp only [he1, Bool.false_eq_true, ↓reduceIte, Outcome.state]
              refine ⟨hh1, ?_⟩
              intro s1 h1
              simp only [Outcome.ok.injEq] at h1
              subst h1
              exact Or.inr hat1
          | threw e m1 =>
            rw [hr] at ha
            simp only [Outcome.state]
            exact ⟨ha, by intro s1 h1; simp at h1⟩

/-- Along a run every state keeps `Session.Holds`, and every normal return leaves the
iterator terminal or positioned at a yielded entry. -/
theorem run_spec (fs : FileSystem) (options : directory_options)
    (P : List (DIR × Path) → Prop) (hP : StackInv fs options P) :
    ∀ (ops : List Op) (s : Session), Session.Holds options P s →
      ∀ o ∈ run fs s ops, Session.Holds options P o.state ∧
        (∀ s1, o = Outcome.ok s1 → s1.it.is_end = true ∨ Session.At fs P s1) := by
  intro ops
  induction ops with
  | nil => intro s _ o ho; simp [run] at ho
  | cons op ops ih =>
    intro s hs o ho
    simp only [run, List.mem_cons] at ho
    have h1 := Op.apply_spec fs options P hP s hs op
    rcases ho with rfl | ho
    · exact h1
    · exact ih _ h1.1 o ho

/-! ## Depth of the yielded entries -/

theorem Chain.chain_kept (fs : FileSystem) (options : directory_options) (root : Path) :
    StackInv fs options (Chain root) where
  drop := by
    intro d p rest h
    cases rest with
    | nil => trivial
    | cons f rest => exact h.2
  consume := by
    intro d p rest item more _ h
    cases rest with
    | nil => exact h
    | cons f rest => exact h
  push := by
    intro d p rest n more items e id _ _ _ h _ _ _
    refine ⟨⟨n, rfl⟩, ?_⟩
    cases rest with
    | nil => exact h
    | cons f rest => exact h

/-- In a chain the top path lies as many levels below the root as there are frames
under the top frame. -/
theorem Chain.top (root : Path) :
    ∀ (rest : List (DIR × Path)) (d : DIR) (p : Path), Chain root ((d, p) :: rest) →
      root <+: p ∧ p.length = root.length + rest.length := by
  intro rest
  induction rest with
  | nil =>
    intro d p h
    have : p = root := h
    subst this
    exact ⟨List.prefix_refl _, by simp⟩
  | cons f rest ih =>
    intro d p h
    obtain ⟨d1, p1⟩ := f
    obtain ⟨⟨n, hn⟩, h1⟩ := h
    obtain ⟨hpre, hlen⟩ := ih d1 p1 h1
    subst hn
    exact ⟨hpre.trans (List.prefix_append _ _), by simp [hlen]; omega⟩

theorem positions_spec (fs : FileSystem) (os : HandleTable) (root : Path)
    (options : directory_options) (P : List (DIR × Path) → Prop)
    (hP : StackInv fs options P)
    (h0 : ∀ id items, fs.opendir root = some items → P [({ id := id, pending := items }, root)])
    (s0 : Session)
    (hc : recursive_directory_iterator.construct fs os root options = Except.ok s0)
    (ops : List Op) :
    ∀ o ∈ positions fs s0 ops, Session.Holds options P o.state ∧
      (∀ s1, o = Outcome.ok s1 → s1.it.is_end = true ∨ Session.At fs P s1) := by
  have h1 := recursive_directory_iterator.construct_spec fs os root options P hP h0 s0 hc
  intro o ho
  simp only [positions, List.mem_cons] at ho
  rcases ho with rfl | ho
  · refine ⟨h1.1, ?_⟩
    intro s1 hs1
    simp only [Outcome.ok.injEq] at hs1
    subst hs1
    exact h1.2
  · exact run_spec fs options P hP ops s0 h1.1 o ho

/-- An outcome that yields an entry is a normal return onto a non-terminal position. -/
theorem yielded_some (o : Outcome Session) (e : directory) (h : yielded o = some e) :
    ∃ s1, o = Outcome.ok s1 ∧ s1.it.is_end = false ∧ s1.it.deref = e := by
  cases o with
  | threw err s => simp [yielded] at h
  | ok s =>
    refine ⟨s, rfl, ?_⟩
    simp only [yielded] at h
    split at h
    · simp at h
    · simp only [Option.some.injEq] at h
      exact ⟨by simpa using ‹¬ s.it.is_end = true›, h⟩

/-- The value of `depth()` at a yielded entry, from the length of the frontier. -/
theorem position_depth (fs : FileSystem) (os : HandleTable) (root : Path)
    (options : directory_options) (s0 : Session)
    (hc : recursive_directory_iterator.construct fs os root options = Except.ok s0)
    (ops : List Op) (o : Outcome Session) (ho : o ∈ positions fs s0 ops)
    (e : directory) (he : yielded o = some e) :
    root <+: e.path.dropLast ∧
    o.state.it.depth = parent_level root e.path +
      (if e.is_directory = true ∧ (fs.opendir e.path).isSome = true then 1 else 0) := by
  have h := positions_spec fs os root options (Chain root) (Chain.chain_kept fs options root)
    (fun _ _ _ => rfl) s0 hc ops o ho
  obtain ⟨s1, rfl, hne, hde⟩ := yielded_some o e he
  obtain ⟨hh, hat⟩ := h
  rcases hat s1 rfl with hend | ⟨impl, himpl, hae, hy⟩
  · rw [hend] at hne; simp at hne
  · obtain ⟨_, hcase⟩ := hh impl himpl
    rcases hcase with ⟨ht, _⟩ | ⟨_, _, _, hd⟩
    · rw [ht] at hae; simp at hae
    · obtain ⟨d, p, rest, n, more, e1, hch, hpend, h1, h2, hce, hcur, hshape⟩ := hy
      have hpath := Advance.chosen_entry_path fs _ _ _ hce
      have hde1 : e = e1 := by
        rw [← hde, ← hcur]
        simp [recursive_directory_iterator.deref, himpl]
      subst hde1
      obtain ⟨hpre, hlen⟩ := Chain.top root rest d p hch
      have hdepth : s1.it.depth = impl.current_depth := by
        simp [recursive_directory_iterator.depth, himpl, hae]
      simp only [Outcome.state, hdepth, parent_level, hpath, List.dropLast_concat]
      refine ⟨hpre, ?_⟩
      rcases hshape with ⟨hst, hflat⟩ | ⟨id, items, hopen, hdir, hst⟩
      · have hcond : ¬ (e.is_directory = true ∧ (fs.opendir (p ++ [n])).isSome = true) := by
          rintro ⟨hd1, ho1⟩
          rcases hflat with hf | hf
          · rw [hf] at hd1; simp at hd1
          · rw [hf] at ho1; simp at ho1
        have hst2 : impl.dir_stack = _ := hst
        rw [hst2] at hd
        rw [if_neg hcond]
        simp only [List.length_cons] at hd
        push_cast at hd
        omega
      · have hcond : e.is_directory = true ∧ (fs.opendir (p ++ [n])).isSome = true :=
          ⟨hdir, by simp [hopen]⟩
        have hst2 : impl.dir_stack = _ := hst
        rw [hst2] at hd
        rw [if_pos hcond]
        simp only [List.length_cons] at hd
        push_cast at hd
        omega

/-- C2 (as the code has it): at every yielded entry `depth()` is the number of directory
levels between the traversal root and the entry's parent directory, except that at a
directory entry whose handle was opened on discovery (a directory, or a followed
symlink to a directory) it is one more: the frame of that directory is already pushed
when the entry is yielded. -/
theorem depth_at_yielded_entry (fs : FileSystem) (os : HandleTable) (root : Path)
    (options : directory_options) (s0 : Session)
    (hc : recursive_directory_iterator.construct fs os root options = Except.ok s0)
    (ops : List Op) (o : Outcome Session) (ho : o ∈ positions fs s0 ops)
    (e : directory) (he : yielded o = some e) :
    root <+: e.path.dropLast ∧
    o.state.it.depth = parent_level root e.path +
      (if e.is_directory = true ∧ (fs.opendir e.path).isSome = true then 1 else 0) :=
  position_depth fs os root options s0 hc ops o ho e he

/-- The statement of `depth_at_yielded_entry` on the example of the specification, at
the position after the first `operator++`. -/
theorem depth_at_yielded_entry_witness :
    ∃ s0 s1, recursive_directory_iterator.construct Example.fs Example.os0 ["a"]
        directory_options.none = Except.ok s0 ∧
      recursive_directory_iterator.operator_inc Example.fs s0 = Outcome.ok s1 ∧
      s1.it.deref.path = ["a", "d"] ∧
      (["a"] <+: s1.it.deref.path.dropLast ∧
        (Outcome.ok s1 : Outcome Session).state.it.depth = parent_level ["a"] s1.it.deref.path +
          (if s1.it.deref.is_directory = true ∧
            (Example.fs.opendir s1.it.deref.path).isSome = true then 1 else 0)) :=
  ⟨_, _, rfl, rfl, rfl,
    depth_at_yielded_entry Example.fs Example.os0 ["a"] directory_options.none _ rfl [Op.inc]
      _ (List.mem_cons_of_mem _ (List.mem_cons_self _ _)) _ rfl⟩

/-- C2 fails as stated: in the example of the specification the directory `/a/d`, a
direct child of the root `/a`, is yielded with `depth() = 1`, while its parent
directory is 0 levels below the root. -/
theorem depth_at_directory_counterexample :
    ∃ s0 s1, recursive_directory_iterator.construct Example.fs Example.os0 ["a"]
        directory_options.none = Except.ok s0 ∧
      recursive_directory_iterator.operator_inc Example.fs s0 = Outcome.ok s1 ∧
      s1.it.is_end = false ∧ s1.it.deref.path = ["a", "d"] ∧
      parent_level ["a"] s1.it.deref.path = 0 ∧ s1.it.depth = 1 :=
  ⟨_, _, rfl, rfl, rfl, rfl, rfl, rfl⟩

/-! ## `pop()` and the directory it leaves -/

theorem Tidy.top_nodup {d : DIR} {p : Path} {rest : List (DIR × Path)}
    (h : Tidy ((d, p) :: rest)) : (item_names d.pending).Nodup := by
  cases rest with
  | nil => exact h
  | cons f rest => exact h.1

theorem Tidy.tail {d : DIR} {p : Path} {rest : List (DIR × Path)}
    (h : Tidy ((d, p) :: rest)) : Tidy rest := by
  cases rest with
  | nil => trivial
  | cons f rest => exact h.2.2

theorem item_names_tail (item : ReadItem) (more : List ReadItem) (n : String)
    (h : n ∈ item_names more) : n ∈ item_names (item :: more) := by
  cases item with
  | entry m => simp [item_names, h]
  | failure => simpa [item_names] using h

theorem item_names_nodup_tail (item : ReadItem) (more : List ReadItem)
    (h : (item_names (item :: more)).Nodup) : (item_names more).Nodup := by
  cases item with
  | entry m =>
    simp only [item_names, List.nodup_cons] at h
    exact h.2
  | failure => simpa [item_names] using h

theorem Tidy.replace_top {d : DIR} {p : Path} {rest : List (DIR × Path)} (d1 : DIR)
    (h : Tidy ((d, p) :: rest)) (h1 : (item_names d1.pending).Nodup) :
    Tidy ((d1, p) :: rest) := by
  cases rest with
  | nil => exact h1
  | cons f rest => exact ⟨h1, h.2⟩

theorem Tidy.tidy_kept (fs : FileSystem) (options : directory_options) (hfs : fs.NoRepeats) :
    StackInv fs options Tidy where
  drop := by
    intro d p rest h
    exact h.tail
  consume := by
    intro d p rest item more hp h
    apply h.replace_top
    have := h.top_nodup
    rw [hp] at this
    exact item_names_nodup_tail item more this
  push := by
    intro d p rest n more items e id hp _ _ h _ _ ho
    have hn := h.top_nodup
    rw [hp] at hn
    simp only [item_names, List.nodup_cons] at hn
    refine ⟨hfs _ _ ho, ⟨n, rfl, hn.1⟩, ?_⟩
    exact h.replace_top _ hn.2

/-- From a sealed frontier the next entry read is not inside `D`. -/
theorem Sealed.next_outside {D : Path} {d : DIR} {p : Path} {rest : List (DIR × Path)}
    {n : String} {more : List ReadItem} (h : Sealed D ((d, p) :: rest))
    (hp : d.pending = ReadItem.entry n :: more) : ¬ D <+: p ++ [n] := by
  intro hpre
  obtain ⟨h1, h2⟩ := h (d, p) (List.mem_cons_self _ _)
  rcases List.prefix_concat_iff.mp hpre with heq | hlt
  · apply h2 n (by rw [heq])
    simp only [hp, item_names, List.mem_cons, true_or]
  · exact h1 hlt

theorem Sealed.sealed_kept (fs : FileSystem) (options : directory_options) (D : Path) :
    StackInv fs options (Sealed D) where
  drop := by
    intro d p rest h f hf
    exact h f (List.mem_cons_of_mem _ hf)
  consume := by
    intro d p rest item more hp h f hf
    simp only [List.mem_cons] at hf
    rcases hf with rfl | hf
    · obtain ⟨h1, h2⟩ := h (d, p) (List.mem_cons_self _ _)
      refine ⟨h1, ?_⟩
      intro n hn hmem
      apply h2 n hn
      rw [hp]
      exact item_names_tail item more n hmem
    · exact h f (List.mem_cons_of_mem _ hf)
  push := by
    intro d p rest n more items e id hp _ _ h _ _ _ f hf
    have hout := h.next_outside hp
    simp only [List.mem_cons] at hf
    rcases hf with rfl | rfl | hf
    · refine ⟨hout, ?_⟩
      intro n1 hn1
      exfalso
      obtain ⟨_, h2⟩ := h (d, p) (List.mem_cons_self _ _)
      apply h2 n ((List.prefix_append _ _).trans hn1)
      simp only [hp, item_names, List.mem_cons, true_or]
    · obtain ⟨h1, h2⟩ := h (d, p) (List.mem_cons_self _ _)
      refine ⟨h1, ?_⟩
      intro n1 hn1 hmem
      apply h2 n1 hn1
      rw [hp]
      exact item_names_tail _ more n1 hmem
    · exact h f (List.mem_cons_of_mem _ hf)

/-- Below the frame of a directory on the way to `D`, a tidy frontier is sealed for `D`. -/
theorem Tidy.sealed_below :
    ∀ (rest : List (DIR × Path)) (d : DIR) (q D : Path), Tidy ((d, q) :: rest) → q <+: D →
      Sealed D rest := by
  intro rest
  induction rest with
  | nil => intro d q D _ _ f hf; simp at hf
  | cons f1 rest ih =>
    intro d q D h hq f hf
    obtain ⟨d1, p1⟩ := f1
    obtain ⟨_, ⟨n1, hq1, hn1⟩, ht⟩ := h
    subst hq1
    have hp1 : p1 <+: D := (List.prefix_append _ _).trans hq
    simp only [List.mem_cons] at hf
    rcases hf with rfl | hf
    · constructor
      · intro hD
        have h1 : D.length ≤ p1.length := hD.length_le
        have h2 := hq.length_le
        simp at h2
        omega
      · intro n hn hmem
        have hle : (p1 ++ [n]).length ≤ (p1 ++ [n1]).length := by simp
        have hpre := List.prefix_of_prefix_length_le hn hq hle
        have heq := hpre.eq_of_length (by simp)
        have : n = n1 := by simpa using heq
        subst this
        exact hn1 hmem
    · exact ih d1 p1 D ht hp1 f hf

/-- The session `pop()` leaves, from a non-terminal state whose frames under the top
satisfy `P`. -/
theorem recursive_directory_iterator.pop_spec (fs : FileSystem) (options : directory_options)
    (P : List (DIR × Path) → Prop) (hP : StackInv fs options P) (os : HandleTable)
    (impl : iterator_impl) (top_dir : DIR) (top_path : Path) (rest : List (DIR × Path))
    (ho : impl.options = options) (he : impl.at_end = false)
    (hs : impl.dir_stack = (top_dir, top_path) :: rest) (hp : P rest)
    (hd : impl.current_depth + 1 = (impl.dir_stack.length : Int)) :
    Session.Holds options P
      (recursive_directory_iterator.pop fs { os := os, it := { _impl := some impl } }).state ∧
    (∀ s1, recursive_directory_iterator.pop fs { os := os, it := { _impl := some impl } } =
        Outcome.ok s1 → s1.it.is_end = true ∨ Session.At fs P s1) := by
  rw [hs] at hd
  have ha := Session.after_Advance fs options P hP
    { os := closedir top_dir os
      impl := { impl with dir_stack := rest
                          current_depth := impl.current_depth - 1 } }
    ho he hp
    (by simp only [List.length_cons] at hd; push_cast at hd; simp only; omega)
  simp only [recursive_directory_iterator.pop, hs]
  cases hr : Advance fs
      { os := closedir top_dir os
        impl := { impl with dir_stack := rest
                            current_depth := impl.current_depth - 1 } } with
  | ok m1 =>
    rw [hr] at ha
    rcases ha with ⟨he1, hs1, _⟩ | ⟨he1, hh1, hat1⟩
    · simp only [he1, ↓reduceIte, Outcome.state]
      refine ⟨Session.Holds_null options P _, ?_⟩
      intro s1 h1
      simp only [Outcome.ok.injEq] at h1
      subst h1
      exact Or.inl rfl
    · simp only [he1, Bool.false_eq_true, ↓reduceIte, Outcome.state]
      refine ⟨hh1, ?_⟩
      intro s1 h1
      simp only [Outcome.ok.injEq] at h1
      subst h1
      exact Or.inr hat1
  | threw e m1 =>
    rw [hr] at ha
    simp only [Outcome.state]
    exact ⟨ha, by intro s1 h1; simp at h1⟩

/-- An entry yielded from a frontier sealed for `D` is not inside `D`. -/
theorem Session.At.outside {fs : FileSystem} {D : Path} {s : Session}
    (h : Session.At fs (Sealed D) s) : ¬ D <+: s.it.deref.path := by
  obtain ⟨impl, himpl, _, d, p, rest, n, more, e, hseal, hpend, _, _, hce, hcur, _⟩ := h
  have hpath := Advance.chosen_entry_path fs _ _ _ hce
  have : s.it.deref = e := by
    rw [← hcur]
    simp [recursive_directory_iterator.deref, himpl]
  rw [this, hpath]
  exact hseal.next_outside hpend

/-- C3 (as the code has it): in a file system whose listings do not repeat a name, when
the iterator is positioned at a yielded entry, inside its parent directory `D`, then
after `pop()` neither `pop()` itself nor any later `operator++` or `pop()` yields
an entry of the directory that `pop()` leaves.  When the entry is not a directory
opened on discovery (a file, a symlink that is not followed, a special node, a
directory that could not be opened) that directory is `D`: no entry whose path lies
inside `D` is yielded.  When the entry is a directory opened on discovery it is the
entry's own directory: no entry whose path is the entry's or lies under it is
yielded. -/
theorem pop_leaves_directory (fs : FileSystem) (hfs : fs.NoRepeats) (os : HandleTable)
    (root : Path) (options : directory_options) (s0 : Session)
    (hc : recursive_directory_iterator.construct fs os root options = Except.ok s0)
    (ops1 : List Op) (o : Outcome Session) (ho : o ∈ positions fs s0 ops1)
    (e : directory) (he : yielded o = some e)
    (ops2 : List Op) (y : directory) (hy : y ∈ run_yields fs o.state (Op.pop :: ops2)) :
    (¬ (e.is_directory = true ∧ (fs.opendir e.path).isSome = true) →
      ¬ e.path.dropLast <+: y.path) ∧
    ((e.is_directory = true ∧ (fs.opendir e.path).isSome = true) →
      ¬ e.path <+: y.path) := by
  have h := positions_spec fs os root options Tidy (Tidy.tidy_kept fs options hfs)
    (fun _ items hopen => hfs _ _ hopen) s0 hc ops1 o ho
  obtain ⟨s1, rfl, hne, hde⟩ := yielded_some o e he
  obtain ⟨hh, hat⟩ := h
  rcases hat s1 rfl with hend | ⟨impl, himpl, hae, hyield⟩
  · rw [hend] at hne; simp at hne
  obtain ⟨hopt, hcase⟩ := hh impl himpl
  rcases hcase with ⟨ht, _⟩ | ⟨_, _, htidy, hd⟩
  · rw [ht] at hae; simp at hae
  obtain ⟨d, p, rest, n, more, e1, _, hpend, h1, h2, hce, hcur, hshape⟩ := hyield
  have hpath := Advance.chosen_entry_path fs _ _ _ hce
  have hde1 : e = e1 := by
    rw [← hde, ← hcur]
    simp [recursive_directory_iterator.deref, himpl]
  subst hde1
  have hs1 : s1 = { os := s1.os, it := { _impl := some impl } } := by
    obtain ⟨os1, ⟨i1⟩⟩ := s1
    simp only at himpl
    subst himpl
    rfl
  -- `pop()` leaves the directory of the top frame, whichever it is
  have key : ∀ (dtop : DIR) (ptop : Path) (below : List (DIR × Path)),
      impl.dir_stack = (dtop, ptop) :: below → ¬ ptop <+: y.path := by
    intro dtop ptop below hst2
    rw [hst2] at htidy
    have hseal : Sealed ptop below :=
      Tidy.sealed_below below _ ptop ptop htidy (List.prefix_refl _)
    have hpop := recursive_directory_iterator.pop_spec fs options (Sealed ptop)
      (Sealed.sealed_kept fs options ptop) s1.os impl _ ptop below hopt hae hst2 hseal hd
    rw [← hs1] at hpop
    simp only [run_yields, run, Outcome.state, List.filterMap_cons, Op.apply] at hy
    have hrun := run_spec fs options (Sealed ptop) (Sealed.sealed_kept fs options ptop) ops2 _
      hpop.1
    have hfinal : ∀ o1, (o1 = recursive_directory_iterator.pop fs s1 ∨
        o1 ∈ run fs (recursive_directory_iterator.pop fs s1).state ops2) →
        yielded o1 = some y → ¬ ptop <+: y.path := by
      intro o1 ho1 hy1
      obtain ⟨s2, rfl, hne2, hde2⟩ := yielded_some o1 y hy1
      have hat2 : s2.it.is_end = true ∨ Session.At fs (Sealed ptop) s2 := by
        rcases ho1 with ho1 | ho1
        · exact hpop.2 s2 ho1.symm
        · exact (hrun _ ho1).2 s2 rfl
      rcases hat2 with hend | hat2
      · rw [hend] at hne2; simp at hne2
      · rw [← hde2]
        exact hat2.outside
    cases hy0 : yielded (recursive_directory_iterator.pop fs s1) with
    | none =>
      rw [hy0] at hy
      simp only [List.mem_filterMap] at hy
      obtain ⟨o1, ho1, hy1⟩ := hy
      exact hfinal o1 (Or.inr ho1) hy1
    | some y0 =>
      rw [hy0] at hy
      simp only [List.mem_cons, List.mem_filterMap] at hy
      rcases hy with rfl | ⟨o1, ho1, hy1⟩
      · exact hfinal _ (Or.inl rfl) hy0
      · exact hfinal o1 (Or.inr ho1) hy1
  constructor
  · intro hflat
    rcases hshape with ⟨hst, _⟩ | ⟨id, items, hopen, hdir, _⟩
    · rw [hpath, List.dropLast_concat]
      exact key _ p rest hst
    · exact absurd ⟨hdir, by rw [hpath]; simp [hopen]⟩ hflat
  · intro hopened
    rcases hshape with ⟨_, hflat⟩ | ⟨id, items, _, _, hst⟩
    · rcases hflat with hflat | hflat
      · rw [hflat] at hopened; cases hopened.1
      · rw [hpath, hflat] at hopened; cases hopened.2
    · rw [hpath]
      exact key _ (p ++ [n]) _ hst

theorem Example.fs2_no_repeats : Example.fs2.NoRepeats := by
  intro p items h
  simp only [Example.fs2] at h
  split_ifs at h <;> (cases h; decide)

/-- The statement of `pop_leaves_directory` on the tree `/r`.  Positioned at the file
`/r/d/g`, `pop()` yields `/r/l`, which is outside `/r/d`.  Positioned at the opened
directory `/r/d`, `pop()` yields `/r/l` as well, which is not under `/r/d`. -/
theorem pop_leaves_directory_witness :
    ∃ s0 s1 s2 s3, recursive_directory_iterator.construct Example.fs2 Example.os0 ["r"]
        directory_options.none = Except.ok s0 ∧
      recursive_directory_iterator.operator_inc Example.fs2 s0 = Outcome.ok s1 ∧
      s1.it.deref.path = ["r", "d", "g"] ∧
      recursive_directory_iterator.pop Example.fs2 s1 = Outcome.ok s2 ∧
      s2.it.deref.path = ["r", "l"] ∧
      ¬ s1.it.deref.path.dropLast <+: s2.it.deref.path ∧
      s0.it.deref.path = ["r", "d"] ∧
      (s0.it.deref.is_directory = true ∧
        (Example.fs2.opendir s0.it.deref.path).isSome = true) ∧
      recursive_directory_iterator.pop Example.fs2 s0 = Outcome.ok s3 ∧
      s3.it.deref.path = ["r", "l"] ∧
      ¬ s0.it.deref.path <+: s3.it.deref.path :=
  ⟨_, _, _, _, rfl, rfl, rfl, rfl, rfl,
    (pop_leaves_directory Example.fs2 Example.fs2_no_repeats Example.os0 ["r"]
      directory_options.none _ rfl [Op.inc] _ (List.mem_cons_of_mem _ (List.mem_cons_self _ _))
      _ rfl [] _ (by decide)).1 (by decide),
    rfl, ⟨rfl, rfl⟩, rfl, rfl,
    (pop_leaves_directory Example.fs2 Example.fs2_no_repeats Example.os0 ["r"]
      directory_options.none _ rfl [] _ (List.mem_cons_self _ _)
      _ rfl [] _ (by decide)).2 ⟨rfl, rfl⟩⟩

/-- C3 fails as stated: on the tree `/r` the iterator is first positioned at the
subdirectory `/r/d`, a direct child of `D = /r` with unread siblings; `pop()` then
yields `/r/l`, an entry inside `D`. -/
theorem pop_at_directory_counterexample :
    ∃ s0 s1, recursive_directory_iterator.construct Example.fs2 Example.os0 ["r"]
        directory_options.none = Except.ok s0 ∧
      s0.it.is_end = false ∧ s0.it.deref.path = ["r", "d"] ∧
      s0.it.deref.is_directory = true ∧
      recursive_directory_iterator.pop Example.fs2 s0 = Outcome.ok s1 ∧
      s1.it.is_end = false ∧ s1.it.deref.path = ["r", "l"] ∧
      s0.it.deref.path.dropLast <+: s1.it.deref.path :=
  ⟨_, _, rfl, rfl, rfl, rfl, rfl, rfl, rfl, ⟨["l"], rfl⟩⟩

/-! ## Symlinks to directories -/

theorem Advance.chosen_entry_no_follow (fs : FileSystem) (options : directory_options)
    (q : Path) (st : struct_stat)
    (hf : HasOption options directory_options.follow_directory_symlink = false)
    (hl : fs.lstat q = some st) :
    Advance.chosen_entry fs options q = some (directory.construct q st (S_ISLNK st.st_mode)) := by
  simp [Advance.chosen_entry, hl, hf]

/-- While the directory at `L` is never opened, no frame ever lies at or under `L`. -/
theorem NotUnder.not_under_kept (fs : FileSystem) (options : directory_options) (L : Path)
    (hL : ∀ e, Advance.chosen_entry fs options L = some e → e.is_directory = true →
      fs.opendir L = Option.none) :
    StackInv fs options (NotUnder L) where
  drop := by
    intro d p rest h f hf
    exact h f (List.mem_cons_of_mem _ hf)
  consume := by
    intro d p rest item more _ h f hf
    simp only [List.mem_cons] at hf
    rcases hf with rfl | hf
    · exact h (d, p) (List.mem_cons_self _ _)
    · exact h f (List.mem_cons_of_mem _ hf)
  push := by
    intro d p rest n more items e id _ _ _ h hce hdir hopen f hf
    simp only [List.mem_cons] at hf
    rcases hf with rfl | rfl | hf
    · intro hpre
      rcases List.prefix_concat_iff.mp hpre with heq | hlt
      · rw [← heq] at hce hopen
        rw [hL e hce hdir] at hopen
        cases hopen
      · exact h (d, p) (List.mem_cons_self _ _) hlt
    · exact h (d, p) (List.mem_cons_self _ _)
    · exact h f (List.mem_cons_of_mem _ hf)

theorem Chain.all_le (root : Path) :
    ∀ (rest : List (DIR × Path)) (d : DIR) (p : Path), Chain root ((d, p) :: rest) →
      ∀ f ∈ (d, p) :: rest, f.2.length ≤ p.length := by
  intro rest
  induction rest with
  | nil =>
    intro d p _ f hf
    simp only [List.mem_singleton] at hf
    subst hf
    exact le_refl _
  | cons f1 rest ih =>
    intro d p h f hf
    obtain ⟨d1, p1⟩ := f1
    obtain ⟨⟨n, hn⟩, h1⟩ := h
    simp only [List.mem_cons] at hf
    rcases hf with rfl | hf
    · exact le_refl _
    · have := ih d1 p1 h1 f (List.mem_cons.mpr hf)
      subst hn
      simp
      omega

/-- An entry yielded from a frontier with no frame at or under `L` is not strictly
under `L`. -/
theorem Session.At.not_under {fs : FileSystem} {L : Path} {s : Session}
    (h : Session.At fs (NotUnder L) s) (hpre : L <+: s.it.deref.path) :
    s.it.deref.path = L := by
  obtain ⟨impl, himpl, _, d, p, rest, n, more, e, hnu, hpend, _, _, hce, hcur, _⟩ := h
  have hpath := Advance.chosen_entry_path fs _ _ _ hce
  have : s.it.deref = e := by
    rw [← hcur]
    simp [recursive_directory_iterator.deref, himpl]
  rw [this, hpath] at hpre ⊢
  rcases List.prefix_concat_iff.mp hpre with heq | hlt
  · exact heq.symm
  · exact absurd hlt (hnu (d, p) (List.mem_cons_self _ _))

/-- C4: with `follow_directory_symlink` unset, every yielded entry whose path `L` is a
symlink (whatever it points at, a directory in particular) reports `is_symlink()` and
not `is_directory()`; no frame was pushed for it: the top frame of the frontier is the
directory `L` was read from and `depth()` is the level of that directory; and no entry
strictly under `L` is yielded by any later `operator++` or `pop()`. -/
theorem symlink_not_followed (fs : FileSystem) (os : HandleTable) (root : Path)
    (options : directory_options)
    (hf : HasOption options directory_options.follow_directory_symlink = false)
    (s0 : Session)
    (hc : recursive_directory_iterator.construct fs os root options = Except.ok s0)
    (ops1 : List Op) (o : Outcome Session) (ho : o ∈ positions fs s0 ops1)
    (e : directory) (he : yielded o = some e)
    (st : struct_stat) (hl : fs.lstat e.path = some st) (hlnk : S_ISLNK st.st_mode = true) :
    e.is_symlink = true ∧ e.is_directory = false ∧
    (∃ impl d rest, o.state.it._impl = some impl ∧
      impl.dir_stack = (d, e.path.dropLast) :: rest) ∧
    o.state.it.depth = parent_level root e.path ∧
    (∀ ops2, ∀ y ∈ run_yields fs o.state ops2, e.path <+: y.path → y.path = e.path) := by
  have hdepth := position_depth fs os root options s0 hc ops1 o ho e he
  have h := positions_spec fs os root options (Chain root) (Chain.chain_kept fs options root)
    (fun _ _ _ => rfl) s0 hc ops1 o ho
  obtain ⟨s1, rfl, hne, hde⟩ := yielded_some o e he
  obtain ⟨hh, hat⟩ := h
  rcases hat s1 rfl with hend | ⟨impl, himpl, hae, hyield⟩
  · rw [hend] at hne; simp at hne
  obtain ⟨hopt, hcase⟩ := hh impl himpl
  rcases hcase with ⟨ht, _⟩ | ⟨_, hne1, hchain, hd⟩
  · rw [ht] at hae; simp at hae
  obtain ⟨d, p, rest, n, more, e1, _, hpend, h1, h2, hce, hcur, hshape⟩ := hyield
  have hpath := Advance.chosen_entry_path fs _ _ _ hce
  have hde1 : e = e1 := by
    rw [← hde, ← hcur]
    simp [recursive_directory_iterator.deref, himpl]
  subst hde1
  have hopt2 : ({ os := s1.os, impl := impl } : Machine).impl.options = options := hopt
  rw [hopt2, ← hpath, Advance.chosen_entry_no_follow fs options e.path st hf hl] at hce
  simp only [Option.some.injEq] at hce
  have hsym : e.is_symlink = true := by rw [← hce]; exact hlnk
  have hdir : e.is_directory = false := by
    rw [← hce]; exact S_ISLNK_not_S_ISDIR _ hlnk
  have hst : impl.dir_stack = ({ d with pending := more }, p) :: rest := by
    rcases hshape with ⟨hst, _⟩ | ⟨_, _, _, hd1, _⟩
    · exact hst
    · rw [hdir] at hd1; cases hd1
  refine ⟨hsym, hdir, ⟨impl, { d with pending := more }, rest, himpl, ?_⟩, ?_, ?_⟩
  · rw [hst, hpath, List.dropLast_concat]
  · rw [hdepth.2, hdir]; simp
  · intro ops2 y hy
    have hinv : StackInv fs options (NotUnder e.path) := by
      apply NotUnder.not_under_kept
      intro e2 hce2 hd2
      rw [Advance.chosen_entry_no_follow fs options e.path st hf hl] at hce2
      simp only [Option.some.injEq] at hce2
      rw [← hce2] at hd2
      rw [show (directory.construct e.path st (S_ISLNK st.st_mode)).is_directory =
        S_ISDIR st.st_mode from rfl, S_ISLNK_not_S_ISDIR _ hlnk] at hd2
      cases hd2
    have hholds : Session.Holds options (NotUnder e.path) s1 := by
      intro impl1 himpl1
      rw [himpl] at himpl1
      simp only [Option.some.injEq] at himpl1
      subst himpl1
      refine ⟨hopt, Or.inr ⟨hae, hne1, ?_, hd⟩⟩
      intro f hf1 hpre
      rw [hst] at hchain hf1
      have hle := Chain.all_le root rest _ p hchain f hf1
      have hlen := hpre.length_le
      rw [hpath] at hlen
      simp at hlen
      omega
    simp only [run_yields, List.mem_filterMap] at hy
    obtain ⟨o1, ho1, hy1⟩ := hy
    obtain ⟨s2, rfl, hne2, hde2⟩ := yielded_some o1 y hy1
    rcases (run_spec fs options (NotUnder e.path) hinv ops2 s1 hholds _ ho1).2 s2 rfl with
      hend | hat2
    · rw [hend] at hne2; simp at hne2
    · intro hpre
      rw [← hde2] at hpre ⊢
      exact hat2.not_under hpre

/-- The statement of `symlink_not_followed` on the tree `/r`, whose symlink `/r/l`
points at the directory `/r/d`: the third `operator++` yields `/r/l`. -/
theorem symlink_not_followed_witness :
    ∃ s0 s3, recursive_directory_iterator.construct Example.fs2 Example.os0 ["r"]
        directory_options.none = Except.ok s0 ∧
      advance_n Example.fs2 3 s0 = some s3 ∧ s3.it.deref.path = ["r", "l"] ∧
      (Example.fs2.stat ["r", "l"]).map (fun t => S_ISDIR t.st_mode) = some true ∧
      (s3.it.deref.is_symlink = true ∧ s3.it.deref.is_directory = false ∧
        (∃ impl d rest, s3.it._impl = some impl ∧
          impl.dir_stack = (d, s3.it.deref.path.dropLast) :: rest) ∧
        s3.it.depth = parent_level ["r"] s3.it.deref.path ∧
        (∀ ops2, ∀ y ∈ run_yields Example.fs2 s3 ops2,
          s3.it.deref.path <+: y.path → y.path = s3.it.deref.path)) :=
  ⟨_, _, rfl, rfl, rfl, rfl,
    symlink_not_followed Example.fs2 Example.os0 ["r"] directory_options.none rfl _ rfl
      [Op.inc, Op.inc, Op.inc] (Outcome.ok _)
      (List.mem_cons_of_mem _ (List.mem_cons_of_mem _ (List.mem_cons_of_mem _
        (List.mem_cons_self _ _))))
      _ rfl _ rfl rfl⟩

/-! ## Unfolding `Advance` pass by pass -/

theorem Advance.loop_ge (fs : FileSystem) (m : Machine) :
    ∀ (extra : Nat), Advance.loop fs (stack_measure m.impl.dir_stack + extra) m =
      some (Advance fs m) := by
  intro extra
  induction extra with
  | zero => exact Advance.loop_eq fs m
  | succ k ih => exact Advance.loop_mono fs _ m _ ih

theorem Advance.unfold_nil (fs : FileSystem) (m : Machine) (hs : m.impl.dir_stack = []) :
    Advance fs m = Outcome.ok { m with impl := { m.impl with at_end := true } } := by
  have h := Advance.loop_eq fs m
  rw [Advance.loop_nil fs _ m hs] at h
  exact (Option.some.inj h).symm

theorem Advance.unfold_cons (fs : FileSystem) (m : Machine) (d : DIR) (p : Path)
    (rest : List (DIR × Path)) (hs : m.impl.dir_stack = (d, p) :: rest) :
    Advance fs m =
      match Advance.body fs m d p rest with
      | Step.continue_ m1 => Advance fs m1
      | Step.return_ m1 => Outcome.ok m1
      | Step.throw_ e m1 => Outcome.threw e m1 := by
  have h := Advance.loop_eq fs m
  have hm : stack_measure m.impl.dir_stack =
      (stack_measure m.impl.dir_stack - 1) + 1 := by
    rw [hs]
    simp only [stack_measure, List.map_cons, List.sum_cons]
    omega
  rw [hm, Advance.loop_succ fs _ m d p rest hs] at h
  cases hb : Advance.body fs m d p rest with
  | continue_ m1 =>
    rw [hb] at h
    simp only at h ⊢
    have hlt := Advance.body_continue_measure fs m d p rest m1 hb
    rw [← hs] at hlt
    obtain ⟨k, hk⟩ : ∃ k, stack_measure m.impl.dir_stack - 1 =
        stack_measure m1.impl.dir_stack + k := ⟨_, (Nat.add_sub_of_le (by omega)).symm⟩
    rw [hk, Advance.loop_ge fs m1 k] at h
    exact (Option.some.inj h).symm
  | return_ m1 =>
    rw [hb] at h
    exact (Option.some.inj h).symm
  | throw_ e m1 =>
    rw [hb] at h
    exact (Option.some.inj h).symm

/-- The self and parent entries at the head of a listing are passed over. -/
theorem Advance.skip_dots (fs : FileSystem) :
    ∀ (dots : List ReadItem) (m : Machine) (d : DIR) (p : Path) (rest : List (DIR × Path))
      (tail : List ReadItem), m.impl.dir_stack = (d, p) :: rest →
      d.pending = dots ++ tail → (∀ x ∈ dots, is_dot_item x) →
      Advance fs m = Advance fs (m.consumed d p rest tail) := by
  intro dots
  induction dots with
  | nil =>
    intro m d p rest tail hs hp _
    simp only [List.nil_append] at hp
    congr
    obtain ⟨os, impl⟩ := m
    obtain ⟨id, pending⟩ := d
    simp only at hs hp
    subst hp
    simp [Machine.consumed, ← hs]
  | cons x dots ih =>
    intro m d p rest tail hs hp hdots
    have hx := hdots x (List.mem_cons_self _ _)
    have hp1 : d.pending = x :: (dots ++ tail) := by simpa using hp
    rw [Advance.unfold_cons fs m d p rest hs]
    have hb : Advance.body fs m d p rest = Step.continue_ (m.consumed d p rest (dots ++ tail)) := by
      rcases hx with rfl | rfl
      · exact Advance.body_dot fs m d p rest "." _ hp1 (Or.inl rfl)
      · exact Advance.body_dot fs m d p rest ".." _ hp1 (Or.inr rfl)
    rw [hb]
    simp only
    rw [ih (m.consumed d p rest (dots ++ tail)) { d with pending := dots ++ tail } p rest tail
      rfl rfl (fun y hy => hdots y (List.mem_cons_of_mem _ hy))]

theorem Advance.chosen_entry_follow (fs : FileSystem) (options : directory_options)
    (q : Path) (st tst : struct_stat)
    (hf : HasOption options directory_options.follow_directory_symlink = true)
    (hl : fs.lstat q = some st) (hlnk : S_ISLNK st.st_mode = true)
    (hs : fs.stat q = some tst) (hdir : S_ISDIR tst.st_mode = true) :
    Advance.chosen_entry fs options q = some (directory.construct q tst true) := by
  simp [Advance.chosen_entry, hl, hf, hlnk, hs, hdir]

/-- C6: `a == b` holds exactly when both iterators are terminal, or both are
non-terminal and their current entries have the same path; hence `==` is reflexive,
symmetric and transitive, `!=` is its negation, two iterators positioned at the same
path are equal, and a non-terminal iterator equals neither `end()` nor an iterator
positioned at a different path. -/
theorem operator_eq_spec :
    (∀ a b : recursive_directory_iterator,
      recursive_directory_iterator.operator_eq a b = true ↔
        (a.is_end = true ∧ b.is_end = true) ∨
        (a.is_end = false ∧ b.is_end = false ∧ a.deref.path = b.deref.path)) ∧
    (∀ a : recursive_directory_iterator, recursive_directory_iterator.operator_eq a a = true) ∧
    (∀ a b : recursive_directory_iterator,
      recursive_directory_iterator.operator_eq a b =
        recursive_directory_iterator.operator_eq b a) ∧
    (∀ a b c : recursive_directory_iterator,
      recursive_directory_iterator.operator_eq a b = true →
      recursive_directory_iterator.operator_eq b c = true →
      recursive_directory_iterator.operator_eq a c = true) ∧
    (∀ a b : recursive_directory_iterator,
      recursive_directory_iterator.operator_ne a b =
        !recursive_directory_iterator.operator_eq a b) ∧
    (∀ a b : recursive_directory_iterator, a.is_end = false → b.is_end = false →
      a.deref.path = b.deref.path → recursive_directory_iterator.operator_eq a b = true) ∧
    (∀ a : recursive_directory_iterator, a.is_end = false →
      recursive_directory_iterator.operator_eq a a.end_ = false ∧
      recursive_directory_iterator.operator_eq a.end_ a = false) ∧
    (∀ a b : recursive_directory_iterator, a.is_end = false → b.is_end = false →
      a.deref.path ≠ b.deref.path → recursive_directory_iterator.operator_eq a b = false) ∧
    (∀ a : recursive_directory_iterator, a.is_end = true →
      recursive_directory_iterator.operator_eq a a.end_ = true) := by
  have key : ∀ a b : recursive_directory_iterator,
      recursive_directory_iterator.operator_eq a b = true ↔
        (a.is_end = true ∧ b.is_end = true) ∨
        (a.is_end = false ∧ b.is_end = false ∧ a.deref.path = b.deref.path) := by
    intro a b
    unfold recursive_directory_iterator.operator_eq
    cases ha : a.is_end <;> cases hb : b.is_end <;> simp
  have hend : ∀ a : recursive_directory_iterator, a.end_.is_end = true := fun _ => rfl
  refine ⟨key, ?_, ?_, ?_, ?_, ?_, ?_, ?_, ?_⟩
  · intro a
    rw [key]
    cases ha : a.is_end <;> simp
  · intro a b
    rw [Bool.eq_iff_iff, key, key]
    constructor
    · rintro (⟨h1, h2⟩ | ⟨h1, h2, h3⟩)
      · exact Or.inl ⟨h2, h1⟩
      · exact Or.inr ⟨h2, h1, h3.symm⟩
    · rintro (⟨h1, h2⟩ | ⟨h1, h2, h3⟩)
      · exact Or.inl ⟨h2, h1⟩
      · exact Or.inr ⟨h2, h1, h3.symm⟩
  · intro a b c hab hbc
    rw [key] at hab hbc ⊢
    rcases hab with ⟨h1, h2⟩ | ⟨h1, h2, h3⟩ <;> rcases hbc with ⟨h4, h5⟩ | ⟨h4, h5, h6⟩
    · exact Or.inl ⟨h1, h5⟩
    · rw [h2] at h4; cases h4
    · rw [h2] at h4; cases h4
    · exact Or.inr ⟨h1, h5, h3.trans h6⟩
  · intro a b
    rfl
  · intro a b ha hb hp
    rw [key]
    exact Or.inr ⟨ha, hb, hp⟩
  · intro a ha
    constructor
    · rw [Bool.eq_false_iff]
      intro h
      rw [key] at h
      rcases h with ⟨h1, _⟩ | ⟨_, h2, _⟩
      · rw [ha] at h1; cases h1
      · rw [hend] at h2; cases h2
    · rw [Bool.eq_false_iff]
      intro h
      rw [key] at h
      rcases h with ⟨_, h1⟩ | ⟨h2, _, _⟩
      · rw [ha] at h1; cases h1
      · rw [hend] at h2; cases h2
  · intro a b ha hb hp
    rw [Bool.eq_false_iff]
    intro h
    rw [key] at h
    rcases h with ⟨h1, _⟩ | ⟨_, _, h3⟩
    · rw [ha] at h1; cases h1
    · exact hp h3
  · intro a ha
    rw [key]
    exact Or.inl ⟨ha, hend a⟩

/-! ## Construction on a root that cannot be traversed -/

/-- On a terminal iterator both moving operations return normally and change nothing. -/
theorem Op.apply_terminal (fs : FileSystem) (s : Session)
    (h : ∀ impl, s.it._impl = some impl → impl.at_end = true ∧ impl.dir_stack = [])
    (op : Op) : op.apply fs s = Outcome.ok s := by
  obtain ⟨os, ⟨_impl⟩⟩ := s
  cases _impl with
  | none =>
    cases op <;>
      simp [Op.apply, recursive_directory_iterator.operator_inc, recursive_directory_iterator.pop]
  | some impl =>
    obtain ⟨he, hs⟩ := h impl rfl
    cases op <;>
      simp [Op.apply, recursive_directory_iterator.operator_inc, recursive_directory_iterator.pop,
        he, hs]

/-- A terminal iterator stays where it is through any run, and yields nothing. -/
theorem run_terminal (fs : FileSystem) (s : Session)
    (h : ∀ impl, s.it._impl = some impl → impl.at_end = true ∧ impl.dir_stack = []) :
    ∀ ops : List Op, (∀ o ∈ run fs s ops, o = Outcome.ok s) ∧ run_yields fs s ops = [] := by
  have hend : s.it.is_end = true := by
    unfold recursive_directory_iterator.is_end
    cases hi : s.it._impl with
    | none => rfl
    | some impl => exact (h impl hi).1
  intro ops
  induction ops with
  | nil => simp [run, run_yields]
  | cons op ops ih =>
    have h1 := Op.apply_terminal fs s h op
    constructor
    · intro o ho
      simp only [run, h1, Outcome.state, List.mem_cons] at ho
      rcases ho with rfl | ho
      · rfl
      · exact ih.1 o ho
    · have h2 := ih.2
      simp only [run_yields] at h2 ⊢
      simp only [run, h1, Outcome.state, List.filterMap_cons, yielded, hend, ↓reduceIte]
      exact h2

theorem operator_eq_terminal (a b : recursive_directory_iterator) (ha : a.is_end = true)
    (hb : b.is_end = true) : recursive_directory_iterator.operator_eq a b = true := by
  simp [recursive_directory_iterator.operator_eq, ha, hb]

/-- C7: when the metadata query of the root fails, or the root is a directory whose
handle cannot be opened, construction with `skip_permission_denied` unset throws the
access error of that site and produces no iterator, and construction with it set
returns an iterator that is terminal at once: `is_end()`, equal to `end()`,
`depth() = -1`, and no operation ever yields an entry. -/
theorem construct_unreadable_root (fs : FileSystem) (os : HandleTable) (root : Path)
    (options : directory_options)
    (h : fs.lstat root = Option.none ∨
      (∃ st, fs.lstat root = some st ∧ S_ISDIR st.st_mode = true ∧
        fs.opendir root = Option.none)) :
    (HasOption options directory_options.skip_permission_denied = false →
      ∃ e, recursive_directory_iterator.construct fs os root options = Except.error (e, os) ∧
        ((fs.lstat root = Option.none ∧ e = Error.no_access root) ∨
          (fs.lstat root ≠ Option.none ∧ e = Error.open_failed root))) ∧
    (HasOption options directory_options.skip_permission_denied = true →
      ∃ s0, recursive_directory_iterator.construct fs os root options = Except.ok s0 ∧
        s0.os = os ∧ s0.it.is_end = true ∧
        recursive_directory_iterator.operator_eq s0.it s0.it.end_ = true ∧
        s0.it.depth = -1 ∧
        (∀ ops, run_yields fs s0 ops = []) ∧ (∀ fuel, visit fs fuel s0 = [])) := by
  have hterm : ∀ (s0 : Session) (impl : iterator_impl), s0.it._impl = some impl →
      impl.at_end = true → impl.dir_stack = [] → s0.os = os →
      s0.os = os ∧ s0.it.is_end = true ∧
        recursive_directory_iterator.operator_eq s0.it s0.it.end_ = true ∧
        s0.it.depth = -1 ∧
        (∀ ops, run_yields fs s0 ops = []) ∧ (∀ fuel, visit fs fuel s0 = []) := by
    intro s0 impl hi he hs hos
    have hend : s0.it.is_end = true := by
      simp [recursive_directory_iterator.is_end, hi, he]
    refine ⟨hos, hend, ?_, ?_, ?_, ?_⟩
    · exact (operator_eq_terminal s0.it s0.it.end_ hend rfl)
    · simp [recursive_directory_iterator.depth, hi, he]
    · intro ops
      apply (run_terminal fs _ _ ops).2
      intro impl1 hi1
      rw [hi] at hi1
      simp only [Option.some.injEq] at hi1
      subst hi1
      exact ⟨he, hs⟩
    · intro fuel
      cases fuel <;> simp [visit, hend]
  rcases h with hl | ⟨st, hl, hd, ho⟩
  · constructor
    · intro hk
      refine ⟨Error.no_access root, ?_, Or.inl ⟨hl, rfl⟩⟩
      simp [recursive_directory_iterator.construct, iterator_impl.construct, hl, hk]
    · intro hk
      refine ⟨⟨os, ⟨some ⟨[], directory.empty, options, 0, true⟩⟩⟩, ?_,
        hterm _ _ rfl rfl rfl rfl⟩
      simp [recursive_directory_iterator.construct, iterator_impl.construct, hl, hk]
  · constructor
    · intro hk
      refine ⟨Error.open_failed root, ?_, Or.inr ⟨by simp [hl], rfl⟩⟩
      simp [recursive_directory_iterator.construct, iterator_impl.construct, hl, hk, hd,
        opendir, ho]
    · intro hk
      refine ⟨⟨os, ⟨some ⟨[], directory.empty, options, 0, true⟩⟩⟩, ?_,
        hterm _ _ rfl rfl rfl rfl⟩
      simp [recursive_directory_iterator.construct, iterator_impl.construct, hl, hk, hd,
        opendir, ho]

/-- The statement of `construct_unreadable_root` on a root whose `lstat` fails. -/
theorem construct_unreadable_root_witness :
    Example.fs_none.lstat ["x"] = Option.none ∧
    (∃ e, recursive_directory_iterator.construct Example.fs_none Example.os0 ["x"]
        directory_options.none = Except.error (e, Example.os0) ∧
      ((Example.fs_none.lstat ["x"] = Option.none ∧ e = Error.no_access ["x"]) ∨
        (Example.fs_none.lstat ["x"] ≠ Option.none ∧ e = Error.open_failed ["x"]))) ∧
    (∃ s0, recursive_directory_iterator.construct Example.fs_none Example.os0 ["x"]
        directory_options.skip_permission_denied = Except.ok s0 ∧
      s0.os = Example.os0 ∧ s0.it.is_end = true ∧
      recursive_directory_iterator.operator_eq s0.it s0.it.end_ = true ∧
      s0.it.depth = -1 ∧
      (∀ ops, run_yields Example.fs_none s0 ops = []) ∧
      (∀ fuel, visit Example.fs_none fuel s0 = [])) :=
  ⟨rfl,
    (construct_unreadable_root Example.fs_none Example.os0 ["x"] directory_options.none
      (Or.inl rfl)).1 rfl,
    (construct_unreadable_root Example.fs_none Example.os0 ["x"]
      directory_options.skip_permission_denied (Or.inl rfl)).2 rfl⟩

/-- C8: when the non-following metadata of the root reports anything but a directory
(a regular file, a special node, a symlink, also one that points at a directory),
construction throws the not-a-directory error under every option set and opens no
directory handle. -/
theorem construct_not_a_directory (fs : FileSystem) (os : HandleTable) (root : Path)
    (st : struct_stat) (hl : fs.lstat root = some st) (hd : S_ISDIR st.st_mode = false)
    (options : directory_options) :
    recursive_directory_iterator.construct fs os root options =
      Except.error (Error.not_a_directory root, os) := by
  simp [recursive_directory_iterator.construct, iterator_impl.construct, hl, hd]

/-- The statement of `construct_not_a_directory` on the symlink `/r/l`, which points at
a directory, with both options set. -/
theorem construct_not_a_directory_witness :
    (Example.fs2.stat ["r", "l"]).map (fun t => S_ISDIR t.st_mode) = some true ∧
    recursive_directory_iterator.construct Example.fs2 Example.os0 ["r", "l"]
        (directory_options.follow_directory_symlink ||| directory_options.skip_permission_denied) =
      Except.error (Error.not_a_directory ["r", "l"], Example.os0) :=
  ⟨rfl, construct_not_a_directory Example.fs2 Example.os0 ["r", "l"] _ rfl rfl _⟩

/-! ## The failure sites of `Advance` -/

theorem StackInv.trivial (fs : FileSystem) (options : directory_options) :
    StackInv fs options (fun _ => True) where
  drop := fun _ _ _ _ => True.intro
  consume := fun _ _ _ _ _ _ _ => True.intro
  push := fun _ _ _ _ _ _ _ _ _ _ _ _ _ _ _ => True.intro

/-- With `skip_permission_denied` set `Advance` never throws. -/
theorem Advance.no_throw_of_skip (fs : FileSystem) (m : Machine)
    (hk : HasOption m.impl.options directory_options.skip_permission_denied = true) :
    ∃ m1, Advance fs m = Outcome.ok m1 := by
  have h := Advance.master fs (fun _ => True) m (StackInv.trivial fs _) True.intro
  cases hr : Advance fs m with
  | ok m1 => exact ⟨m1, rfl⟩
  | threw e m1 =>
    rw [hr] at h
    have := h.2.2.2.2.2
    rw [hk] at this
    cases this

/-- C9 (as the code has it), for a call of `Advance` whose top frame is `(d, p)`.
At the three query and read sites (reading the top handle, the non-following query of
a discovered path, the following query of a followed symlink): with
`skip_permission_denied` set the pass yields nothing for the offending path, pushes no
frame and the loop goes on with the next candidate (after a read failure with the
frame removed, as on exhaustion); with it unset `Advance` throws.
At the two open sites (a discovered directory, a followed symlink to a directory): with
the option set `Advance` pushes no frame and leaves the depth as it is, but returns
with the unopenable directory as the current entry; with it unset `Advance` throws.
With the option set `Advance` never throws. -/
theorem advance_failure_sites (fs : FileSystem) (m : Machine) (d : DIR) (p : Path)
    (rest : List (DIR × Path)) (hs : m.impl.dir_stack = (d, p) :: rest) :
    (∀ more, d.pending = ReadItem.failure :: more →
      (HasOption m.impl.options directory_options.skip_permission_denied = true →
        Advance fs m = Advance fs (m.dropped d rest)) ∧
      (HasOption m.impl.options directory_options.skip_permission_denied = false →
        Advance fs m = Outcome.threw (Error.read_failed p) (m.consumed d p rest more))) ∧
    (∀ n more, d.pending = ReadItem.entry n :: more → n ≠ "." → n ≠ ".." →
      fs.lstat (p ++ [n]) = Option.none →
      (HasOption m.impl.options directory_options.skip_permission_denied = true →
        Advance fs m = Advance fs (m.consumed d p rest more)) ∧
      (HasOption m.impl.options directory_options.skip_permission_denied = false →
        Advance fs m =
          Outcome.threw (Error.lstat_failed (p ++ [n])) (m.consumed d p rest more))) ∧
    (∀ n more st, d.pending = ReadItem.entry n :: more → n ≠ "." → n ≠ ".." →
      fs.lstat (p ++ [n]) = some st → S_ISLNK st.st_mode = true →
      HasOption m.impl.options directory_options.follow_directory_symlink = true →
      fs.stat (p ++ [n]) = Option.none →
      (HasOption m.impl.options directory_options.skip_permission_denied = true →
        Advance fs m = Advance fs (m.consumed d p rest more)) ∧
      (HasOption m.impl.options directory_options.skip_permission_denied = false →
        Advance fs m =
          Outcome.threw (Error.stat_failed (p ++ [n])) (m.consumed d p rest more))) ∧
    (∀ n more st, d.pending = ReadItem.entry n :: more → n ≠ "." → n ≠ ".." →
      fs.lstat (p ++ [n]) = some st → S_ISDIR st.st_mode = true →
      fs.opendir (p ++ [n]) = Option.none →
      (HasOption m.impl.options directory_options.skip_permission_denied = true →
        Advance fs m = Outcome.ok
          ((m.consumed d p rest more).with_entry (directory.construct (p ++ [n]) st false))) ∧
      (HasOption m.impl.options directory_options.skip_permission_denied = false →
        Advance fs m = Outcome.threw (Error.open_failed (p ++ [n]))
          ((m.consumed d p rest more).with_entry (directory.construct (p ++ [n]) st false)))) ∧
    (∀ n more st tst, d.pending = ReadItem.entry n :: more → n ≠ "." → n ≠ ".." →
      fs.lstat (p ++ [n]) = some st → S_ISLNK st.st_mode = true →
      HasOption m.impl.options directory_options.follow_directory_symlink = true →
      fs.stat (p ++ [n]) = some tst → S_ISDIR tst.st_mode = true →
      fs.opendir (p ++ [n]) = Option.none →
      (HasOption m.impl.options directory_options.skip_permission_denied = true →
        Advance fs m = Outcome.ok
          ((m.consumed d p rest more).with_entry (directory.construct (p ++ [n]) tst true))) ∧
      (HasOption m.impl.options directory_options.skip_permission_denied = false →
        Advance fs m =
          Outcome.threw (Error.open_failed (p ++ [n])) (m.consumed d p rest more))) ∧
    (HasOption m.impl.options directory_options.skip_permission_denied = true →
      ∃ m1, Advance fs m = Outcome.ok m1) := by
  refine ⟨?_, ?_, ?_, ?_, ?_, Advance.no_throw_of_skip fs m⟩
  · intro more hp
    constructor <;> intro hk <;>
      simp [Advance.unfold_cons fs m d p rest hs, Advance.body, hp, hk]
  · intro n more hp h1 h2 hl
    have hdot : (n == "." || n == "..") = false := by simp [h1, h2]
    constructor <;> intro hk <;>
      simp [Advance.unfold_cons fs m d p rest hs, Advance.body, hp, hk, hdot, hl]
  · intro n more st hp h1 h2 hl hlnk hf hst
    have hdot : (n == "." || n == "..") = false := by simp [h1, h2]
    constructor <;> intro hk <;>
      simp [Advance.unfold_cons fs m d p rest hs, Advance.body, hp, hk, hdot, hl, hlnk, hf, hst]
  · intro n more st hp h1 h2 hl hd ho
    have hdot : (n == "." || n == "..") = false := by simp [h1, h2]
    have hlnk : S_ISLNK st.st_mode = false := by
      cases h : S_ISLNK st.st_mode
      · rfl
      · rw [S_ISLNK_not_S_ISDIR _ h] at hd; cases hd
    constructor <;> intro hk <;>
      simp [Advance.unfold_cons fs m d p rest hs, Advance.body, Advance.plain,
        Advance.open_subdir, opendir, hp, hk, hdot, hl, hlnk, hd, ho]
  · intro n more st tst hp h1 h2 hl hlnk hf hst hd ho
    have hdot : (n == "." || n == "..") = false := by simp [h1, h2]
    constructor <;> intro hk <;>
      simp [Advance.unfold_cons fs m d p rest hs, Advance.body, Advance.plain,
        Advance.open_subdir, opendir, hp, hk, hdot, hl, hlnk, hf, hst, hd, ho]

/-- The statement of `advance_failure_sites` at the open site of `/u/x`, with
`skip_permission_denied` set: the directory is not opened but is the current entry. -/
theorem advance_failure_sites_witness :
    Example.fs3.opendir ["u", "x"] = Option.none ∧
    Advance Example.fs3
        { os := { opened := 1, closed := [] }
          impl := { dir_stack := [({ id := 0, pending := [ReadItem.entry "x", ReadItem.entry "f"] },
                      ["u"])]
                    current_entry := directory.empty
                    options := directory_options.skip_permission_denied
                    current_depth := 0, at_end := false } } =
      Outcome.ok
        { os := { opened := 1, closed := [] }
          impl := { dir_stack := [({ id := 0, pending := [ReadItem.entry "f"] }, ["u"])]
                    current_entry := directory.construct ["u", "x"] Example.dir_stat false
                    options := directory_options.skip_permission_denied
                    current_depth := 0, at_end := false } } :=
  ⟨rfl,
    ((advance_failure_sites Example.fs3 _
        { id := 0, pending := [ReadItem.entry "x", ReadItem.entry "f"] } ["u"] [] rfl).2.2.2.1
      "x" [ReadItem.entry "f"] Example.dir_stat rfl (by decide) (by decide) rfl rfl rfl).1 rfl⟩

/-- C9 fails as stated: with `skip_permission_denied` set, the directory `/u/x`, whose
handle cannot be opened, is still yielded as an entry (by the construction's first
`Advance`, which raises no error). -/
theorem unopenable_directory_yielded_counterexample :
    ∃ s0, recursive_directory_iterator.construct Example.fs3 Example.os0 ["u"]
        directory_options.skip_permission_denied = Except.ok s0 ∧
      Example.fs3.opendir ["u", "x"] = Option.none ∧
      s0.it.is_end = false ∧ s0.it.deref.path = ["u", "x"] ∧
      s0.it.deref.is_directory = true :=
  ⟨_, rfl, rfl, rfl, rfl, rfl⟩

/-! ## Node-kind flags of the yielded entries -/

/-- The two ways `Advance` chooses the entry of a discovered path. -/
theorem Advance.chosen_entry_cases (fs : FileSystem) (options : directory_options)
    (q : Path) (e : directory) (h : Advance.chosen_entry fs options q = some e) :
    (∃ st, fs.lstat q = some st ∧ e = directory.construct q st (S_ISLNK st.st_mode) ∧
      ¬ (HasOption options directory_options.follow_directory_symlink = true ∧
        S_ISLNK st.st_mode = true ∧ ∃ tst, fs.stat q = some tst ∧ S_ISDIR tst.st_mode = true)) ∨
    (∃ st tst, HasOption options directory_options.follow_directory_symlink = true ∧
      fs.lstat q = some st ∧ S_ISLNK st.st_mode = true ∧ fs.stat q = some tst ∧
      S_ISDIR tst.st_mode = true ∧ e = directory.construct q tst true) := by
  unfold Advance.chosen_entry at h
  cases hl : fs.lstat q with
  | none => rw [hl] at h; simp at h
  | some st =>
    rw [hl] at h
    simp only at h
    split at h
    · rename_i hcond
      simp only [Bool.and_eq_true] at hcond
      cases hs : fs.stat q with
      | none => rw [hs] at h; simp at h
      | some tst =>
        rw [hs] at h
        simp only at h
        split at h
        · rename_i hd
          right
          simp only [Option.some.injEq] at h
          exact ⟨st, tst, hcond.2, rfl, hcond.1, rfl, hd, by rw [← h, hcond.1]⟩
        · rename_i hd
          left
          simp only [Option.some.injEq] at h
          refine ⟨st, rfl, h.symm, ?_⟩
          rintro ⟨_, _, tst1, h1, h2⟩
          simp only [Option.some.injEq] at h1
          subst h1
          exact hd h2
    · rename_i hcond
      left
      simp only [Option.some.injEq] at h
      refine ⟨st, rfl, h.symm, ?_⟩
      rintro ⟨h1, h2, _⟩
      apply hcond
      simp [h1, h2]

theorem flag_count_of_type (t : Nat) (b : Bool)
    (ht : t ∈ [S_IFDIR, S_IFREG, S_IFLNK, S_IFBLK, S_IFCHR, S_IFSOCK, S_IFIFO]) :
    [t == S_IFDIR, t == S_IFREG, b, t == S_IFBLK, t == S_IFCHR, t == S_IFSOCK,
      t == S_IFIFO].count true =
      (if (t == S_IFLNK) = true then 0 else 1) + (if b = true then 1 else 0) := by
  simp only [List.mem_cons, List.mem_singleton, List.not_mem_nil, or_false] at ht
  rcases ht with rfl | rfl | rfl | rfl | rfl | rfl | rfl <;> cases b <;> decide

/-- The flags of an entry built from a record with a valid file type: one for the file
type unless it is the symlink type, and the symlink flag as given. -/
theorem directory.construct_flag_count (p : Path) (st : struct_stat) (b : Bool)
    (hv : valid_file_type st.st_mode) :
    (directory.construct p st b).kind_flag_count =
      (if S_ISLNK st.st_mode = true then 0 else 1) + (if b = true then 1 else 0) :=
  flag_count_of_type (st.st_mode &&& S_IFMT) b hv

theorem directory.construct_dir_flag_count (p : Path) (st : struct_stat)
    (hd : S_ISDIR st.st_mode = true) :
    (directory.construct p st true).kind_flag_count = 2 := by
  have h : st.st_mode &&& S_IFMT = S_IFDIR := eq_of_beq hd
  simp only [directory.kind_flag_count, directory.construct, directory.is_directory,
    directory.is_regular_file, directory.is_symlink, directory.is_block_file,
    directory.is_character_file, directory.is_socket, directory.is_fifo,
    S_ISDIR, S_ISREG, S_ISLNK, S_ISBLK, S_ISCHR, S_ISSOCK, S_ISFIFO, h]
  decide

/-- C10 (as the code has it): when the non-following metadata always carries one of the
seven file types, every yielded entry has exactly one node-kind flag set, except the
entry of a followed symlink to a directory, which is built from the target's metadata
with `is_symlink` kept and has exactly two: `is_directory` and `is_symlink`. -/
theorem yielded_entry_flags (fs : FileSystem)
    (hfs : ∀ p st, fs.lstat p = some st → valid_file_type st.st_mode)
    (os : HandleTable) (root : Path) (options : directory_options) (s0 : Session)
    (hc : recursive_directory_iterator.construct fs os root options = Except.ok s0)
    (ops : List Op) (o : Outcome Session) (ho : o ∈ positions fs s0 ops)
    (e : directory) (he : yielded o = some e) :
    e.kind_flag_count = (if e.is_symlink = true ∧ e.is_directory = true then 2 else 1) ∧
    ((e.is_symlink = true ∧ e.is_directory = true) ↔
      (HasOption options directory_options.follow_directory_symlink = true ∧
        ∃ st tst, fs.lstat e.path = some st ∧ S_ISLNK st.st_mode = true ∧
          fs.stat e.path = some tst ∧ S_ISDIR tst.st_mode = true)) := by
  have h := positions_spec fs os root options (fun _ => True) (StackInv.trivial fs options)
    (fun _ _ _ => True.intro) s0 hc ops o ho
  obtain ⟨s1, rfl, hne, hde⟩ := yielded_some o e he
  obtain ⟨hh, hat⟩ := h
  rcases hat s1 rfl with hend | ⟨impl, himpl, hae, hyield⟩
  · rw [hend] at hne; simp at hne
  obtain ⟨hopt, -⟩ := hh impl himpl
  obtain ⟨d, p, rest, n, more, e1, _, hpend, h1, h2, hce, hcur, -⟩ := hyield
  have hpath := Advance.chosen_entry_path fs _ _ _ hce
  have hde1 : e = e1 := by
    rw [← hde, ← hcur]
    simp [recursive_directory_iterator.deref, himpl]
  subst hde1
  have hopt2 : ({ os := s1.os, impl := impl } : Machine).impl.options = options := hopt
  rw [hopt2, ← hpath] at hce
  rcases Advance.chosen_entry_cases fs options e.path e hce with
    ⟨st, hl, hes, hnf⟩ | ⟨st, tst, hf, hl, hlnk, hs, hd, hes⟩
  · have hsd : ¬ (e.is_symlink = true ∧ e.is_directory = true) := by
      rintro ⟨h3, h4⟩
      rw [hes] at h3 h4
      have h5 : S_ISLNK st.st_mode = true := h3
      have h6 : S_ISDIR st.st_mode = true := h4
      rw [S_ISLNK_not_S_ISDIR _ h5] at h6
      cases h6
    constructor
    · rw [if_neg hsd, hes, directory.construct_flag_count _ _ _ (hfs _ _ hl)]
      cases S_ISLNK st.st_mode <;> rfl
    · constructor
      · intro h3; exact absurd h3 hsd
      · rintro ⟨hf, st1, tst, hl1, hlnk, hs, hd⟩
        rw [hl] at hl1
        simp only [Option.some.injEq] at hl1
        subst hl1
        exact absurd ⟨hf, hlnk, tst, hs, hd⟩ hnf
  · have hsd : e.is_symlink = true ∧ e.is_directory = true := by
      rw [hes]; exact ⟨rfl, hd⟩
    constructor
    · rw [if_pos hsd, hes, directory.construct_dir_flag_count _ _ hd]
    · exact ⟨fun _ => ⟨hf, st, tst, hl, hlnk, hs, hd⟩, fun _ => hsd⟩

theorem Example.fs2_valid_types :
    ∀ p st, Example.fs2.lstat p = some st → valid_file_type st.st_mode := by
  intro p st h
  simp only [Example.fs2] at h
  split_ifs at h <;> (cases h; unfold valid_file_type; decide)

/-- The statement of `yielded_entry_flags` on the tree `/r` traversed with
`follow_directory_symlink`, at the followed symlink `/r/l`. -/
theorem yielded_entry_flags_witness :
    ∃ s0 s3, recursive_directory_iterator.construct Example.fs2 Example.os0 ["r"]
        directory_options.follow_directory_symlink = Except.ok s0 ∧
      advance_n Example.fs2 3 s0 = some s3 ∧ s3.it.deref.path = ["r", "l"] ∧
      s3.it.deref.kind_flag_count =
        (if s3.it.deref.is_symlink = true ∧ s3.it.deref.is_directory = true then 2 else 1) :=
  ⟨_, _, rfl, rfl, rfl,
    (yielded_entry_flags Example.fs2 Example.fs2_valid_types Example.os0 ["r"]
      directory_options.follow_directory_symlink _ rfl
      [Op.inc, Op.inc, Op.inc] (Outcome.ok _)
      (List.mem_cons_of_mem _ (List.mem_cons_of_mem _ (List.mem_cons_of_mem _
        (List.mem_cons_self _ _))))
      _ rfl).1⟩

/-- C10 fails as stated: on the tree `/r` traversed with `follow_directory_symlink`,
the entry yielded for the symlink `/r/l` to a directory has two node-kind flags set,
`is_directory` and `is_symlink`. -/
theorem followed_symlink_flags_counterexample :
    ∃ s0 s3, recursive_directory_iterator.construct Example.fs2 Example.os0 ["r"]
        directory_options.follow_directory_symlink = Except.ok s0 ∧
      advance_n Example.fs2 3 s0 = some s3 ∧ s3.it.is_end = false ∧
      s3.it.deref.path = ["r", "l"] ∧
      s3.it.deref.is_directory = true ∧ s3.it.deref.is_symlink = true ∧
      s3.it.deref.kind_flag_count = 2 :=
  ⟨_, _, rfl, rfl, rfl, rfl, rfl, rfl, rfl⟩

/-! ## Traversal of a finite directory tree -/

/-- The entry chosen for a `leaf` of a realized tree. -/
theorem DirTree.chosen_leaf (fs : FileSystem) (options : directory_options) (p : Path)
    (n : String) (st : struct_stat) (rest : DirTree)
    (h : (DirTree.leaf n st rest).realized fs options p) :
    Advance.chosen_entry fs options (p ++ [n]) =
      some (directory.construct (p ++ [n]) st (S_ISLNK st.st_mode)) := by
  obtain ⟨_, _, hl, _, hf, _⟩ := h
  unfold Advance.chosen_entry
  rw [hl]
  simp only
  split
  · rename_i hcond
    simp only [Bool.and_eq_true] at hcond
    obtain ⟨tst, hs, hd⟩ := hf hcond.2 hcond.1
    rw [hs]
    simp [hd]
  · rfl

/-- The entry chosen for a `dir` of a realized tree. -/
theorem DirTree.chosen_dir (fs : FileSystem) (options : directory_options) (p : Path)
    (n : String) (st : struct_stat) (children rest : DirTree)
    (h : (DirTree.dir n st children rest).realized fs options p) :
    Advance.chosen_entry fs options (p ++ [n]) =
      some (directory.construct (p ++ [n]) st (S_ISLNK st.st_mode)) := by
  obtain ⟨_, _, hl, hd, _⟩ := h
  have hlnk : S_ISLNK st.st_mode = false := by
    cases h : S_ISLNK st.st_mode
    · rfl
    · rw [S_ISLNK_not_S_ISDIR _ h] at hd; cases hd
  simp [Advance.chosen_entry, hl, hlnk]

/-- What one pass of the loop does on the top frame of a realized tree. -/
theorem DirTree.body (fs : FileSystem) (m : Machine) (d : DIR) (p : Path)
    (rest : List (DIR × Path)) (t : DirTree) (hp : d.pending = t.items)
    (hr : t.realized fs m.impl.options p) :
    Advance.body fs m d p rest =
      match t with
      | DirTree.nil => Step.continue_ (m.dropped d rest)
      | DirTree.skip _ r => Step.continue_ (m.consumed d p rest r.items)
      | DirTree.leaf n st r =>
        Step.return_ ((m.consumed d p rest r.items).with_entry
          (directory.construct (p ++ [n]) st (S_ISLNK st.st_mode)))
      | DirTree.dir n st ch r =>
        Step.return_ (((m.consumed d p rest r.items).pushed ch.items (p ++ [n])).with_entry
          (directory.construct (p ++ [n]) st (S_ISLNK st.st_mode))) := by
  cases t with
  | nil => exact Advance.body_exhausted fs m d p rest hp
  | skip n r => exact Advance.body_dot fs m d p rest n r.items hp hr.1
  | leaf n st r =>
    have hb := Advance.body_entry fs m d p rest n r.items hp hr.1 hr.2.1
    rw [DirTree.chosen_leaf fs _ p n st r hr] at hb
    simp only at hb ⊢
    have hnd : (directory.construct (p ++ [n]) st (S_ISLNK st.st_mode)).is_directory = false :=
      hr.2.2.2.1
    rcases hb with ⟨_, hb⟩ | ⟨hd, _⟩ | ⟨hd, _⟩
    · exact hb
    · rw [hnd] at hd; cases hd
    · rw [hnd] at hd; cases hd
  | dir n st ch r =>
    have hb := Advance.body_entry fs m d p rest n r.items hp hr.1 hr.2.1
    rw [DirTree.chosen_dir fs _ p n st ch r hr] at hb
    simp only at hb ⊢
    have hisd : (directory.construct (p ++ [n]) st (S_ISLNK st.st_mode)).is_directory = true :=
      hr.2.2.2.1
    have hopen := hr.2.2.2.2.1
    rcases hb with ⟨hd, _⟩ | ⟨_, items, ho, hb⟩ | ⟨_, ho, _⟩
    · rcases hd with hd | ⟨ho, _⟩
      · rw [hisd] at hd; cases hd
      · rw [hopen] at ho; cases ho
    · rw [hopen] at ho
      simp only [Option.some.injEq] at ho
      subst ho
      exact hb
    · rw [hopen] at ho; cases ho

/-- On a frontier that matches trees, `Advance` returns normally with the first pending
entry as the current entry and the rest pending, or terminal when nothing is pending. -/
theorem DirTree.advance (fs : FileSystem) (m : Machine) (a : List (Path × DirTree))
    (hm : Matches fs m.impl.options m.impl.dir_stack a) :
    ∃ m1, Advance fs m = Outcome.ok m1 ∧ m1.impl.options = m.impl.options ∧
      ((pending_entries a = [] ∧ m1.impl.at_end = true ∧ m1.impl.dir_stack = []) ∨
        (∃ a1, pending_entries a = m1.impl.current_entry :: pending_entries a1 ∧
          m1.impl.at_end = m.impl.at_end ∧ m1.impl.dir_stack ≠ [] ∧
          Matches fs m.impl.options m1.impl.dir_stack a1)) := by
  apply Advance.rule fs
    (fun m0 => m0.impl.options = m.impl.options ∧ m0.impl.at_end = m.impl.at_end ∧
      ∃ a0, Matches fs m.impl.options m0.impl.dir_stack a0 ∧
        pending_entries a0 = pending_entries a)
    (fun r => ∃ m1, r = Outcome.ok m1 ∧ m1.impl.options = m.impl.options ∧
      ((pending_entries a = [] ∧ m1.impl.at_end = true ∧ m1.impl.dir_stack = []) ∨
        (∃ a1, pending_entries a = m1.impl.current_entry :: pending_entries a1 ∧
          m1.impl.at_end = m.impl.at_end ∧ m1.impl.dir_stack ≠ [] ∧
          Matches fs m.impl.options m1.impl.dir_stack a1)))
  · intro m0 ⟨ho, _, a0, hmat, hpe⟩ hs
    refine ⟨_, rfl, ho, Or.inl ⟨?_, rfl, hs⟩⟩
    rw [hs] at hmat
    cases a0 with
    | nil => rw [← hpe]; rfl
    | cons x a0 => exact absurd hmat (by simp [Matches])
  · intro m0 d p rest m1 ⟨ho, ha, a0, hmat, hpe⟩ hs hb
    rw [hs] at hmat
    cases a0 with
    | nil => exact absurd hmat (by simp [Matches])
    | cons x a0 =>
      obtain ⟨q, t⟩ := x
      obtain ⟨hq, hpend, hreal, hrest⟩ := hmat
      subst hq
      rw [DirTree.body fs m0 d p rest t hpend (by rw [ho]; exact hreal)] at hb
      cases t with
      | nil =>
        simp only [Step.continue_.injEq] at hb
        subst hb
        exact ⟨ho, ha, a0, hrest, by rw [← hpe]; simp [pending_entries, DirTree.entries]⟩
      | skip n r =>
        simp only [Step.continue_.injEq] at hb
        subst hb
        exact ⟨ho, ha, (p, r) :: a0, ⟨rfl, rfl, hreal.2, hrest⟩,
          by rw [← hpe]; simp [pending_entries, DirTree.entries]⟩
      | leaf n st r => simp at hb
      | dir n st ch r => simp at hb
  · intro m0 d p rest m1 ⟨ho, ha, a0, hmat, hpe⟩ hs hb
    rw [hs] at hmat
    cases a0 with
    | nil => exact absurd hmat (by simp [Matches])
    | cons x a0 =>
      obtain ⟨q, t⟩ := x
      obtain ⟨hq, hpend, hreal, hrest⟩ := hmat
      subst hq
      rw [DirTree.body fs m0 d p rest t hpend (by rw [ho]; exact hreal)] at hb
      cases t with
      | nil => simp at hb
      | skip n r => simp at hb
      | leaf n st r =>
        simp only [Step.return_.injEq] at hb
        subst hb
        refine ⟨_, rfl, ho, Or.inr ⟨(p, r) :: a0, ?_, ha, by simp,
          ⟨rfl, rfl, hreal.2.2.2.2.2, hrest⟩⟩⟩
        rw [← hpe]
        simp [pending_entries, DirTree.entries]
      | dir n st ch r =>
        simp only [Step.return_.injEq] at hb
        subst hb
        refine ⟨_, rfl, ho, Or.inr ⟨(p ++ [n], ch) :: (p, r) :: a0, ?_, ha, by simp,
          ⟨rfl, rfl, hreal.2.2.2.2.2.1, rfl, rfl, hreal.2.2.2.2.2.2, hrest⟩⟩⟩
        rw [← hpe]
        simp [pending_entries, DirTree.entries]
  · intro m0 d p rest e m1 ⟨ho, ha, a0, hmat, hpe⟩ hs hb
    rw [hs] at hmat
    cases a0 with
    | nil => exact absurd hmat (by simp [Matches])
    | cons x a0 =>
      obtain ⟨q, t⟩ := x
      obtain ⟨hq, hpend, hreal, hrest⟩ := hmat
      subst hq
      rw [DirTree.body fs m0 d p rest t hpend (by rw [ho]; exact hreal)] at hb
      cases t <;> simp at hb
  · exact ⟨rfl, rfl, a, hm, rfl⟩

theorem Session.OnTree.not_end {fs : FileSystem} {options : directory_options} {s : Session}
    {es : List directory} (h : Session.OnTree fs options s es) : s.it.is_end = false := by
  obtain ⟨impl, a, hi, he, _⟩ := h
  simp [recursive_directory_iterator.is_end, hi, he]

/-- On a tree `operator++` moves to the first pending entry, or to the terminal state
when nothing is pending. -/
theorem Session.OnTree.inc {fs : FileSystem} {options : directory_options} {s : Session}
    {es : List directory} (h : Session.OnTree fs options s es) :
    ∃ s1, recursive_directory_iterator.operator_inc fs s = Outcome.ok s1 ∧
      ((es = [] ∧ s1.it._impl = Option.none) ∨
        (∃ es1, es = s1.it.deref :: es1 ∧ Session.OnTree fs options s1 es1)) := by
  obtain ⟨impl, a, hi, he, ho, hmat, hpe⟩ := h
  obtain ⟨os, ⟨_impl⟩⟩ := s
  simp only at hi
  subst hi
  obtain ⟨m1, hadv, ho1, hcase⟩ := DirTree.advance fs { os := os, impl := impl } a
    (by rw [ho]; exact hmat)
  simp only [recursive_directory_iterator.operator_inc, he, hadv]
  rcases hcase with ⟨hnil, he1, _⟩ | ⟨a1, hcons, he1, _, hmat1⟩
  · refine ⟨_, by simp [he1]; rfl, Or.inl ⟨by rw [← hpe]; exact hnil, rfl⟩⟩
  · have he2 : m1.impl.at_end = false := by rw [he1]; exact he
    refine ⟨{ os := m1.os, it := { _impl := some m1.impl } }, by simp [he2], Or.inr ?_⟩
    refine ⟨pending_entries a1, by rw [← hpe]; exact hcons, m1.impl, a1, rfl, he2,
      ho1.trans ho, ?_, rfl⟩
    have : ({ os := os, impl := impl } : Machine).impl.options = options := ho
    rw [this] at hmat1
    exact hmat1

/-- A session without traversal state stays terminal. -/
theorem visit_null (fs : FileSystem) (s : Session) (h : s.it.is_end = true) (fuel : Nat) :
    visit fs fuel s = [] := by
  cases fuel <;> simp [visit, h]

/-- From a position on a tree the range-for loop visits the current entry and then the
pending entries, and stops. -/
theorem Session.OnTree.visit {fs : FileSystem} {options : directory_options} :
    ∀ (es : List directory) (s : Session), Session.OnTree fs options s es →
      ∀ fuel, es.length < fuel → stdlike.visit fs fuel s = s.it.deref :: es := by
  intro es
  induction es with
  | nil =>
    intro s h fuel hf
    obtain ⟨fuel, rfl⟩ : ∃ k, fuel = k + 1 := ⟨fuel - 1, by omega⟩
    obtain ⟨s1, hinc, hcase⟩ := h.inc
    rcases hcase with ⟨_, hnull⟩ | ⟨es1, hes, _⟩
    · simp only [stdlike.visit, h.not_end, Bool.false_eq_true, ↓reduceIte, hinc]
      rw [visit_null fs s1 (by simp [recursive_directory_iterator.is_end, hnull])]
    · cases hes
  | cons e es ih =>
    intro s h fuel hf
    obtain ⟨fuel, rfl⟩ : ∃ k, fuel = k + 1 := ⟨fuel - 1, by omega⟩
    obtain ⟨s1, hinc, hcase⟩ := h.inc
    rcases hcase with ⟨hnil, _⟩ | ⟨es1, hes, hon⟩
    · cases hnil
    · simp only [List.cons.injEq] at hes
      obtain ⟨he, hes⟩ := hes
      subst hes
      simp only [stdlike.visit, h.not_end, Bool.false_eq_true, ↓reduceIte, hinc]
      rw [ih s1 hon fuel (by simp at hf; omega), he]

/-- From a position on a tree with `es` pending, `operator++` can be applied
`es.length + 1` times without error; the iterator is non-terminal before the last of
these applications and terminal, with its state released, after it. -/
theorem Session.OnTree.advance_n {fs : FileSystem} {options : directory_options} :
    ∀ (es : List directory) (s : Session), Session.OnTree fs options s es →
      (∀ k, k ≤ es.length → ∃ sk, stdlike.advance_n fs k s = some sk ∧ sk.it.is_end = false) ∧
      (∃ sN, stdlike.advance_n fs (es.length + 1) s = some sN ∧ sN.it._impl = Option.none) := by
  intro es
  induction es with
  | nil =>
    intro s h
    obtain ⟨s1, hinc, hcase⟩ := h.inc
    constructor
    · intro k hk
      simp only [List.length_nil, Nat.le_zero_eq] at hk
      subst hk
      exact ⟨s, rfl, h.not_end⟩
    · rcases hcase with ⟨_, hnull⟩ | ⟨es1, hes, _⟩
      · exact ⟨s1, by simp [stdlike.advance_n, hinc], hnull⟩
      · cases hes
  | cons e es ih =>
    intro s h
    obtain ⟨s1, hinc, hcase⟩ := h.inc
    rcases hcase with ⟨hnil, _⟩ | ⟨es1, hes, hon⟩
    · cases hnil
    · simp only [List.cons.injEq] at hes
      obtain ⟨_, hes⟩ := hes
      subst hes
      obtain ⟨ih1, ih2⟩ := ih s1 hon
      constructor
      · intro k hk
        cases k with
        | zero => exact ⟨s, rfl, h.not_end⟩
        | succ k =>
          simp only [stdlike.advance_n, hinc]
          exact ih1 k (by simp at hk; omega)
      · simp only [stdlike.advance_n, hinc]
        exact ih2

/-- Construction on the root of a realized tree: terminal when the tree is empty, else
positioned at the first entry with the others pending. -/
theorem DirTree.construct (fs : FileSystem) (os : HandleTable) (root : Path)
    (options : directory_options) (st : struct_stat) (t : DirTree)
    (hl : fs.lstat root = some st) (hd : S_ISDIR st.st_mode = true)
    (ho : fs.opendir root = some t.items) (hr : t.realized fs options root) :
    ∃ s0, recursive_directory_iterator.construct fs os root options = Except.ok s0 ∧
      ((t.entries root = [] ∧ s0.it.is_end = true) ∨
        (∃ es, t.entries root = s0.it.deref :: es ∧ Session.OnTree fs options s0 es)) := by
  obtain ⟨m1, hadv, ho1, hcase⟩ := DirTree.advance fs
    { os := { os with opened := os.opened + 1 }
      impl := { dir_stack := [({ id := os.opened, pending := t.items }, root)]
                current_entry := directory.empty, options := options
                current_depth := 0, at_end := false } }
    [(root, t)] ⟨rfl, rfl, hr, True.intro⟩
  have hpe : pending_entries [(root, t)] = t.entries root := by simp [pending_entries]
  rw [hpe] at hcase
  refine ⟨{ os := m1.os, it := { _impl := some m1.impl } }, ?_, ?_⟩
  · simp [recursive_directory_iterator.construct, iterator_impl.construct, hl, hd, opendir, ho,
      hadv]
  · rcases hcase with ⟨hnil, he1, _⟩ | ⟨a1, hcons, he1, _, hmat1⟩
    · exact Or.inl ⟨hnil, by simp [recursive_directory_iterator.is_end, he1]⟩
    · exact Or.inr ⟨pending_entries a1, hcons, m1.impl, a1, rfl, he1, ho1, hmat1, rfl⟩

namespace DirTree

theorem entries_length (p : Path) (t : DirTree) : (t.entries p).length = t.count := by
  induction t generalizing p with
  | nil => rfl
  | skip n rest ih => exact ih p
  | leaf n st rest ih => simp [entries, count, ih p]; omega
  | dir n st ch rest ihc ihr => simp [entries, count, ihc (p ++ [n]), ihr p]; omega

theorem entries_paths (p : Path) (t : DirTree) :
    (t.entries p).map directory.path = t.rel_paths.map (fun q => p ++ q) := by
  induction t generalizing p with
  | nil => rfl
  | skip n rest ih => exact ih p
  | leaf n st rest ih =>
    simp only [entries, rel_paths, List.map_cons, ih p]
    rfl
  | dir n st ch rest ihc ihr =>
    simp only [entries, rel_paths, List.map_cons, List.map_append, ihc (p ++ [n]), ihr p,
      List.map_map]
    congr 1
    congr 1
    apply List.map_congr_left
    intro q _
    simp

/-- Every relative node path starts with a name of the listing. -/
theorem rel_paths_head (t : DirTree) :
    ∀ q ∈ t.rel_paths, ∃ n q1, q = n :: q1 ∧ n ∈ item_names t.items := by
  induction t with
  | nil => intro q hq; simp [rel_paths] at hq
  | skip n rest ih =>
    intro q hq
    obtain ⟨n1, q1, h1, h2⟩ := ih q hq
    exact ⟨n1, q1, h1, by simp [items, item_names, h2]⟩
  | leaf n st rest ih =>
    intro q hq
    simp only [rel_paths, List.mem_cons] at hq
    rcases hq with rfl | hq
    · exact ⟨n, [], rfl, by simp [items, item_names]⟩
    · obtain ⟨n1, q1, h1, h2⟩ := ih q hq
      exact ⟨n1, q1, h1, by simp [items, item_names, h2]⟩
  | dir n st ch rest _ ihr =>
    intro q hq
    simp only [rel_paths, List.mem_cons, List.mem_append, List.mem_map] at hq
    rcases hq with rfl | ⟨q1, _, rfl⟩ | hq
    · exact ⟨n, [], rfl, by simp [items, item_names]⟩
    · exact ⟨n, q1, rfl, by simp [items, item_names]⟩
    · obtain ⟨n1, q1, h1, h2⟩ := ihr q hq
      exact ⟨n1, q1, h1, by simp [items, item_names, h2]⟩

theorem rel_paths_ne_nil (t : DirTree) : [] ∉ t.rel_paths := by
  intro h
  obtain ⟨n, q1, h1, _⟩ := rel_paths_head t [] h
  cases h1

/-- In a tree whose directories list no name twice, no node path occurs twice. -/
theorem rel_paths_nodup (t : DirTree) (h : t.names_distinct) : t.rel_paths.Nodup := by
  induction t with
  | nil => simp [rel_paths]
  | skip n rest ih => exact ih h.2
  | leaf n st rest ih =>
    simp only [rel_paths, List.nodup_cons]
    refine ⟨?_, ih h.2⟩
    intro hmem
    obtain ⟨n1, q1, h1, h2⟩ := rel_paths_head rest [n] hmem
    simp only [List.cons.injEq] at h1
    rw [← h1.1] at h2
    exact h.1 h2
  | dir n st ch rest ihc ihr =>
    simp only [rel_paths, List.nodup_cons, List.mem_append, List.mem_map, not_or]
    refine ⟨⟨?_, ?_⟩, ?_⟩
    · rintro ⟨q1, hq1, heq⟩
      simp only [List.cons.injEq, true_and] at heq
      subst heq
      exact rel_paths_ne_nil ch hq1
    · intro hmem
      obtain ⟨n1, q1, h1, h2⟩ := rel_paths_head rest [n] hmem
      simp only [List.cons.injEq] at h1
      rw [← h1.1] at h2
      exact h.1 h2
    · rw [List.nodup_append]
      refine ⟨?_, ihr h.2.2, ?_⟩
      · exact (ihc h.2.1).map (fun _ _ h => (List.cons.inj h).2)
      · intro q hq1 hq2
        simp only [List.mem_map] at hq1
        obtain ⟨q1, _, rfl⟩ := hq1
        obtain ⟨n1, q2, h1, h2⟩ := rel_paths_head rest _ hq2
        simp only [List.cons.injEq] at h1
        rw [← h1.1] at h2
        exact h.1 h2

/-- In a tree whose directories list no name twice, the node paths are exactly the
sequences of names that lead to a node. -/
theorem mem_rel_paths_iff (t : DirTree) (h : t.names_distinct) (q : List String) :
    q ∈ t.rel_paths ↔ (t.node_at q).isSome = true := by
  induction t generalizing q with
  | nil => simp [rel_paths, node_at]
  | skip n rest ih => exact ih h.2 q
  | leaf n st rest ih =>
    simp only [rel_paths, List.mem_cons, node_at]
    by_cases hq : q = [n]
    · simp [hq]
    · simp only [hq, false_or, ↓reduceIte]
      exact ih h.2 q
  | dir n st ch rest ihc ihr =>
    simp only [rel_paths, List.mem_cons, List.mem_append, List.mem_map]
    cases q with
    | nil =>
      simp only [node_at, Option.isSome_none, Bool.false_eq_true, iff_false, not_or]
      refine ⟨by simp, ?_, rel_paths_ne_nil rest⟩
      rintro ⟨q1, _, hq1⟩
      cases hq1
    | cons m q1 =>
      simp only [node_at, List.cons.injEq]
      by_cases hm : m = n
      · subst hm
        simp only [true_and, ↓reduceIte]
        have hrest : m :: q1 ∉ rest.rel_paths := by
          intro hmem
          obtain ⟨n1, q2, h1, h2⟩ := rel_paths_head rest _ hmem
          simp only [List.cons.injEq] at h1
          rw [← h1.1] at h2
          exact h.1 h2
        by_cases hq1 : q1 = []
        · simp [hq1]
        · simp only [hq1, false_or, hrest, or_false, ↓reduceIte]
          rw [← ihc h.2.1 q1]
          constructor
          · rintro ⟨q2, hq2, rfl⟩; exact hq2
          · intro hq2; exact ⟨q1, hq2, rfl⟩
      · simp only [hm, false_and, false_or, ↓reduceIte]
        rw [← ihr h.2.2 (m :: q1)]
        constructor
        · rintro (⟨q2, _, hq2⟩ | hq2)
          · exact absurd hq2.1.symm hm
          · exact hq2
        · intro hq2; exact Or.inr hq2

end DirTree

/-- C1: for every finite directory tree under a root directory, answered by the file
system without any failure and with no directory listing a name twice, traversed
either without `follow_directory_symlink` or with no symlink of the tree resolving to a
directory: construction succeeds; the range-for loop visits exactly the entries of the
`N` nodes of the tree (every directory before its contents), `N` entries with pairwise
distinct paths; a path is yielded exactly when it is the root path joined with the
names leading to a node, and then exactly once; the iterator is
non-terminal after fewer than `N` applications of `operator++` and terminal, equal to
`end()`, after the `N`-th; for `N = 0` the constructed iterator is already terminal. -/
theorem traversal_yields_every_node (fs : FileSystem) (os : HandleTable) (root : Path)
    (options : directory_options) (st : struct_stat) (t : DirTree)
    (hl : fs.lstat root = some st) (hd : S_ISDIR st.st_mode = true)
    (ho : fs.opendir root = some t.items) (hr : t.realized fs options root)
    (hn : t.names_distinct) :
    ∃ s0, recursive_directory_iterator.construct fs os root options = Except.ok s0 ∧
      (∀ fuel, t.count < fuel → visit fs fuel s0 = t.entries root) ∧
      (t.entries root).length = t.count ∧
      (t.entries root).map directory.path = t.rel_paths.map (fun q => root ++ q) ∧
      ((t.entries root).map directory.path).Nodup ∧
      (∀ q, (t.node_at q).isSome = true ↔ root ++ q ∈ (t.entries root).map directory.path) ∧
      (∀ q, (t.node_at q).isSome = true →
        ((t.entries root).map directory.path).countP (fun x => decide (x = root ++ q)) = 1) ∧
      (∀ k, k < t.count → ∃ sk, advance_n fs k s0 = some sk ∧ sk.it.is_end = false) ∧
      (∃ sN, advance_n fs t.count s0 = some sN ∧ sN.it.is_end = true ∧
        recursive_directory_iterator.operator_eq sN.it sN.it.end_ = true) ∧
      (t.count = 0 → s0.it.is_end = true) := by
  obtain ⟨s0, hc, hcase⟩ := DirTree.construct fs os root options st t hl hd ho hr
  have hlen := DirTree.entries_length root t
  have hpaths := DirTree.entries_paths root t
  have hnodup : ((t.entries root).map directory.path).Nodup := by
    rw [hpaths]
    exact (DirTree.rel_paths_nodup t hn).map (fun _ _ h => List.append_cancel_left h)
  have hmem : ∀ q, (t.node_at q).isSome = true ↔
      root ++ q ∈ (t.entries root).map directory.path := by
    intro q
    rw [hpaths, ← DirTree.mem_rel_paths_iff t hn q, List.mem_map]
    constructor
    · intro hq; exact ⟨q, hq, rfl⟩
    · rintro ⟨q1, hq1, heq⟩
      rw [← List.append_cancel_left heq]
      exact hq1
  refine ⟨s0, hc, ?_, hlen, hpaths, hnodup, hmem,
    fun q hq => List.count_eq_one_of_mem hnodup ((hmem q).mp hq), ?_⟩
  · intro fuel hf
    rcases hcase with ⟨hnil, hend⟩ | ⟨es, hes, hon⟩
    · rw [hnil, visit_null fs s0 hend]
    · rw [hes]
      apply hon.visit
      rw [hes] at hlen
      simp at hlen
      omega
  · rcases hcase with ⟨hnil, hend⟩ | ⟨es, hes, hon⟩
    · rw [hnil] at hlen
      simp only [List.length_nil] at hlen
      rw [← hlen]
      refine ⟨fun k hk => absurd hk (by omega), ⟨s0, rfl, hend, ?_⟩, fun _ => hend⟩
      exact operator_eq_terminal _ _ hend rfl
    · rw [hes] at hlen
      simp only [List.length_cons] at hlen
      obtain ⟨h1, sN, h2, h3⟩ := hon.advance_n es s0
      rw [← hlen]
      have hendN : sN.it.is_end = true := by simp [recursive_directory_iterator.is_end, h3]
      exact ⟨fun k hk => h1 k (by omega), ⟨sN, h2, hendN, operator_eq_terminal _ _ hendN rfl⟩,
        fun h0 => absurd h0 (by omega)⟩

theorem Example.tree_realized :
    Example.tree.realized Example.fs directory_options.none ["a"] :=
  ⟨Or.inl rfl, Or.inr rfl,
    by decide, by decide, rfl, rfl, fun h => absurd h (by decide),
    by decide, by decide, rfl, rfl, rfl,
    ⟨Or.inl rfl, Or.inr rfl, by decide, by decide, rfl, rfl, fun h => absurd h (by decide),
      True.intro⟩,
    True.intro⟩

theorem Example.tree_names_distinct : Example.tree.names_distinct := by
  simp [Example.tree, DirTree.names_distinct, DirTree.items, item_names]

/-- The statement of `traversal_yields_every_node` on the example of the specification:
root `/a` with the three nodes `/a/f`, `/a/d`, `/a/d/g`. -/
theorem traversal_yields_every_node_witness :
    Example.tree.count = 3 ∧
    (Example.tree.entries ["a"]).map directory.path = [["a", "f"], ["a", "d"], ["a", "d", "g"]] ∧
    ∃ s0, recursive_directory_iterator.construct Example.fs Example.os0 ["a"]
        directory_options.none = Except.ok s0 ∧
      (∀ fuel, Example.tree.count < fuel → visit Example.fs fuel s0 = Example.tree.entries ["a"]) ∧
      (Example.tree.entries ["a"]).length = Example.tree.count ∧
      (Example.tree.entries ["a"]).map directory.path =
        Example.tree.rel_paths.map (fun q => ["a"] ++ q) ∧
      ((Example.tree.entries ["a"]).map directory.path).Nodup ∧
      (∀ q, (Example.tree.node_at q).isSome = true ↔
        ["a"] ++ q ∈ (Example.tree.entries ["a"]).map directory.path) ∧
      (∀ q, (Example.tree.node_at q).isSome = true →
        ((Example.tree.entries ["a"]).map directory.path).countP
          (fun x => decide (x = ["a"] ++ q)) = 1) ∧
      (∀ k, k < Example.tree.count →
        ∃ sk, advance_n Example.fs k s0 = some sk ∧ sk.it.is_end = false) ∧
      (∃ sN, advance_n Example.fs Example.tree.count s0 = some sN ∧ sN.it.is_end = true ∧
        recursive_directory_iterator.operator_eq sN.it sN.it.end_ = true) ∧
      (Example.tree.count = 0 → s0.it.is_end = true) :=
  ⟨rfl, rfl,
    traversal_yields_every_node Example.fs Example.os0 ["a"] directory_options.none
      Example.dir_stat Example.tree rfl rfl rfl Example.tree_realized
      Example.tree_names_distinct⟩

/-! ## Size, link count and modification time of an entry -/

theorem to_int_of_range (x : Int) (h1 : -(2 ^ 31) ≤ x) (h2 : x < 2 ^ 31) : to_int x = x := by
  unfold to_int
  have h3 : (x + 2 ^ 31) % 2 ^ 32 = x + 2 ^ 31 :=
    Int.emod_eq_of_lt (by omega) (by omega)
  rw [h3]
  ring

theorem to_int_two_gib : to_int (2 ^ 31) = -2147483648 := by
  unfold to_int
  norm_num

theorem to_int_zero : to_int 0 = 0 := by
  unfold to_int
  norm_num

theorem directory.file_size_eq (d : directory) : d.file_size = d._file_size := rfl

theorem directory.file_size_construct (p : Path) (st : struct_stat) (b : Bool) :
    (directory.construct p st b).file_size =
      to_int (if S_ISREG st.st_mode = true then st.st_size else 0) :=
  (directory.file_size_eq _).trans
    (rfl : (directory.construct p st b)._file_size =
      to_int (if S_ISREG st.st_mode = true then st.st_size else 0))

theorem directory.hard_link_count_eq (d : directory) :
    d.hard_link_count = d._hard_link_count := rfl

theorem directory.hard_link_count_construct (p : Path) (st : struct_stat) (b : Bool) :
    (directory.construct p st b).hard_link_count = to_int st.st_nlink :=
  (directory.hard_link_count_eq _).trans
    (rfl : (directory.construct p st b)._hard_link_count = to_int st.st_nlink)

/-- C11, evaluated: for a regular file of 2^31 bytes `file_size()` is -2^31, not the
size of the record, because the size is stored in an `int`; sizes that fit an `int`
are reported as they are, every other node kind reports 0, `last_write_time()` is the
record's modification time and `hard_link_count()` the link count narrowed the same
way. -/
theorem file_size_narrowed :
    S_ISREG Example.big_stat.st_mode = true ∧
    (directory.construct ["big"] Example.big_stat false).file_size = -2147483648 ∧
    (directory.construct ["big"] Example.big_stat false).file_size ≠
      Example.big_stat.st_size ∧
    (∀ (p : Path) (st : struct_stat) (b : Bool), S_ISREG st.st_mode = true →
      (directory.construct p st b).file_size = to_int st.st_size) ∧
    (∀ (p : Path) (st : struct_stat) (b : Bool), S_ISREG st.st_mode = true →
      -(2 ^ 31) ≤ st.st_size → st.st_size < 2 ^ 31 →
      (directory.construct p st b).file_size = st.st_size) ∧
    (∀ (p : Path) (st : struct_stat) (b : Bool), S_ISREG st.st_mode = false →
      (directory.construct p st b).file_size = 0) ∧
    (∀ (p : Path) (st : struct_stat) (b : Bool),
      (directory.construct p st b).hard_link_count = to_int st.st_nlink ∧
      (directory.construct p st b).last_write_time = st.st_mtime) := by
  have hreg : S_ISREG Example.big_stat.st_mode = true := by decide
  have hsize : (directory.construct ["big"] Example.big_stat false).file_size =
      -2147483648 := by
    rw [directory.file_size_construct, if_pos hreg]
    exact to_int_two_gib
  refine ⟨hreg, hsize, ?_, ?_, ?_, ?_, ?_⟩
  · rw [hsize]
    simp only [Example.big_stat]
    norm_num
  · intro p st b h
    rw [directory.file_size_construct, if_pos h]
  · intro p st b h h1 h2
    rw [directory.file_size_construct, if_pos h, to_int_of_range _ h1 h2]
  · intro p st b h
    rw [directory.file_size_construct, if_neg (by simp [h]), to_int_zero]
  · intro p st b
    exact ⟨directory.hard_link_count_construct p st b, rfl⟩

/-! ## The sentinel depth and the terminal state -/

/-- Every position of a run that starts from a construction or from a default iterator
keeps `Session.Holds` for the trivial frontier property. -/
theorem positions_holds (fs : FileSystem) (os : HandleTable) (root : Path)
    (options : directory_options) (s0 : Session)
    (h0 : Session.Initial fs os root options s0) (ops : List Op)
    (o : Outcome Session) (ho : o ∈ positions fs s0 ops) :
    ∃ options1, Session.Holds options1 (fun _ => True) o.state := by
  rcases h0 with hc | hd
  · exact ⟨options, (positions_spec fs os root options (fun _ => True)
      (StackInv.trivial fs options) (fun _ _ _ => True.intro) s0 hc ops o ho).1⟩
  · refine ⟨directory_options.none, ?_⟩
    have hs0 : Session.Holds directory_options.none (fun _ => True) s0 := by
      intro impl hi
      subst hd
      simp only [recursive_directory_iterator.default, Option.some.injEq] at hi
      subst hi
      exact ⟨rfl, Or.inl ⟨rfl, rfl⟩⟩
    simp only [positions, List.mem_cons] at ho
    rcases ho with rfl | ho
    · exact hs0
    · exact (run_spec fs directory_options.none (fun _ => True)
        (StackInv.trivial fs _) ops s0 hs0 o ho).1

/-- What `Session.Holds` says about the observers of the iterator. -/
theorem Session.Holds.observers {options : directory_options} {P : List (DIR × Path) → Prop}
    {s : Session} (h : Session.Holds options P s) :
    (s.it.is_end = true ↔ s.frontier = []) ∧
    (s.it.depth = -1 ↔ s.it.is_end = true) ∧
    (s.it.is_end = false → 0 ≤ s.it.depth) ∧
    (∀ impl, s.it._impl = some impl → impl.at_end = true → impl.dir_stack = []) := by
  obtain ⟨os, ⟨_impl⟩⟩ := s
  cases _impl with
  | none =>
    simp [recursive_directory_iterator.is_end, recursive_directory_iterator.depth,
      Session.frontier]
  | some impl =>
    obtain ⟨_, hcase⟩ := h impl rfl
    rcases hcase with ⟨he, hs⟩ | ⟨he, hne, _, hd⟩
    · simp [recursive_directory_iterator.is_end, recursive_directory_iterator.depth,
        Session.frontier, he, hs]
    · have hlen : 0 < impl.dir_stack.length := List.length_pos.mpr hne
      refine ⟨?_, ?_, ?_, ?_⟩
      · simp [recursive_directory_iterator.is_end, Session.frontier, he, hne]
      · simp only [recursive_directory_iterator.depth, he, Bool.not_false, ↓reduceIte,
          recursive_directory_iterator.is_end, Bool.false_eq_true, iff_false]
        omega
      · intro _
        simp only [recursive_directory_iterator.depth, he, Bool.not_false, ↓reduceIte]
        omega
      · intro impl1 hi1 he1
        simp only [Option.some.injEq] at hi1
        subst hi1
        rw [he] at he1
        cases he1

/-- C13: at every position of every run that starts from a construction (or from a
default-constructed iterator) and goes through any `operator++` and `pop()` calls,
`depth()` is -1 exactly when the iterator is terminal, and is at least 0 when it is
not. -/
theorem depth_sentinel (fs : FileSystem) (os : HandleTable) (root : Path)
    (options : directory_options) (s0 : Session)
    (h0 : Session.Initial fs os root options s0) (ops : List Op)
    (o : Outcome Session) (ho : o ∈ positions fs s0 ops) :
    (o.state.it.depth = -1 ↔ o.state.it.is_end = true) ∧
    (o.state.it.is_end = false → 0 ≤ o.state.it.depth) := by
  obtain ⟨options1, hh⟩ := positions_holds fs os root options s0 h0 ops o ho
  exact ⟨hh.observers.2.1, hh.observers.2.2.1⟩

/-- The statement of `depth_sentinel` on the example of the specification, at the four
positions of the full traversal: depths 0, 1, 1 and, at the end, -1. -/
theorem depth_sentinel_witness :
    ∃ s0, recursive_directory_iterator.construct Example.fs Example.os0 ["a"]
        directory_options.none = Except.ok s0 ∧
      (positions Example.fs s0 [Op.inc, Op.inc, Op.inc]).map
        (fun o => (o.state.it.depth, o.state.it.is_end)) =
        [(0, false), (1, false), (1, false), (-1, true)] ∧
      ∀ o ∈ positions Example.fs s0 [Op.inc, Op.inc, Op.inc],
        (o.state.it.depth = -1 ↔ o.state.it.is_end = true) ∧
        (o.state.it.is_end = false → 0 ≤ o.state.it.depth) :=
  ⟨_, rfl, rfl, fun o ho =>
    depth_sentinel Example.fs Example.os0 ["a"] directory_options.none _ (Or.inl rfl)
      [Op.inc, Op.inc, Op.inc] o ho⟩

/-- C14: at every position of every run (from a construction or a default-constructed
iterator): after an operation that returns without error the iterator is terminal
exactly when its frontier is empty; a terminal iterator equals `end()`; and on a
terminal iterator `operator++` and `pop()` return without error and leave the session,
handle table included, exactly as it is, so that no later operation yields an entry. -/
theorem terminal_absorbing (fs : FileSystem) (os : HandleTable) (root : Path)
    (options : directory_options) (s0 : Session)
    (h0 : Session.Initial fs os root options s0) (ops : List Op)
    (o : Outcome Session) (ho : o ∈ positions fs s0 ops) :
    (∀ s1, o = Outcome.ok s1 → (s1.it.is_end = true ↔ s1.frontier = [])) ∧
    (o.state.it.is_end = true →
      recursive_directory_iterator.operator_eq o.state.it o.state.it.end_ = true ∧
      (∀ op : Op, op.apply fs o.state = Outcome.ok o.state ∧
        (op.apply fs o.state).state.os = o.state.os ∧
        (op.apply fs o.state).state.it.is_end = true) ∧
      (∀ ops2, (∀ o2 ∈ run fs o.state ops2, o2 = Outcome.ok o.state) ∧
        run_yields fs o.state ops2 = [])) := by
  obtain ⟨options1, hh⟩ := positions_holds fs os root options s0 h0 ops o ho
  constructor
  · intro s1 hs1
    subst hs1
    exact hh.observers.1
  · intro hend
    have hterm : ∀ impl, o.state.it._impl = some impl →
        impl.at_end = true ∧ impl.dir_stack = [] := by
      intro impl hi
      have he : impl.at_end = true := by
        simpa [recursive_directory_iterator.is_end, hi] using hend
      exact ⟨he, hh.observers.2.2.2 impl hi he⟩
    refine ⟨operator_eq_terminal _ _ hend rfl, ?_, run_terminal fs o.state hterm⟩
    intro op
    have hop := Op.apply_terminal fs o.state hterm op
    rw [hop]
    exact ⟨rfl, rfl, hend⟩

/-- The statement of `terminal_absorbing` on the example of the specification, at the
end of the full traversal. -/
theorem terminal_absorbing_witness :
    ∃ s0 s3, recursive_directory_iterator.construct Example.fs Example.os0 ["a"]
        directory_options.none = Except.ok s0 ∧
      advance_n Example.fs 3 s0 = some s3 ∧ s3.it.is_end = true ∧
      (recursive_directory_iterator.operator_eq s3.it s3.it.end_ = true ∧
        (∀ op : Op, op.apply Example.fs s3 = Outcome.ok s3 ∧
          (op.apply Example.fs s3).state.os = s3.os ∧
          (op.apply Example.fs s3).state.it.is_end = true) ∧
        (∀ ops2, (∀ o2 ∈ run Example.fs s3 ops2, o2 = Outcome.ok s3) ∧
          run_yields Example.fs s3 ops2 = [])) :=
  ⟨_, _, rfl, rfl, rfl,
    (terminal_absorbing Example.fs Example.os0 ["a"] directory_options.none _ (Or.inl rfl)
      [Op.inc, Op.inc, Op.inc] (Outcome.ok _)
      (List.mem_cons_of_mem _ (List.mem_cons_of_mem _ (List.mem_cons_of_mem _
        (List.mem_cons_self _ _))))).2 rfl⟩

/-! ## Length of the frontier -/

/-- C16 (as the code has it): in every non-terminal state reached from a construction
through any `operator++` and `pop()` calls, the number of frames on `dir_stack` is
`current_depth + 1`: the frame of the root is on the stack at depth 0. -/
theorem frontier_length (fs : FileSystem) (os : HandleTable) (root : Path)
    (options : directory_options) (s0 : Session)
    (hc : recursive_directory_iterator.construct fs os root options = Except.ok s0)
    (ops : List Op) (o : Outcome Session) (ho : o ∈ positions fs s0 ops)
    (impl : iterator_impl) (hi : o.state.it._impl = some impl) (he : impl.at_end = false) :
    (impl.dir_stack.length : Int) = impl.current_depth + 1 := by
  obtain ⟨options1, hh⟩ := positions_holds fs os root options s0 (Or.inl hc) ops o ho
  obtain ⟨_, hcase⟩ := hh impl hi
  rcases hcase with ⟨he1, _⟩ | ⟨_, _, _, hd⟩
  · rw [he] at he1; cases he1
  · exact hd.symm

/-- The statement of `frontier_length` on the example of the specification, after the
first `operator++` (two frames, depth 1). -/
theorem frontier_length_witness :
    ∃ s0 s1 impl, recursive_directory_iterator.construct Example.fs Example.os0 ["a"]
        directory_options.none = Except.ok s0 ∧
      recursive_directory_iterator.operator_inc Example.fs s0 = Outcome.ok s1 ∧
      s1.it._impl = some impl ∧ impl.dir_stack.length = 2 ∧ impl.current_depth = 1 ∧
      (impl.dir_stack.length : Int) = impl.current_depth + 1 :=
  ⟨_, _, _, rfl, rfl, rfl, rfl, rfl,
    frontier_length Example.fs Example.os0 ["a"] directory_options.none _ rfl [Op.inc]
      (Outcome.ok _) (List.mem_cons_of_mem _ (List.mem_cons_self _ _)) _ rfl rfl⟩

/-- C16 fails as stated: right after the construction on the example root `/a` the
frontier holds one frame (the root's) while `current_depth` is 0. -/
theorem frontier_length_counterexample :
    ∃ s0 impl, recursive_directory_iterator.construct Example.fs Example.os0 ["a"]
        directory_options.none = Except.ok s0 ∧
      s0.it._impl = some impl ∧ impl.at_end = false ∧
      impl.dir_stack.length = 1 ∧ impl.current_depth = 0 ∧
      (impl.dir_stack.length : Int) ≠ impl.current_depth :=
  ⟨_, _, rfl, rfl, rfl, rfl, rfl, by decide⟩

/-! ## Directory handles: opened and closed -/

theorem Accounted.drop {os : HandleTable} {d : DIR} {p : Path} {rest : List (DIR × Path)}
    (h : Accounted os ((d, p) :: rest)) : Accounted (closedir d os) rest := by
  unfold Accounted at *
  simp only [closedir, List.map_cons, List.cons_append] at *
  exact List.perm_middle.trans h

theorem Accounted.consume {os : HandleTable} {d : DIR} {p : Path} {rest : List (DIR × Path)}
    (more : List ReadItem) (h : Accounted os ((d, p) :: rest)) :
    Accounted os (({ d with pending := more }, p) :: rest) := h

theorem Accounted.push {os : HandleTable} {stack : List (DIR × Path)}
    (items : List ReadItem) (q : Path) (h : Accounted os stack) :
    Accounted { os with opened := os.opened + 1 }
      (({ id := os.opened, pending := items }, q) :: stack) := by
  unfold Accounted at *
  simp only [List.map_cons, List.cons_append, List.range_succ]
  exact (h.cons os.opened).trans (List.perm_append_singleton _ _).symm

/-- The destructor closes what the frontier holds. -/
theorem Accounted.destroy :
    ∀ (stack : List (DIR × Path)) (os : HandleTable) (impl : iterator_impl),
      impl.dir_stack = stack → Accounted os stack →
      Accounted (iterator_impl.destroy { os := os, impl := impl }) [] := by
  intro stack
  induction stack with
  | nil =>
    intro os impl hs h
    simpa [iterator_impl.destroy, hs] using h
  | cons f rest ih =>
    intro os impl hs h
    obtain ⟨d, p⟩ := f
    have h1 := ih (closedir d os) { impl with dir_stack := rest } rfl h.drop
    simpa [iterator_impl.destroy, hs] using h1

/-- A held handle is open: it was opened and is not among the closed ones. -/
theorem Accounted.top_open {os : HandleTable} {d : DIR} {p : Path}
    {rest : List (DIR × Path)} (h : Accounted os ((d, p) :: rest)) :
    d.id < os.opened ∧ d.id ∉ os.closed := by
  unfold Accounted at h
  simp only [List.map_cons, List.cons_append] at h
  have hmem : d.id ∈ List.range os.opened := h.subset (List.mem_cons_self _ _)
  have hnd : (d.id :: (rest.map (fun f => f.1.id) ++ os.closed)).Nodup :=
    h.nodup_iff.mpr (List.nodup_range _)
  refine ⟨List.mem_range.mp hmem, fun hc => ?_⟩
  exact (List.nodup_cons.mp hnd).1 (List.mem_append_right _ hc)

/-- The accounting of the handles is kept by `Advance`, whether it returns or throws. -/
theorem Accounted.kept_by_Advance (fs : FileSystem) (m : Machine)
    (h : Accounted m.os m.impl.dir_stack) :
    Accounted (Advance fs m).state.os (Advance fs m).state.impl.dir_stack := by
  refine Advance.rule fs (fun m => Accounted m.os m.impl.dir_stack)
    (fun o => Accounted o.state.os o.state.impl.dir_stack) ?_ ?_ ?_ ?_ m h
  · intro m hm _
    exact hm
  · intro m d p rest m1 hm hs hb
    have hc := Advance.body_case fs m d p rest
    rw [hb] at hc
    rw [hs] at hm
    cases hc with
    | exhausted hp => exact hm.drop
    | read_skipped more hp hk => exact hm.drop
    | dot n more hp hn => exact hm.consume more
    | query_skipped n more hp h1 h2 hc hk => exact hm.consume more
  · intro m d p rest m1 hm hs hb
    have hc := Advance.body_case fs m d p rest
    rw [hb] at hc
    rw [hs] at hm
    cases hc with
    | yield_flat n more e hp h1 h2 hc hd => exact hm.consume more
    | yield_pushed n more e items hp h1 h2 hc hd ho =>
      exact (hm.consume more).push items (p ++ [n])
  · intro m d p rest e m1 hm hs hb
    have hc := Advance.body_case fs m d p rest
    rw [hb] at hc
    rw [hs] at hm
    cases hc with
    | read_threw more hp hk => exact hm.consume more
    | query_threw n more e0 hp h1 h2 hc hk => exact hm.consume more
    | open_threw n more e1 m2 hp h1 h2 hc hd ho hk hm2 =>
      rcases hm2 with rfl | rfl
      · exact hm.consume more
      · exact hm.consume more

/-- The accounting of the handles is kept by `operator++` and `pop()`, whether they
return or throw. -/
theorem Accounted.kept_by_apply (fs : FileSystem) (s : Session) (h : Accounted s.os s.frontier)
    (op : Op) : Accounted (op.apply fs s).state.os (op.apply fs s).state.frontier := by
  obtain ⟨os, ⟨_ | impl⟩⟩ := s
  · cases op <;> exact h
  · have hstep : ∀ m : Machine, Accounted m.os m.impl.dir_stack →
        Accounted
          (match Advance fs m with
            | Outcome.threw e m1 =>
              Outcome.threw e ({ os := m1.os, it := { _impl := some m1.impl } } : Session)
            | Outcome.ok m1 =>
              if m1.impl.at_end then
                Outcome.ok { os := iterator_impl.destroy m1, it := { _impl := Option.none } }
              else Outcome.ok { os := m1.os, it := { _impl := some m1.impl } }).state.os
          (match Advance fs m with
            | Outcome.threw e m1 =>
              Outcome.threw e ({ os := m1.os, it := { _impl := some m1.impl } } : Session)
            | Outcome.ok m1 =>
              if m1.impl.at_end then
                Outcome.ok { os := iterator_impl.destroy m1, it := { _impl := Option.none } }
              else Outcome.ok { os := m1.os, it := { _impl := some m1.impl } }).state.frontier := by
      intro m hm
      have ha := Accounted.kept_by_Advance fs m hm
      cases hr : Advance fs m with
      | threw e m1 =>
        rw [hr] at ha
        exact ha
      | ok m1 =>
        rw [hr] at ha
        cases he : m1.impl.at_end with
        | false => simpa [he] using ha
        | true =>
          simp only [he, if_true]
          exact Accounted.destroy m1.impl.dir_stack m1.os m1.impl rfl ha
    cases op with
    | inc =>
      cases he : impl.at_end with
      | true =>
        simpa [Op.apply, recursive_directory_iterator.operator_inc, he] using h
      | false =>
        have := hstep { os := os, impl := impl } h
        simpa [Op.apply, recursive_directory_iterator.operator_inc, he] using this
    | pop =>
      cases hs : impl.dir_stack with
      | nil =>
        simpa [Op.apply, recursive_directory_iterator.pop, hs] using h
      | cons f rest =>
        obtain ⟨d, p⟩ := f
        have h1 : Accounted os ((d, p) :: rest) := by
          simpa [Session.frontier, hs] using h
        have := hstep { os := closedir d os
                        impl := { impl with dir_stack := rest
                                            current_depth := impl.current_depth - 1 } } h1.drop
        simpa [Op.apply, recursive_directory_iterator.pop, hs] using this

theorem Accounted.kept_by_run (fs : FileSystem) :
    ∀ (ops : List Op) (s : Session), Accounted s.os s.frontier →
      ∀ o ∈ run fs s ops, Accounted o.state.os o.state.frontier := by
  intro ops
  induction ops with
  | nil => intro s _ o ho; simp [stdlike.run] at ho
  | cons op ops ih =>
    intro s h o ho
    simp only [stdlike.run, List.mem_cons] at ho
    rcases ho with rfl | ho
    · exact Accounted.kept_by_apply fs s h op
    · exact ih _ (Accounted.kept_by_apply fs s h op) o ho

/-- What a constructor call does to the handles: a constructed iterator accounts for
every handle; a constructor that throws has either opened nothing or left a handle
open while no object exists that could close it. -/
theorem Accounted.after_construct (fs : FileSystem) (os : HandleTable) (root : Path)
    (options : directory_options) (h : Accounted os []) :
    match recursive_directory_iterator.construct fs os root options with
    | Except.ok s0 => Accounted s0.os s0.frontier
    | Except.error (_, os1) =>
      os1 = os ∨ ∃ id, id < os1.opened ∧ id ∉ os1.closed := by
  cases hl : fs.lstat root with
  | none =>
    cases hk : HasOption options directory_options.skip_permission_denied with
    | false =>
      simp [recursive_directory_iterator.construct, iterator_impl.construct, hl, hk]
    | true =>
      simpa [recursive_directory_iterator.construct, iterator_impl.construct, hl, hk,
        Session.frontier] using h
  | some st =>
    cases hd : S_ISDIR st.st_mode with
    | false =>
      simp [recursive_directory_iterator.construct, iterator_impl.construct, hl, hd]
    | true =>
      cases ho : fs.opendir root with
      | none =>
        cases hk : HasOption options directory_options.skip_permission_denied with
        | false =>
          simp [recursive_directory_iterator.construct, iterator_impl.construct, hl, hd,
            opendir, ho, hk]
        | true =>
          simpa [recursive_directory_iterator.construct, iterator_impl.construct, hl, hd,
            opendir, ho, hk, Session.frontier] using h
      | some items =>
        have h1 := Accounted.kept_by_Advance fs
          { os := { os with opened := os.opened + 1 }
            impl := { dir_stack := [({ id := os.opened, pending := items }, root)]
                      current_entry := directory.empty, options := options
                      current_depth := 0, at_end := false } } (h.push items root)
        have h2 := Advance.master fs (fun _ => True)
          { os := { os with opened := os.opened + 1 }
            impl := { dir_stack := [({ id := os.opened, pending := items }, root)]
                      current_entry := directory.empty, options := options
                      current_depth := 0, at_end := false } } (StackInv.trivial fs _) True.intro
        simp only [recursive_directory_iterator.construct, iterator_impl.construct, hl, hd,
          opendir, ho, Bool.not_true, Bool.false_eq_true, if_false]
        cases hr : Advance fs
          { os := { os with opened := os.opened + 1 }
            impl := { dir_stack := [({ id := os.opened, pending := items }, root)]
                      current_entry := directory.empty, options := options
                      current_depth := 0, at_end := false } } with
        | ok m1 =>
          rw [hr] at h1
          exact h1
        | threw e m1 =>
          rw [hr] at h1 h2
          right
          have hne := h2.2.2.2.2.1
          cases hst : m1.impl.dir_stack with
          | nil => exact absurd hst hne
          | cons f rest =>
            obtain ⟨d, p⟩ := f
            simp only [Outcome.state] at h1
            rw [hst] at h1
            exact ⟨d.id, h1.top_open⟩

/-- After the destruction of the iterator every handle was closed exactly once, if the
handles were accounted for before it. -/
theorem Accounted.destroyed (s : Session) (h : Accounted s.os s.frontier) :
    (recursive_directory_iterator.destroy s).closed.Perm
      (List.range (recursive_directory_iterator.destroy s).opened) := by
  obtain ⟨os, ⟨_ | impl⟩⟩ := s
  · simpa [Accounted, Session.frontier, recursive_directory_iterator.destroy] using h
  · have h1 := Accounted.destroy impl.dir_stack os impl rfl h
    simpa [Accounted, recursive_directory_iterator.destroy] using h1

/-- C12 does not hold of the code.  On the directory `/b`, whose listing delivers a
name that cannot be queried, the constructor (without `skip_permission_denied`) opens
the root's handle `0` and then throws from its first `Advance`: no iterator exists
afterwards, so nothing can close the handle, which stays open.  In general, starting
from a balanced handle table, a constructor that throws has either opened nothing or
left a handle open that was never closed.  For the runs whose construction succeeds
the claim holds: at every position of every run of `operator++` and `pop()` calls,
later errors included, destroying the iterator leaves every opened handle closed
exactly once. -/
theorem constructor_throw_leaks_handle :
    recursive_directory_iterator.construct Example.fs4 Example.os0 ["b"]
        directory_options.none =
      Except.error (Error.lstat_failed ["b", "x"], { opened := 1, closed := [] }) ∧
    (∀ (fs : FileSystem) (os : HandleTable) (root : Path) (options : directory_options)
      (e : Error) (os1 : HandleTable), os.closed.Perm (List.range os.opened) →
      recursive_directory_iterator.construct fs os root options = Except.error (e, os1) →
      os1 = os ∨ ∃ id, id < os1.opened ∧ id ∉ os1.closed) ∧
    (∀ (fs : FileSystem) (os : HandleTable) (root : Path) (options : directory_options)
      (s0 : Session), os.closed.Perm (List.range os.opened) →
      recursive_directory_iterator.construct fs os root options = Except.ok s0 →
      ∀ (ops : List Op), ∀ o ∈ positions fs s0 ops,
        (recursive_directory_iterator.destroy o.state).closed.Perm
          (List.range (recursive_directory_iterator.destroy o.state).opened)) := by
  refine ⟨rfl, ?_, ?_⟩
  · intro fs os root options e os1 hos hc
    have h := Accounted.after_construct fs os root options (by simpa [Accounted] using hos)
    rw [hc] at h
    exact h
  · intro fs os root options s0 hos hc ops o ho
    have h := Accounted.after_construct fs os root options (by simpa [Accounted] using hos)
    rw [hc] at h
    apply Accounted.destroyed
    simp only [positions, List.mem_cons] at ho
    rcases ho with rfl | ho
    · exact h
    · exact Accounted.kept_by_run fs ops s0 h o ho

/-! ## Directories that cannot be opened, under `skip_permission_denied` -/

/-- From a frame whose listing starts, after self and parent entries, with a proper
name for which the entry `y` is chosen, and `y` is not a directory or is a directory
that cannot be opened while `skip_permission_denied` is set: `Advance` returns with
`y` as the current entry and with the frontier as it was, the name consumed. -/
theorem Advance.yield_unopened (fs : FileSystem) (m : Machine) (d : DIR) (p : Path)
    (rest : List (DIR × Path)) (dots : List ReadItem) (n : String) (more : List ReadItem)
    (y : directory) (hs : m.impl.dir_stack = (d, p) :: rest)
    (hp : d.pending = dots ++ ReadItem.entry n :: more) (hdots : ∀ x ∈ dots, is_dot_item x)
    (h1 : n ≠ ".") (h2 : n ≠ "..")
    (hce : Advance.chosen_entry fs m.impl.options (p ++ [n]) = some y)
    (hno : y.is_directory = false ∨ (fs.opendir (p ++ [n]) = Option.none ∧
      HasOption m.impl.options directory_options.skip_permission_denied = true)) :
    Advance fs m = Outcome.ok ((m.consumed d p rest more).with_entry y) := by
  rw [Advance.skip_dots fs dots m d p rest _ hs hp hdots]
  rw [Advance.unfold_cons fs _ { d with pending := ReadItem.entry n :: more } p rest rfl]
  have hb := Advance.body_entry fs (m.consumed d p rest (ReadItem.entry n :: more))
    { d with pending := ReadItem.entry n :: more } p rest n more rfl h1 h2
  simp only at hb
  rw [hce] at hb
  rcases hb with ⟨_, hb⟩ | ⟨hd, items, ho, _⟩ | ⟨hd, ho, hk, _⟩
  · rw [hb]
  · rcases hno with h | ⟨h, _⟩
    · rw [h] at hd; cases hd
    · rw [h] at ho; cases ho
  · rcases hno with h | ⟨_, h⟩
    · rw [h] at hd; cases hd
    · rw [h] at hk; cases hk

/-- From a frame whose listing starts, after self and parent entries, with a proper
name for which a directory entry `y` is chosen and whose handle opens: `Advance`
returns with `y` as the current entry and the frame of `y` pushed. -/
theorem Advance.yield_opened (fs : FileSystem) (m : Machine) (d : DIR) (p : Path)
    (rest : List (DIR × Path)) (dots : List ReadItem) (n : String) (more : List ReadItem)
    (y : directory) (items : List ReadItem) (hs : m.impl.dir_stack = (d, p) :: rest)
    (hp : d.pending = dots ++ ReadItem.entry n :: more) (hdots : ∀ x ∈ dots, is_dot_item x)
    (h1 : n ≠ ".") (h2 : n ≠ "..")
    (hce : Advance.chosen_entry fs m.impl.options (p ++ [n]) = some y)
    (hd : y.is_directory = true) (ho : fs.opendir (p ++ [n]) = some items) :
    Advance fs m =
      Outcome.ok (((m.consumed d p rest more).pushed items (p ++ [n])).with_entry y) := by
  rw [Advance.skip_dots fs dots m d p rest _ hs hp hdots]
  rw [Advance.unfold_cons fs _ { d with pending := ReadItem.entry n :: more } p rest rfl]
  have hb := Advance.body_entry fs (m.consumed d p rest (ReadItem.entry n :: more))
    { d with pending := ReadItem.entry n :: more } p rest n more rfl h1 h2
  simp only at hb
  rw [hce] at hb
  rcases hb with ⟨hno, _⟩ | ⟨_, items1, ho1, hb⟩ | ⟨_, ho1, _⟩
  · rcases hno with h | ⟨h, _⟩
    · rw [h] at hd; cases hd
    · rw [h] at ho; cases ho
  · rw [ho] at ho1
    cases ho1
    rw [hb]
  · rw [ho1] at ho; cases ho

/-- The state at a position that yields an entry: the entry is the one chosen for its
path, which is a name read from a frame `(d, p)`; the top of the frontier is that
frame, or above it the frame of the entry when the entry is an opened directory. -/
theorem position_yield (fs : FileSystem) (os : HandleTable) (root : Path)
    (options : directory_options) (s0 : Session)
    (hc : recursive_directory_iterator.construct fs os root options = Except.ok s0)
    (ops : List Op) (o : Outcome Session) (ho : o ∈ positions fs s0 ops)
    (e : directory) (he : yielded o = some e) :
    ∃ (impl : iterator_impl) (d : DIR) (p : Path) (rest : List (DIR × Path)) (n : String)
      (more : List ReadItem), o.state.it._impl = some impl ∧ impl.at_end = false ∧
      e.path = p ++ [n] ∧ Advance.chosen_entry fs options e.path = some e ∧
      ((impl.dir_stack = (({ d with pending := more } : DIR), p) :: rest ∧
          (e.is_directory = false ∨ fs.opendir e.path = Option.none)) ∨
        (∃ id items, fs.opendir e.path = some items ∧ e.is_directory = true ∧
          impl.dir_stack = (({ id := id, pending := items } : DIR), e.path) ::
            (({ d with pending := more } : DIR), p) :: rest)) := by
  have h := positions_spec fs os root options (fun _ => True) (StackInv.trivial fs options)
    (fun _ _ _ => True.intro) s0 hc ops o ho
  obtain ⟨s1, rfl, hne, hde⟩ := yielded_some o e he
  obtain ⟨hh, hat⟩ := h
  rcases hat s1 rfl with hend | ⟨impl, himpl, hae, hy⟩
  · rw [hend] at hne; simp at hne
  · obtain ⟨hopt, _⟩ := hh impl himpl
    obtain ⟨d, p, rest, n, more, e1, _, hpend, h1, h2, hce, hcur, hshape⟩ := hy
    have hpath := Advance.chosen_entry_path fs _ _ _ hce
    have hde1 : e = e1 := by
      rw [← hde, ← hcur]
      simp [recursive_directory_iterator.deref, himpl]
    subst hde1
    simp only at hce
    rw [hopt] at hce
    refine ⟨impl, d, p, rest, n, more, himpl, hae, hpath, by rw [hpath]; exact hce, ?_⟩
    rw [hpath]
    exact hshape

/-- With `skip_permission_denied` set neither `operator++` nor `pop()` throws. -/
theorem Op.apply_ok_of_skip (fs : FileSystem) (s : Session)
    (hk : ∀ impl, s.it._impl = some impl →
      HasOption impl.options directory_options.skip_permission_denied = true)
    (op : Op) : ∃ s1, op.apply fs s = Outcome.ok s1 := by
  obtain ⟨os, ⟨_ | impl⟩⟩ := s
  · cases op <;> exact ⟨_, rfl⟩
  · have hk1 := hk impl rfl
    have hstep : ∀ m : Machine, m.impl.options = impl.options →
        ∃ s1 : Session,
          (match Advance fs m with
            | Outcome.threw e m1 =>
              Outcome.threw e ({ os := m1.os, it := { _impl := some m1.impl } } : Session)
            | Outcome.ok m1 =>
              if m1.impl.at_end then
                Outcome.ok { os := iterator_impl.destroy m1, it := { _impl := Option.none } }
              else Outcome.ok { os := m1.os, it := { _impl := some m1.impl } }) =
            Outcome.ok s1 := by
      intro m hm
      obtain ⟨m1, hm1⟩ := Advance.no_throw_of_skip fs m (by rw [hm]; exact hk1)
      rw [hm1]
      cases he : m1.impl.at_end with
      | false => exact ⟨{ os := m1.os, it := { _impl := some m1.impl } }, by simp [he]⟩
      | true =>
        exact ⟨{ os := iterator_impl.destroy m1, it := { _impl := Option.none } }, by simp [he]⟩
    cases op with
    | inc =>
      cases he : impl.at_end with
      | true =>
        exact ⟨{ os := os, it := { _impl := some impl } },
          by simp [Op.apply, recursive_directory_iterator.operator_inc, he]⟩
      | false =>
        obtain ⟨s1, h1⟩ := hstep { os := os, impl := impl } rfl
        exact ⟨s1, by simpa [Op.apply, recursive_directory_iterator.operator_inc, he] using h1⟩
    | pop =>
      cases hs : impl.dir_stack with
      | nil =>
        exact ⟨{ os := os, it := { _impl := some impl } },
          by simp [Op.apply, recursive_directory_iterator.pop, hs]⟩
      | cons f rest =>
        obtain ⟨d, p⟩ := f
        obtain ⟨s1, h1⟩ := hstep
          { os := closedir d os
            impl := { impl with dir_stack := rest
                                current_depth := impl.current_depth - 1 } } rfl
        exact ⟨s1, by simpa [Op.apply, recursive_directory_iterator.pop, hs] using h1⟩

/-- With `skip_permission_denied` set no operation of a run throws. -/
theorem run_ok_of_skip (fs : FileSystem) (options : directory_options)
    (hk : HasOption options directory_options.skip_permission_denied = true) :
    ∀ (ops : List Op) (s : Session), Session.Holds options (fun _ => True) s →
      ∀ o ∈ run fs s ops, ∃ s1, o = Outcome.ok s1 := by
  intro ops
  induction ops with
  | nil => intro s _ o ho; simp [stdlike.run] at ho
  | cons op ops ih =>
    intro s hs o ho
    simp only [stdlike.run, List.mem_cons] at ho
    rcases ho with rfl | ho
    · exact Op.apply_ok_of_skip fs s (fun impl hi => by rw [(hs impl hi).1]; exact hk) op
    · exact ih _ (Op.apply_spec fs options _ (StackInv.trivial fs options) s hs op).1 o ho

/-- The entry chosen for a directory, or under `follow_directory_symlink` for a symlink
that resolves to a directory. -/
theorem Advance.chosen_entry_directory (fs : FileSystem) (options : directory_options)
    (q : Path) (y : directory)
    (hy : (∃ st, fs.lstat q = some st ∧ S_ISDIR st.st_mode = true ∧
        y = directory.construct q st false) ∨
      (∃ st tst, HasOption options directory_options.follow_directory_symlink = true ∧
        fs.lstat q = some st ∧ S_ISLNK st.st_mode = true ∧ fs.stat q = some tst ∧
        S_ISDIR tst.st_mode = true ∧ y = directory.construct q tst true)) :
    Advance.chosen_entry fs options q = some y ∧ y.is_directory = true ∧ y.path = q := by
  rcases hy with ⟨st, hl, hd, rfl⟩ | ⟨st, tst, hf, hl, hlnk, hs, hd, rfl⟩
  · have hlnk : S_ISLNK st.st_mode = false := by
      cases h : S_ISLNK st.st_mode
      · rfl
      · rw [S_ISLNK_not_S_ISDIR _ h] at hd; cases hd
    refine ⟨?_, hd, rfl⟩
    simp [Advance.chosen_entry, hl, hlnk]
  · exact ⟨Advance.chosen_entry_follow fs options q st tst hf hl hlnk hs hd, hd, rfl⟩

/-- C17: with `skip_permission_denied` set, for every path `q` that is a directory (or,
under `follow_directory_symlink`, a symlink resolving to a directory) and whose handle
cannot be opened, `y` being the entry built for it.  The advance step that reads the
name of `q` from the frame of its containing directory returns without error with `y`
as the current entry (`is_directory()` true), with the handle table and the depth as
they were and with the same frames on the frontier, the top one still that of the
containing directory, whose next entry the next advance step reads.  In every run from
a construction no operation throws; at a position that yields `q` the entry is `y`,
`depth()` is the level of the containing directory, the top frame is the containing
directory, and no position of the run yields an entry strictly under `q`. -/
theorem unopenable_directory_not_entered (fs : FileSystem) (options : directory_options)
    (hk : HasOption options directory_options.skip_permission_denied = true)
    (q : Path) (y : directory) (hq : fs.opendir q = Option.none)
    (hy : (∃ st, fs.lstat q = some st ∧ S_ISDIR st.st_mode = true ∧
        y = directory.construct q st false) ∨
      (∃ st tst, HasOption options directory_options.follow_directory_symlink = true ∧
        fs.lstat q = some st ∧ S_ISLNK st.st_mode = true ∧ fs.stat q = some tst ∧
        S_ISDIR tst.st_mode = true ∧ y = directory.construct q tst true)) :
    y.is_directory = true ∧ y.path = q ∧
    (∀ (m : Machine) (d : DIR) (p : Path) (rest : List (DIR × Path)) (dots : List ReadItem)
      (n : String) (more : List ReadItem), m.impl.options = options →
      m.impl.dir_stack = (d, p) :: rest → d.pending = dots ++ ReadItem.entry n :: more →
      (∀ x ∈ dots, is_dot_item x) → n ≠ "." → n ≠ ".." → p ++ [n] = q →
      Advance fs m = Outcome.ok ((m.consumed d p rest more).with_entry y)) ∧
    (∀ (os : HandleTable) (root : Path) (s0 : Session),
      recursive_directory_iterator.construct fs os root options = Except.ok s0 →
      ∀ ops : List Op,
        (∀ o ∈ positions fs s0 ops, ∃ s1, o = Outcome.ok s1) ∧
        (∀ o ∈ positions fs s0 ops, ∀ e, yielded o = some e → e.path = q →
          e = y ∧ o.state.it.depth = parent_level root q ∧
          (∃ impl d rest, o.state.it._impl = some impl ∧
            impl.dir_stack = (d, q.dropLast) :: rest) ∧
          (∀ o2 ∈ positions fs s0 ops, ∀ e2, yielded o2 = some e2 → q <+: e2.path →
            e2.path = q))) := by
  obtain ⟨hce, hdir, hpath⟩ := Advance.chosen_entry_directory fs options q y hy
  refine ⟨hdir, hpath, ?_, ?_⟩
  · intro m d p rest dots n more hopt hs hp hdots h1 h2 hpq
    apply Advance.yield_unopened fs m d p rest dots n more y hs hp hdots h1 h2
    · rw [hopt, hpq]; exact hce
    · right
      rw [hopt, hpq]
      exact ⟨hq, hk⟩
  · intro os root s0 hc ops
    constructor
    · intro o ho
      simp only [positions, List.mem_cons] at ho
      rcases ho with rfl | ho
      · exact ⟨s0, rfl⟩
      · exact run_ok_of_skip fs options hk ops s0
          (recursive_directory_iterator.construct_spec fs os root options _
            (StackInv.trivial fs options) (fun _ _ _ => True.intro) s0 hc).1 o ho
    · intro o ho e he hep
      obtain ⟨impl, d, p, rest, n, more, himpl, _, hpn, hch, hshape⟩ :=
        position_yield fs os root options s0 hc ops o ho e he
      have hey : e = y := by
        rw [hep, hce] at hch
        exact (Option.some.inj hch).symm
      obtain ⟨hpre, hdepth⟩ := position_depth fs os root options s0 hc ops o ho e he
      refine ⟨hey, ?_, ?_, ?_⟩
      · rw [hdepth, hep, hq]
        simp
      · rcases hshape with ⟨hst, _⟩ | ⟨id, items, hopen, _⟩
        · refine ⟨impl, { d with pending := more }, rest, himpl, ?_⟩
          rw [hst, ← hep, hpn, List.dropLast_concat]
        · rw [hep, hq] at hopen; cases hopen
      · intro o2 ho2 e2 he2 hpre2
        have hroot : ¬ q <+: root := by
          intro hqr
          rw [hep] at hpre
          have h1 := (hqr.trans hpre).length_le
          have h2 : q ≠ [] := by
            rw [← hep, hpn]; simp
          have h3 := List.length_dropLast q
          have h4 : 0 < q.length := List.length_pos.mpr h2
          omega
        have hsp := positions_spec fs os root options (NotUnder q)
          (NotUnder.not_under_kept fs options q (fun _ _ _ => hq))
          (fun id items _ f hf => by
            simp only [List.mem_singleton] at hf
            subst hf
            exact hroot) s0 hc ops o2 ho2
        obtain ⟨s2, rfl, hne2, hde2⟩ := yielded_some o2 e2 he2
        rcases hsp.2 s2 rfl with hend | hat
        · rw [hend] at hne2; cases hne2
        · rw [← hde2] at hpre2 ⊢
          exact hat.not_under hpre2

/-- The statement of `unopenable_directory_not_entered` on the directory `/u`, whose
subdirectory `/u/x` cannot be opened: the traversal yields `/u/x` at depth 0, then
`/u/f`, and ends. -/
theorem unopenable_directory_not_entered_witness :
    HasOption directory_options.skip_permission_denied
      directory_options.skip_permission_denied = true ∧
    Example.fs3.opendir ["u", "x"] = Option.none ∧
    ∃ s0, recursive_directory_iterator.construct Example.fs3 Example.os0 ["u"]
        directory_options.skip_permission_denied = Except.ok s0 ∧
      (positions Example.fs3 s0 [Op.inc, Op.inc]).map
          (fun o => ((yielded o).map directory.path, o.state.it.depth)) =
        [(some ["u", "x"], 0), (some ["u", "f"], 0), (Option.none, -1)] ∧
      (∀ o ∈ positions Example.fs3 s0 [Op.inc, Op.inc], ∃ s1, o = Outcome.ok s1) ∧
      (∀ o ∈ positions Example.fs3 s0 [Op.inc, Op.inc], ∀ e, yielded o = some e →
        e.path = ["u", "x"] →
        e = directory.construct ["u", "x"] Example.dir_stat false ∧
        o.state.it.depth = parent_level ["u"] ["u", "x"] ∧
        (∃ impl d rest, o.state.it._impl = some impl ∧
          impl.dir_stack = (d, List.dropLast ["u", "x"]) :: rest) ∧
        (∀ o2 ∈ positions Example.fs3 s0 [Op.inc, Op.inc], ∀ e2, yielded o2 = some e2 →
          ["u", "x"] <+: e2.path → e2.path = ["u", "x"])) :=
  ⟨rfl, rfl, _, rfl, rfl,
    (unopenable_directory_not_entered Example.fs3 directory_options.skip_permission_denied
      rfl ["u", "x"] (directory.construct ["u", "x"] Example.dir_stat false) rfl
      (Or.inl ⟨Example.dir_stat, rfl, rfl, rfl⟩)).2.2.2 Example.os0 ["u"] _ rfl
      [Op.inc, Op.inc]⟩

/-! ## Symlinks to something that is not a directory -/

theorem S_ISLNK_not_S_ISREG (mode : Nat) (h : S_ISLNK mode = true) : S_ISREG mode = false := by
  unfold S_ISLNK at h
  unfold S_ISREG
  have h1 : mode &&& S_IFMT = S_IFLNK := eq_of_beq h
  rw [h1]
  decide

/-- The entry chosen for a symlink whose target is not a directory is built from the
non-following metadata, whatever the options are. -/
theorem Advance.chosen_entry_symlink_flat (fs : FileSystem) (options : directory_options)
    (q : Path) (st tst : struct_stat) (hl : fs.lstat q = some st)
    (hlnk : S_ISLNK st.st_mode = true) (hst : fs.stat q = some tst)
    (hnd : S_ISDIR tst.st_mode = false) :
    Advance.chosen_entry fs options q = some (directory.construct q st true) := by
  cases hf : HasOption options directory_options.follow_directory_symlink <;>
    simp [Advance.chosen_entry, hl, hlnk, hst, hnd, hf]

/-- C18: for every path `q` that is a symlink whose target resolves to something that is
not a directory, the entry built for `q` is `directory(q, st, true)` from the
non-following metadata `st`, for every value of the options: with
`follow_directory_symlink` set it is the entry that is built with the option unset.
Its `is_symlink()` is true, `is_regular_file()` and `is_directory()` are false and
`file_size()` is 0.  The advance step that reads the name of `q` returns with this
entry and pushes no frame; at every position of every run that yields `q` the entry is
this one, `depth()` is the level of the containing directory and the top frame is the
containing directory. -/
theorem symlink_to_non_directory (fs : FileSystem) (q : Path) (st tst : struct_stat)
    (hl : fs.lstat q = some st) (hlnk : S_ISLNK st.st_mode = true)
    (hst : fs.stat q = some tst) (hnd : S_ISDIR tst.st_mode = false) :
    (directory.construct q st true).path = q ∧
    (directory.construct q st true).is_symlink = true ∧
    (directory.construct q st true).is_regular_file = false ∧
    (directory.construct q st true).is_directory = false ∧
    (directory.construct q st true).file_size = 0 ∧
    (∀ (m : Machine) (d : DIR) (p : Path) (rest : List (DIR × Path)) (dots : List ReadItem)
      (n : String) (more : List ReadItem),
      m.impl.dir_stack = (d, p) :: rest → d.pending = dots ++ ReadItem.entry n :: more →
      (∀ x ∈ dots, is_dot_item x) → n ≠ "." → n ≠ ".." → p ++ [n] = q →
      Advance fs m =
        Outcome.ok ((m.consumed d p rest more).with_entry (directory.construct q st true))) ∧
    (∀ (os : HandleTable) (root : Path) (options : directory_options) (s0 : Session),
      recursive_directory_iterator.construct fs os root options = Except.ok s0 →
      ∀ ops : List Op, ∀ o ∈ positions fs s0 ops, ∀ e, yielded o = some e → e.path = q →
        e = directory.construct q st true ∧
        o.state.it.depth = parent_level root q ∧
        (∃ impl d rest, o.state.it._impl = some impl ∧
          impl.dir_stack = (d, q.dropLast) :: rest)) := by
  have hreg := S_ISLNK_not_S_ISREG _ hlnk
  have hdir := S_ISLNK_not_S_ISDIR _ hlnk
  have hdir2 : (directory.construct q st true).is_directory = false := hdir
  refine ⟨rfl, rfl, hreg, hdir, ?_, ?_, ?_⟩
  · rw [directory.file_size_construct, hreg]
    exact to_int_zero
  · intro m d p rest dots n more hs hp hdots h1 h2 hpq
    apply Advance.yield_unopened fs m d p rest dots n more _ hs hp hdots h1 h2
    · rw [hpq]
      exact Advance.chosen_entry_symlink_flat fs _ q st tst hl hlnk hst hnd
    · exact Or.inl hdir2
  · intro os root options s0 hc ops o ho e he hep
    obtain ⟨impl, d, p, rest, n, more, himpl, _, hpn, hch, hshape⟩ :=
      position_yield fs os root options s0 hc ops o ho e he
    have hey : e = directory.construct q st true := by
      rw [hep, Advance.chosen_entry_symlink_flat fs _ q st tst hl hlnk hst hnd] at hch
      exact (Option.some.inj hch).symm
    obtain ⟨_, hdepth⟩ := position_depth fs os root options s0 hc ops o ho e he
    refine ⟨hey, ?_, ?_⟩
    · have hd3 : e.is_directory = false := by rw [hey]; exact hdir2
      rw [hdepth, hep, hd3]
      simp
    · rcases hshape with ⟨hstk, _⟩ | ⟨id, items, _, hd, _⟩
      · refine ⟨impl, { d with pending := more }, rest, himpl, ?_⟩
        rw [hstk, ← hep, hpn, List.dropLast_concat]
      · rw [hey, hdir2] at hd; cases hd

/-- The statement of `symlink_to_non_directory` on the directory `/s`, whose symlink
`/s/l` points at a regular file of 10 bytes: with `follow_directory_symlink` set the
second entry of the traversal is the symlink with size 0, at depth 0, and it is the
entry that the traversal without the option yields. -/
theorem symlink_to_non_directory_witness :
    S_ISLNK Example.link_stat.st_mode = true ∧ S_ISREG Example.file_stat.st_mode = true ∧
    Example.file_stat.st_size = 10 ∧
    ∃ s0 s1 t0 t1,
      recursive_directory_iterator.construct Example.fs5 Example.os0 ["s"]
        directory_options.follow_directory_symlink = Except.ok s0 ∧
      recursive_directory_iterator.operator_inc Example.fs5 s0 = Outcome.ok s1 ∧
      recursive_directory_iterator.construct Example.fs5 Example.os0 ["s"]
        directory_options.none = Except.ok t0 ∧
      recursive_directory_iterator.operator_inc Example.fs5 t0 = Outcome.ok t1 ∧
      s1.it.is_end = false ∧ s1.it.deref.path = ["s", "l"] ∧ t1.it.deref = s1.it.deref ∧
      s1.frontier.length = 1 ∧
      (s1.it.deref = directory.construct ["s", "l"] Example.link_stat true ∧
        s1.it.depth = parent_level ["s"] ["s", "l"] ∧
        (∃ impl d rest, s1.it._impl = some impl ∧
          impl.dir_stack = (d, List.dropLast ["s", "l"]) :: rest)) :=
  ⟨rfl, rfl, rfl, _, _, _, _, rfl, rfl, rfl, rfl, rfl, rfl, rfl, rfl,
    (symlink_to_non_directory Example.fs5 ["s", "l"] Example.link_stat Example.file_stat
      rfl rfl rfl rfl).2.2.2.2.2.2 Example.os0 ["s"] directory_options.follow_directory_symlink
      _ rfl [Op.inc] (Outcome.ok _) (List.mem_cons_of_mem _ (List.mem_cons_self _ _)) _
      rfl rfl⟩

/-! ## The traversal as a recursive pre-order listing -/

/-- On a finite tree realised by the file system, the recursive listing is the list of
the paths of the tree's entries. -/
theorem DirTree.walk_children_eq (fs : FileSystem) (options : directory_options) :
    ∀ (t : DirTree) (p : Path) (fuel : Nat), t.realized fs options p → t.count ≤ fuel →
      walk_children fs (walk fs fuel) p (item_names t.items) =
        (t.entries p).map directory.path := by
  intro t
  induction t with
  | nil =>
    intro p fuel _ _
    rfl
  | skip n rest ih =>
    intro p fuel hr hc
    obtain ⟨hn, hrest⟩ := hr
    simp only [DirTree.items, item_names, walk_children, if_pos hn, DirTree.entries]
    exact ih p fuel hrest hc
  | leaf n st rest ih =>
    intro p fuel hr hc
    obtain ⟨h1, h2, hl, hd, _, hrest⟩ := hr
    have hn : ¬ (n = "." ∨ n = "..") := fun h => h.elim h1 h2
    simp only [DirTree.count] at hc
    simp only [DirTree.items, item_names, walk_children, if_neg hn, DirTree.entries, hl, hd,
      List.map_cons]
    rw [ih p fuel hrest (by omega)]
    rfl
  | dir n st ch rest ihc ihr =>
    intro p fuel hr hc
    obtain ⟨h1, h2, hl, hd, ho, hch, hrest⟩ := hr
    have hn : ¬ (n = "." ∨ n = "..") := fun h => h.elim h1 h2
    simp only [DirTree.count] at hc
    obtain ⟨k, rfl⟩ : ∃ k, fuel = k + 1 := ⟨fuel - 1, by omega⟩
    have hsub : walk fs (k + 1) (p ++ [n]) = (ch.entries (p ++ [n])).map directory.path := by
      have := ihc (p ++ [n]) k hch (by omega)
      simp only [walk, ho, Option.getD_some]
      exact this
    simp only [DirTree.items, item_names, walk_children, if_neg hn, DirTree.entries, hl, hd,
      List.map_cons, List.map_append, if_true]
    rw [ihr p (k + 1) hrest (by omega), hsub]
    rfl

/-- Every path of the listing of `d` lies strictly under `d`. -/
theorem walk_under (fs : FileSystem) :
    ∀ (fuel : Nat) (d q : Path), q ∈ walk fs fuel d → d <+: q ∧ d.length < q.length := by
  intro fuel
  induction fuel with
  | zero => intro d q hq; simp [walk] at hq
  | succ fuel ih =>
    intro d q hq
    simp only [walk] at hq
    generalize item_names ((fs.opendir d).getD []) = names at hq
    induction names with
    | nil => simp [walk_children] at hq
    | cons c cs ihc =>
      simp only [walk_children] at hq
      split at hq
      · exact ihc hq
      · simp only [List.cons_append, List.mem_cons, List.mem_append] at hq
        rcases hq with rfl | hq | hq
        · exact ⟨List.prefix_append _ _, by simp⟩
        · have hsub : q ∈ walk fs fuel (d ++ [c]) := by
            split at hq
            · split at hq
              · exact hq
              · simp at hq
            · simp at hq
          obtain ⟨h1, h2⟩ := ih (d ++ [c]) q hsub
          exact ⟨(List.prefix_append _ _).trans h1, by simp at h2; omega⟩
        · exact ihc hq

/-- In the listing of `d` every path is a child of `d` or comes after its parent. -/
theorem walk_parents_first (fs : FileSystem) :
    ∀ (fuel : Nat) (d : Path), ParentsFirst d (walk fs fuel d) := by
  intro fuel
  induction fuel with
  | zero =>
    intro d a q b h
    simp [walk] at h
  | succ fuel ih =>
    intro d
    simp only [walk]
    generalize item_names ((fs.opendir d).getD []) = names
    induction names with
    | nil =>
      intro a q b h
      simp [walk_children] at h
    | cons c cs ihc =>
      simp only [walk_children]
      split
      · exact ihc
      · intro a q b h
        cases a with
        | nil =>
          simp only [List.nil_append, List.cons_append, List.cons.injEq] at h
          left
          rw [← h.1, List.dropLast_concat]
        | cons x a1 =>
          simp only [List.cons_append, List.cons.injEq] at h
          obtain ⟨hx, h⟩ := h
          rcases List.append_eq_append_iff.mp h with ⟨a2, h1, h2⟩ | ⟨b2, h1, h2⟩
          · -- the sub-listing is a prefix of `a1`
            rcases ihc a2 q b h2 with hq | hq
            · exact Or.inl hq
            · right
              rw [h1]
              exact List.mem_cons_of_mem _ (List.mem_append_right _ hq)
          · -- `q` lies in the sub-listing or at the start of the rest
            cases b2 with
            | nil =>
              simp only [List.nil_append] at h2
              rcases ihc [] q b (by simpa using h2.symm) with hq | hq
              · exact Or.inl hq
              · simp at hq
            | cons y b3 =>
              simp only [List.cons_append, List.cons.injEq] at h2
              obtain ⟨rfl, h2⟩ := h2
              have hsub : ∃ l, l = walk fs fuel (d ++ [c]) ∧ l = a1 ++ q :: b3 := by
                split at h1
                · split at h1
                  · exact ⟨_, rfl, h1⟩
                  · simp at h1
                · simp at h1
              obtain ⟨l, hl1, hl2⟩ := hsub
              rcases ih (d ++ [c]) a1 q b3 (by rw [← hl1, hl2]) with hq | hq
              · right
                rw [hq, ← hx]
                exact List.mem_cons_self _ _
              · exact Or.inr (List.mem_cons_of_mem _ hq)

/-- C19: for every finite directory tree under a root directory that the file system
answers without failure, traversed without `follow_directory_symlink` or with no
symlink of the tree resolving to a directory: construction succeeds and the sequence of
paths visited by the range-for loop is the recursive pre-order listing `walk(root)`
(both taken with more steps than the tree has nodes).  In that listing every path is a
child of the root or comes after its parent directory, and the listing `walk(d)` that
follows a directory `d` consists of paths strictly under `d`. -/
theorem traversal_is_preorder_walk (fs : FileSystem) (os : HandleTable) (root : Path)
    (options : directory_options) (st : struct_stat) (t : DirTree)
    (hl : fs.lstat root = some st) (hd : S_ISDIR st.st_mode = true)
    (ho : fs.opendir root = some t.items) (hr : t.realized fs options root) :
    ∃ s0, recursive_directory_iterator.construct fs os root options = Except.ok s0 ∧
      (∀ n fuel, t.count < n → t.count < fuel →
        (visit fs n s0).map directory.path = walk fs fuel root) ∧
      (∀ fuel, ParentsFirst root (walk fs fuel root)) ∧
      (∀ fuel d q, q ∈ walk fs fuel d → d <+: q ∧ d.length < q.length) := by
  obtain ⟨s0, hc, hcase⟩ := DirTree.construct fs os root options st t hl hd ho hr
  have hlen := DirTree.entries_length root t
  refine ⟨s0, hc, ?_, fun fuel => walk_parents_first fs fuel root, walk_under fs⟩
  intro n fuel hn hf
  have hvisit : visit fs n s0 = t.entries root := by
    rcases hcase with ⟨hnil, hend⟩ | ⟨es, hes, hon⟩
    · rw [hnil, visit_null fs s0 hend]
    · rw [hes]
      apply hon.visit
      rw [hes] at hlen
      simp at hlen
      omega
  obtain ⟨k, rfl⟩ : ∃ k, fuel = k + 1 := ⟨fuel - 1, by omega⟩
  rw [hvisit]
  simp only [walk, ho, Option.getD_some]
  have hk := DirTree.walk_children_eq fs options t root k hr (by omega)
  exact hk.symm

/-- The statement of `traversal_is_preorder_walk` on the example of the specification:
the paths visited and the listing `walk(/a)` are both `/a/f`, `/a/d`, `/a/d/g`. -/
theorem traversal_is_preorder_walk_witness :
    walk Example.fs 4 ["a"] = [["a", "f"], ["a", "d"], ["a", "d", "g"]] ∧
    ∃ s0, recursive_directory_iterator.construct Example.fs Example.os0 ["a"]
        directory_options.none = Except.ok s0 ∧
      (visit Example.fs 4 s0).map directory.path =
        [["a", "f"], ["a", "d"], ["a", "d", "g"]] ∧
      (∀ n fuel, Example.tree.count < n → Example.tree.count < fuel →
        (visit Example.fs n s0).map directory.path = walk Example.fs fuel ["a"]) ∧
      (∀ fuel, ParentsFirst ["a"] (walk Example.fs fuel ["a"])) ∧
      (∀ fuel d q, q ∈ walk Example.fs fuel d → d <+: q ∧ d.length < q.length) :=
  ⟨by decide,
    (traversal_is_preorder_walk Example.fs Example.os0 ["a"] directory_options.none
      Example.dir_stat Example.tree rfl rfl rfl Example.tree_realized).imp
      (fun _ h => ⟨h.1, by rw [h.2.1 4 4 (by decide) (by decide)]; decide, h.2⟩)⟩

/-! ## A symlink cycle -/

theorem Example.on_cycle_step (p : Path) (h : Example.on_cycle p = true) :
    Example.on_cycle (p ++ ["l"]) = true ∧ p ++ ["l"] ≠ ["c"] := by
  cases p with
  | nil => simp [Example.on_cycle] at h
  | cons c ls =>
    simp only [Example.on_cycle, Bool.and_eq_true] at h
    constructor
    · simp only [List.cons_append, Example.on_cycle, Bool.and_eq_true, List.all_append]
      exact ⟨h.1, h.2, by decide⟩
    · intro hc
      have := congrArg List.length hc
      simp at this

/-- One `operator++` on the cycle descends one level. -/
theorem Example.OnCycle.descend {k : Nat} {s : Session} (h : Example.OnCycle k s) :
    ∃ s1, recursive_directory_iterator.operator_inc Example.cycle_fs s = Outcome.ok s1 ∧
      Example.OnCycle (k + 1) s1 := by
  obtain ⟨impl, d, p, rest, himpl, he, hopt, hs, hp, hon, hlen⟩ := h
  obtain ⟨os, ⟨_ | impl1⟩⟩ := s
  · cases himpl
  · simp only [Option.some.injEq] at himpl
    subst himpl
    obtain ⟨hon1, hne1⟩ := Example.on_cycle_step p hon
    have hl : Example.cycle_fs.lstat (p ++ ["l"]) = some Example.link_stat := by
      simp [Example.cycle_fs, hne1, hon1]
    have hst : Example.cycle_fs.stat (p ++ ["l"]) = some Example.dir_stat := by
      simp [Example.cycle_fs, hon1]
    have ho : Example.cycle_fs.opendir (p ++ ["l"]) =
        some [ReadItem.entry ".", ReadItem.entry "..", ReadItem.entry "l"] := by
      simp [Example.cycle_fs, hon1]
    have hce : Advance.chosen_entry Example.cycle_fs impl1.options (p ++ ["l"]) =
        some (directory.construct (p ++ ["l"]) Example.dir_stat true) :=
      Advance.chosen_entry_follow _ _ _ _ _ (by rw [hopt]; rfl) hl rfl hst rfl
    have hadv := Advance.yield_opened Example.cycle_fs { os := os, impl := impl1 } d p rest
      [ReadItem.entry ".", ReadItem.entry ".."] "l" [] _ _ hs hp
      (by
        intro x hx
        simp only [List.mem_cons, List.mem_singleton, List.not_mem_nil, or_false] at hx
        rcases hx with rfl | rfl
        · exact Or.inl rfl
        · exact Or.inr rfl)
      (by decide) (by decide) hce rfl ho
    refine ⟨{ os := { os with opened := os.opened + 1 }
              it :=
                { _impl := some { impl1 with
                    dir_stack :=
                      ({ id := os.opened
                         pending :=
                           [ReadItem.entry ".", ReadItem.entry "..", ReadItem.entry "l"] },
                        p ++ ["l"]) :: ({ d with pending := [] }, p) :: rest
                    current_entry := directory.construct (p ++ ["l"]) Example.dir_stat true
                    current_depth := impl1.current_depth + 1 } } },
      by simp [recursive_directory_iterator.operator_inc, he, hadv], ?_⟩
    exact ⟨_, _, _, _, rfl, he, hopt, rfl, rfl, hon1, by simp [hlen]⟩

theorem Example.OnCycle.descend_n :
    ∀ (n k : Nat) (s : Session), Example.OnCycle k s →
      ∃ sn, stdlike.advance_n Example.cycle_fs n s = some sn ∧ Example.OnCycle (k + n) sn := by
  intro n
  induction n with
  | zero => intro k s h; exact ⟨s, rfl, h⟩
  | succ n ih =>
    intro k s h
    obtain ⟨s1, h1, h2⟩ := h.descend
    obtain ⟨sn, h3, h4⟩ := ih (k + 1) s1 h2
    refine ⟨sn, ?_, ?_⟩
    · simp only [stdlike.advance_n, h1]
      exact h3
    · have : k + (n + 1) = k + 1 + n := by omega
      rw [this]
      exact h4

/-- C20: on the directory `/c` whose only entry is the symlink `/c/l` pointing back at
`/c`, traversed with `follow_directory_symlink`: construction succeeds, and for every
`n` the `n`-th `operator++` returns without error, the iterator is then not terminal
and its frontier holds `n + 2` open frames, more than `n`. -/
theorem symlink_cycle_unbounded :
    Example.cycle_fs.opendir ["c"] =
      some [ReadItem.entry ".", ReadItem.entry "..", ReadItem.entry "l"] ∧
    (∀ k, S_ISLNK ((Example.cycle_fs.lstat ("c" :: List.replicate (k + 1) "l")).getD
        Example.dir_stat).st_mode = true ∧
      Example.cycle_fs.stat ("c" :: List.replicate (k + 1) "l") =
        Example.cycle_fs.stat ["c"]) ∧
    ∃ s0, recursive_directory_iterator.construct Example.cycle_fs Example.os0 ["c"]
        directory_options.follow_directory_symlink = Except.ok s0 ∧
      ∀ n, ∃ sn, advance_n Example.cycle_fs n s0 = some sn ∧ sn.it.is_end = false ∧
        sn.frontier.length = n + 2 ∧ n < sn.frontier.length := by
  have hrep : ∀ k, Example.on_cycle ("c" :: List.replicate k "l") = true := by
    intro k
    simp [Example.on_cycle]
  refine ⟨rfl, ?_, Example.cycle_start, rfl, ?_⟩
  · intro k
    have hne : ("c" :: List.replicate (k + 1) "l") ≠ ["c"] := by
      intro hc
      have := congrArg List.length hc
      simp at this
    have h1 : Example.cycle_fs.lstat ("c" :: List.replicate (k + 1) "l") =
        some Example.link_stat := by
      simp only [Example.cycle_fs, if_neg hne, hrep (k + 1), if_true]
    have h2 : Example.cycle_fs.stat ("c" :: List.replicate (k + 1) "l") =
        some Example.dir_stat := by
      simp only [Example.cycle_fs, hrep (k + 1), if_true]
    rw [h1, h2]
    exact ⟨rfl, rfl⟩
  · intro n
    have h0 : Example.OnCycle 0 Example.cycle_start :=
      ⟨_, _, _, _, rfl, rfl, rfl, rfl, rfl, rfl, rfl⟩
    obtain ⟨sn, h1, impl, d, p, rest, himpl, he, _, hs, _, _, hlen⟩ :=
      Example.OnCycle.descend_n n 0 Example.cycle_start h0
    refine ⟨sn, h1, ?_, ?_, ?_⟩
    · simp [recursive_directory_iterator.is_end, himpl, he]
    · simp [Session.frontier, himpl, hs, hlen]
    · simp only [Session.frontier, himpl, hs, List.length_cons, hlen]
      omega

/-! ## Copies of an iterator -/

/-- Once set, `at_end` stays set through `Advance`. -/
theorem Advance.at_end_kept (fs : FileSystem) (m : Machine) (h : m.impl.at_end = true) :
    (Advance fs m).state.impl.at_end = true := by
  have hm := Advance.master fs (fun _ => True) m (StackInv.trivial fs _) True.intro
  cases hr : Advance fs m with
  | ok m1 =>
    rw [hr] at hm
    rcases hm.2.2.2 with ⟨_, h1⟩ | ⟨h1, _⟩
    · exact h1
    · exact h1.trans h
  | threw e m1 =>
    rw [hr] at hm
    exact hm.2.2.2.1.trans h

theorem Aliased.Coherent.swap {s : Aliased} (h : s.Coherent) : s.swap.Coherent := by
  rcases h with h | h
  · exact Or.inl h.symm
  · exact Or.inr h

/-- Every operation on `a` keeps the two values coherent. -/
theorem Aliased.Coherent.apply_a (fs : FileSystem) {s : Aliased} (h : s.Coherent)
    (op : Op) : (Aliased.apply_a fs s op).state.Coherent := by
  obtain ⟨os, cell, a_set, b_set⟩ := s
  have hstep : ∀ m : Machine, (cell.at_end = true → m.impl.at_end = true) →
      (a_set = b_set ∨ cell.at_end = true) →
      Aliased.Coherent
        (match Advance fs m with
          | Outcome.threw e m1 =>
            Outcome.threw e
              ({ os := m1.os, cell := m1.impl, a_set := a_set, b_set := b_set } : Aliased)
          | Outcome.ok m1 =>
            if m1.impl.at_end then
              Outcome.ok (Aliased.reset
                { os := m1.os, cell := m1.impl, a_set := a_set, b_set := b_set })
            else
              Outcome.ok { os := m1.os, cell := m1.impl, a_set := a_set, b_set := b_set }).state := by
    intro m hmono hco
    have hkept := Advance.at_end_kept fs m
    cases hr : Advance fs m with
    | threw e m1 =>
      rw [hr] at hkept
      rcases hco with hco | hco
      · exact Or.inl hco
      · exact Or.inr (hkept (hmono hco))
    | ok m1 =>
      rw [hr] at hkept
      cases he : m1.impl.at_end with
      | true =>
        cases b_set with
        | true => exact Or.inr (by simp [he, Outcome.state, Aliased.reset])
        | false => exact Or.inl (by simp [he, Outcome.state, Aliased.reset])
      | false =>
        simp only [he, Bool.false_eq_true, if_false, Outcome.state]
        rcases hco with hco | hco
        · exact Or.inl hco
        · have := hkept (hmono hco)
          simp only [Outcome.state] at this
          rw [he] at this
          cases this
  cases op with
  | inc =>
    simp only [Aliased.apply_a, Aliased.operator_inc]
    cases hg : (a_set && !cell.at_end) with
    | false => simpa [hg] using h
    | true =>
      simp only [if_true]
      have hne : cell.at_end = false := by
        simp only [Bool.and_eq_true, Bool.not_eq_true'] at hg
        exact hg.2
      exact hstep { os := os, impl := cell } (fun hc => by rw [hne] at hc; cases hc) h
  | pop =>
    simp only [Aliased.apply_a, Aliased.pop]
    cases a_set with
    | false => simpa using h
    | true =>
      simp only [if_true]
      cases hs : cell.dir_stack with
      | nil => simpa using h
      | cons f rest =>
        obtain ⟨d, p⟩ := f
        exact hstep _ (fun hc => hc) h

theorem Outcome.state_map {σ τ : Type} (f : σ → τ) (o : Outcome σ) :
    (o.map f).state = f o.state := by
  cases o <;> rfl

/-- Every operation on either value keeps the two values coherent. -/
theorem Aliased.Coherent.coherent_apply (fs : FileSystem) {s : Aliased} (h : s.Coherent)
    (on_b : Bool) (op : Op) : (Aliased.apply fs s on_b op).state.Coherent := by
  cases on_b with
  | false => exact h.apply_a fs op
  | true =>
    simp only [Aliased.apply, if_true, Outcome.state_map]
    exact (h.swap.apply_a fs op).swap

theorem Aliased.Coherent.coherent_run (fs : FileSystem) :
    ∀ (ops : List (Bool × Op)) (s : Aliased), s.Coherent →
      ∀ o ∈ Aliased.run fs s ops, o.state.Coherent := by
  intro ops
  induction ops with
  | nil => intro s _ o ho; simp [Aliased.run] at ho
  | cons x ops ih =>
    intro s h o ho
    obtain ⟨on_b, op⟩ := x
    simp only [Aliased.run, List.mem_cons] at ho
    rcases ho with rfl | ho
    · exact h.coherent_apply fs on_b op
    · exact ih _ (h.coherent_apply fs on_b op) o ho

theorem operator_eq_same (x : recursive_directory_iterator) :
    recursive_directory_iterator.operator_eq x x = true := by
  unfold recursive_directory_iterator.operator_eq
  cases x.is_end <;> simp

/-- Coherent values observe the same position. -/
theorem Aliased.Coherent.same_position {s : Aliased} (h : s.Coherent) :
    recursive_directory_iterator.operator_eq s.a s.b = true ∧
    s.a.is_end = s.b.is_end ∧ s.a.depth = s.b.depth ∧
    (s.a.is_end = false → s.a.deref = s.b.deref) := by
  obtain ⟨os, cell, a_set, b_set⟩ := s
  rcases h with h | h
  · simp only at h
    subst h
    exact ⟨operator_eq_same _, rfl, rfl, fun _ => rfl⟩
  · simp only at h
    cases a_set <;> cases b_set <;>
      simp [Aliased.a, Aliased.b, recursive_directory_iterator.is_end,
        recursive_directory_iterator.depth, recursive_directory_iterator.operator_eq, h]

/-- An operation on `a` moves `a` as it would move an iterator that has no copy. -/
theorem Aliased.apply_a_alone (fs : FileSystem) (s : Aliased) (op : Op) :
    (Aliased.apply_a fs s op).state.a = (op.apply fs { os := s.os, it := s.a }).state.it ∧
    ((∃ s1, Aliased.apply_a fs s op = Outcome.ok s1) ↔
      ∃ t1, op.apply fs { os := s.os, it := s.a } = Outcome.ok t1) := by
  obtain ⟨os, cell, a_set, b_set⟩ := s
  have hstep : ∀ m : Machine,
      ((match Advance fs m with
          | Outcome.threw e m1 =>
            Outcome.threw e
              ({ os := m1.os, cell := m1.impl, a_set := true, b_set := b_set } : Aliased)
          | Outcome.ok m1 =>
            if m1.impl.at_end then
              Outcome.ok (Aliased.reset
                { os := m1.os, cell := m1.impl, a_set := true, b_set := b_set })
            else
              Outcome.ok { os := m1.os, cell := m1.impl, a_set := true, b_set := b_set }).state.a =
        (match Advance fs m with
          | Outcome.threw e m1 =>
            Outcome.threw e ({ os := m1.os, it := { _impl := some m1.impl } } : Session)
          | Outcome.ok m1 =>
            if m1.impl.at_end then
              Outcome.ok { os := iterator_impl.destroy m1, it := { _impl := Option.none } }
            else Outcome.ok { os := m1.os, it := { _impl := some m1.impl } }).state.it) ∧
      ((∃ s1, (match Advance fs m with
          | Outcome.threw e m1 =>
            Outcome.threw e
              ({ os := m1.os, cell := m1.impl, a_set := true, b_set := b_set } : Aliased)
          | Outcome.ok m1 =>
            if m1.impl.at_end then
              Outcome.ok (Aliased.reset
                { os := m1.os, cell := m1.impl, a_set := true, b_set := b_set })
            else
              Outcome.ok { os := m1.os, cell := m1.impl, a_set := true, b_set := b_set }) =
            Outcome.ok s1) ↔
        ∃ t1, (match Advance fs m with
          | Outcome.threw e m1 =>
            Outcome.threw e ({ os := m1.os, it := { _impl := some m1.impl } } : Session)
          | Outcome.ok m1 =>
            if m1.impl.at_end then
              Outcome.ok { os := iterator_impl.destroy m1, it := { _impl := Option.none } }
            else Outcome.ok { os := m1.os, it := { _impl := some m1.impl } }) =
            Outcome.ok t1) := by
    intro m
    cases hr : Advance fs m with
    | threw e m1 => simp [Outcome.state, Aliased.a]
    | ok m1 =>
      cases he : m1.impl.at_end <;> cases b_set <;>
        simp [he, Outcome.state, Aliased.a, Aliased.reset]
  cases a_set with
  | false =>
    cases op <;>
      simp [Aliased.apply_a, Aliased.operator_inc, Aliased.pop, Aliased.a, Op.apply,
        recursive_directory_iterator.operator_inc, recursive_directory_iterator.pop,
        Outcome.state]
  | true =>
    cases op with
    | inc =>
      cases he : cell.at_end with
      | true =>
        simp [Aliased.apply_a, Aliased.operator_inc, Aliased.a, Op.apply,
          recursive_directory_iterator.operator_inc, Outcome.state, he]
      | false =>
        have := hstep { os := os, impl := cell }
        simpa [Aliased.apply_a, Aliased.operator_inc, Aliased.a, Op.apply,
          recursive_directory_iterator.operator_inc, he] using this
    | pop =>
      cases hs : cell.dir_stack with
      | nil =>
        simp [Aliased.apply_a, Aliased.pop, Aliased.a, Op.apply,
          recursive_directory_iterator.pop, Outcome.state, hs]
      | cons f rest =>
        obtain ⟨d, p⟩ := f
        have := hstep { os := closedir d os
                        impl := { cell with dir_stack := rest
                                            current_depth := cell.current_depth - 1 } }
        simpa [Aliased.apply_a, Aliased.pop, Aliased.a, Op.apply,
          recursive_directory_iterator.pop, hs] using this

/-- C15: a copy `b` of an iterator `a` (copy construction, copy assignment or `begin()`)
holds the pointer of `a`, so both are the value `a` had.  At every position of every
run of `operator++` and `pop()` calls applied to either of the two, whether the calls
return or throw, `b` observes the position of `a`: `a == b`, `a.is_end() = b.is_end()`,
`a.depth() = b.depth()`, and when they are not terminal `*a` and `*b` are the same
entry.  Every operation moves the value it is applied to exactly as it would move an
iterator that has no copy, so the other value follows that one traversal. -/
theorem copies_alias_one_traversal (fs : FileSystem) (os : HandleTable)
    (it : recursive_directory_iterator) :
    (Aliased.copy os it).a = it ∧ (Aliased.copy os it).b = it ∧
    (∀ (ops : List (Bool × Op)), ∀ o ∈ Aliased.positions fs (Aliased.copy os it) ops,
      recursive_directory_iterator.operator_eq o.state.a o.state.b = true ∧
      o.state.a.is_end = o.state.b.is_end ∧ o.state.a.depth = o.state.b.depth ∧
      (o.state.a.is_end = false → o.state.a.deref = o.state.b.deref)) ∧
    (∀ (s : Aliased) (op : Op),
      (Aliased.apply fs s false op).state.a =
        (op.apply fs { os := s.os, it := s.a }).state.it ∧
      (Aliased.apply fs s true op).state.b =
        (op.apply fs { os := s.os, it := s.b }).state.it ∧
      ((∃ s1, Aliased.apply fs s false op = Outcome.ok s1) ↔
        ∃ t1, op.apply fs { os := s.os, it := s.a } = Outcome.ok t1)) := by
  have hco : (Aliased.copy os it).Coherent := by
    obtain ⟨_ | impl⟩ := it <;> exact Or.inl rfl
  refine ⟨?_, ?_, ?_, ?_⟩
  · obtain ⟨_ | impl⟩ := it <;> rfl
  · obtain ⟨_ | impl⟩ := it <;> rfl
  · intro ops o ho
    simp only [Aliased.positions, List.mem_cons] at ho
    rcases ho with rfl | ho
    · exact hco.same_position
    · exact (Aliased.Coherent.coherent_run fs ops _ hco o ho).same_position
  · intro s op
    refine ⟨(Aliased.apply_a_alone fs s op).1, ?_, (Aliased.apply_a_alone fs s op).2⟩
    have h := (Aliased.apply_a_alone fs s.swap op).1
    simp only [Aliased.apply, if_true, Outcome.state_map]
    exact h

/-- The statement of `copies_alias_one_traversal` on the example of the specification:
after the copy, `++a`, `++b` and `++a` move both values to `/a/d`, to `/a/d/g` and to
the end. -/
theorem copies_alias_one_traversal_witness :
    ∃ s0, recursive_directory_iterator.construct Example.fs Example.os0 ["a"]
        directory_options.none = Except.ok s0 ∧
      (Aliased.positions Example.fs (Aliased.copy s0.os s0.it)
          [(false, Op.inc), (true, Op.inc), (false, Op.inc)]).map
        (fun o => ((if o.state.a.is_end then Option.none else some o.state.a.deref.path),
          (if o.state.b.is_end then Option.none else some o.state.b.deref.path),
          o.state.a.depth, o.state.b.depth)) =
        [(some ["a", "f"], some ["a", "f"], 0, 0), (some ["a", "d"], some ["a", "d"], 1, 1),
          (some ["a", "d", "g"], some ["a", "d", "g"], 1, 1),
          (Option.none, Option.none, -1, -1)] ∧
      (∀ o ∈ Aliased.positions Example.fs (Aliased.copy s0.os s0.it)
          [(false, Op.inc), (true, Op.inc), (false, Op.inc)],
        recursive_directory_iterator.operator_eq o.state.a o.state.b = true ∧
        o.state.a.is_end = o.state.b.is_end ∧ o.state.a.depth = o.state.b.depth ∧
        (o.state.a.is_end = false → o.state.a.deref = o.state.b.deref)) :=
  ⟨_, rfl, rfl,
    (copies_alias_one_traversal Example.fs _ _).2.2.1
      [(false, Op.inc), (true, Op.inc), (false, Op.inc)]⟩

/-! ## The contents of a followed symlink -/

end stdlike
